import Mathlib

/-!
# DAGA network layer: framing and nested length-prefixed encodings

A shallow embedding of `net/net.go` (package `net` of `mahdiz/daga`) together with
the constants of `config/shared.go` and `net/types.go` it uses.

Modelling conventions.

* A byte is a `Fin 256`. Go's `int` is taken to be 64 bits wide, so every length
  and every `int(uint32)` conversion is a natural number; the only wrap-around in
  the code is the explicit `uint16(..)` / `uint32(..)` conversion of a length.
* A buffer obtained from `make([]byte, n)` has capacity equal to its length and is
  a `List Byte`. A slice that is cut out of a larger buffer keeps the bytes up to
  the capacity of its backing array: it is a `Slice`, whose `spare` part holds the
  bytes between `len` and `cap`. A nil slice and an empty slice behave alike in
  every operation of the source and are both the empty list.
* A run-time panic is `Except.error` of a `Fault`; an `error` value returned by a
  function is an `Option NetError` (`none` is Go's `nil`).
* A connection is a record of what its peer will deliver and of how its transport
  answers `Write`. Output on the console (`fmt.Println`) is not modelled.
-/

namespace Daga

/-! ## Bytes and big-endian integers -/

abbrev Byte := Fin 256

/-- Go's `byte(v)` conversion of an unsigned integer. -/
def byteOf (v : Nat) : Byte := ⟨v % 256, Nat.mod_lt _ (by decide)⟩

/-- Go's `uint16(x)` conversion of a non-negative `int`. -/
def uint16 (x : Nat) : Nat := x % 65536

/-- Go's `uint32(x)` conversion of a non-negative `int`. -/
def uint32 (x : Nat) : Nat := x % 4294967296

/-- Reasons for which the Go runtime aborts a call. -/
inductive Fault where
  | sliceBounds
  | indexRange
  | explicit (msg : String)
  | outOfFuel
  | nilDereference
  deriving DecidableEq

/-- Values of Go's `error` interface that occur in the package. The constructors
that carry numbers stand for the `errors.New` messages built from those numbers;
`transport` and `suite` are the opaque errors of the connection and of the
cryptographic suite; `EOF` and `unexpectedEOF` are those of package `io`;
`wrongPublicKeyType` is the error of `ParsePublicKeyFromConn` on a wrong tag. -/
inductive NetError where
  | shortWrite (expected : Nat) (wrote : Int)
  | shortHeader (n : Nat)
  | versionMismatch (version : Nat)
  | shortBody (bodySize : Nat) (n : Nat)
  | datagramVersionMismatch (version : Nat)
  | truncatedDatagram (got : Int) (expected : Nat)
  | wrongMessageType
  | EOF
  | unexpectedEOF
  | transport (code : Nat)
  | suite (code : Nat)
  | wrongPublicKeyType (msgType : Nat)
  deriving DecidableEq

/-- The method call `err.Error()` on a value of the interface `error`: a nil
interface has no method to call, and the call panics with a nil dereference. -/
def errorText (err : Option NetError) : Except Fault Unit :=
  match err with
  | none => .error Fault.nilDereference
  | some _ => .ok ()

/-- Constant `LLD_PROTOCOL_VERSION` of `config/shared.go`. -/
def LLD_PROTOCOL_VERSION : Nat := 3

/-- Constant `MESSAGE_TYPE_PUBLICKEYS` of `net/types.go` (third value of the iota block). -/
def MESSAGE_TYPE_PUBLICKEYS : Nat := 2

/-- Result of `make([]byte, n)`: `n` zero bytes. -/
def makeBytes (n : Nat) : List Byte := List.replicate n 0

/-- Memory write: the bytes `src` replace those of `buf` from position `pos` on. -/
def overwrite (buf : List Byte) (pos : Nat) (src : List Byte) : List Byte :=
  buf.take pos ++ src ++ buf.drop (pos + src.length)

/-- The statement `copy(buf[lo:hi], src)` on a buffer whose capacity is its length:
the slice expression panics unless `lo ≤ hi ≤ len(buf)`, and `copy` transfers
`min(hi-lo, len(src))` bytes. The updated buffer is returned. -/
def copyInto (buf : List Byte) (lo hi : Nat) (src : List Byte) : Except Fault (List Byte) :=
  if lo ≤ hi ∧ hi ≤ buf.length then
    .ok (overwrite buf lo (src.take (hi - lo)))
  else
    .error Fault.sliceBounds

/-- The statement `binary.BigEndian.PutUint16(buf[lo:hi], v)` for a `uint16` value `v`:
`b[0] = byte(v >> 8); b[1] = byte(v)` after the bounds check `_ = b[1]`. -/
def PutUint16 (buf : List Byte) (lo hi : Nat) (v : Nat) : Except Fault (List Byte) :=
  if lo ≤ hi ∧ hi ≤ buf.length then
    if hi - lo < 2 then .error Fault.indexRange
    else .ok (overwrite buf lo [byteOf (v / 256), byteOf v])
  else
    .error Fault.sliceBounds

/-- The statement `binary.BigEndian.PutUint32(buf[lo:hi], v)` for a `uint32` value `v`:
`b[0] = byte(v >> 24); b[1] = byte(v >> 16); b[2] = byte(v >> 8); b[3] = byte(v)`
after the bounds check `_ = b[3]`. -/
def PutUint32 (buf : List Byte) (lo hi : Nat) (v : Nat) : Except Fault (List Byte) :=
  if lo ≤ hi ∧ hi ≤ buf.length then
    if hi - lo < 4 then .error Fault.indexRange
    else .ok (overwrite buf lo
      [byteOf (v / 16777216), byteOf (v / 65536), byteOf (v / 256), byteOf v])
  else
    .error Fault.sliceBounds

/-- A slice cut out of a buffer: `elems` are its `len` bytes, `spare` the bytes of
the backing array between its length and its capacity. -/
structure Slice where
  elems : List Byte
  spare : List Byte
  deriving DecidableEq

/-- A whole buffer seen as a slice (capacity equal to length). -/
def Slice.ofBuffer (b : List Byte) : Slice := ⟨b, []⟩

def Slice.len (s : Slice) : Nat := s.elems.length

def Slice.cap (s : Slice) : Nat := s.elems.length + s.spare.length

/-- The slice expression `s[lo:hi]`: legal when `lo ≤ hi ≤ cap(s)`. -/
def Slice.slice (s : Slice) (lo hi : Nat) : Except Fault Slice :=
  if lo ≤ hi ∧ hi ≤ s.cap then
    .ok ⟨((s.elems ++ s.spare).drop lo).take (hi - lo), (s.elems ++ s.spare).drop hi⟩
  else
    .error Fault.sliceBounds

/-- The slice expression `s[lo:]`, that is `s[lo:len(s)]`. -/
def Slice.sliceFrom (s : Slice) (lo : Nat) : Except Fault Slice :=
  s.slice lo s.len

/-- The call `binary.BigEndian.Uint16(b)`: `uint16(b[1]) | uint16(b[0])<<8`. -/
def Uint16 (b : Slice) : Except Fault Nat :=
  match b.elems with
  | b0 :: b1 :: _ => .ok (b0.val * 256 + b1.val)
  | _ => .error Fault.indexRange

/-- The call `binary.BigEndian.Uint32(b)`:
`uint32(b[3]) | uint32(b[2])<<8 | uint32(b[1])<<16 | uint32(b[0])<<24`. -/
def Uint32 (b : Slice) : Except Fault Nat :=
  match b.elems with
  | b0 :: b1 :: b2 :: b3 :: _ =>
    .ok (b0.val * 16777216 + b1.val * 65536 + b2.val * 256 + b3.val)
  | _ => .error Fault.indexRange

/-! ## Connections -/

/-- A `net.Conn` as the package uses it.

* `input` are the bytes the peer delivers on a stream before the read side ends,
  and `inputEnd` the error `Read` reports from then on (`EOF` for an orderly close).
* `packets` are the results of the successive single `Read` calls of a datagram
  connection: the bytes of the datagram and the error returned with them.
* `writeOutcome log b` is the `(n, err)` the transport answers when `b` is handed
  to `Write` after the calls in `log`; `writeLog` records the buffers handed over. -/
structure Conn where
  input : List Byte
  inputEnd : NetError
  packets : List (List Byte × Option NetError)
  writeLog : List (List Byte)
  writeOutcome : List (List Byte) → List Byte → Int × Option NetError

/-- The call `conn.Write(b)`: one transport write, recorded in the log. -/
def Conn.Write (c : Conn) (b : List Byte) : (Int × Option NetError) × Conn :=
  (c.writeOutcome c.writeLog b, { c with writeLog := c.writeLog ++ [b] })

/-- The call `conn.Read(buf)` on a datagram connection: the next datagram is copied
into `buf` (what does not fit is dropped) and `n` is the number of bytes copied.
Returns the buffer, `n` and the error. -/
def Conn.Read (c : Conn) (buf : List Byte) : (List Byte × Nat × Option NetError) × Conn :=
  match c.packets with
  | [] => ((buf, 0, some c.inputEnd), c)
  | (data, err) :: rest =>
    ((overwrite buf 0 (data.take buf.length), min data.length buf.length, err),
      { c with packets := rest })

/-- The error `io.ReadFull` reports when the stream ends before the buffer is full:
`io.EOF` if nothing was read, `io.ErrUnexpectedEOF` if the stream closed after some
bytes, and the connection's own error otherwise. -/
def Conn.endError (c : Conn) : NetError :=
  if c.inputEnd = NetError.EOF then
    (if c.input.length = 0 then NetError.EOF else NetError.unexpectedEOF)
  else c.inputEnd

/-- The call `io.ReadFull(conn, buf)` with `len(buf) = k` on a stream: it returns
`(k, nil)` when `k` bytes arrive, without reading when `k = 0`; otherwise the bytes
that did arrive, their number and the error that ended the stream, where `io.EOF`
becomes `io.ErrUnexpectedEOF` once at least one byte was read. -/
def ReadFull (c : Conn) (k : Nat) : (List Byte × Nat × Option NetError) × Conn :=
  if k = 0 then (([], 0, none), c)
  else if k ≤ c.input.length then
    ((c.input.take k, k, none), { c with input := c.input.drop k })
  else
    ((overwrite (makeBytes k) 0 c.input, c.input.length, some c.endError),
      { c with input := [] })

/-! ## Framing (`WriteMessage`, `ReadMessage`, `ReadDatagram`) -/

/-- The buffer `WriteMessage` composes before it calls `Write` (lines 18-24). -/
def composeFrame (message : List Byte) : Except Fault (List Byte) := do
  let length := message.length
  let buffer := makeBytes (length + 6)
  let buffer ← PutUint16 buffer 0 2 (uint16 LLD_PROTOCOL_VERSION)
  let buffer ← PutUint32 buffer 2 6 (uint32 length)
  copyInto buffer 6 buffer.length message

/-- `WriteMessage(conn, message)`: returns the error and the connection afterwards. -/
def WriteMessage (conn : Conn) (message : List Byte) : Except Fault (Option NetError × Conn) := do
  let length := message.length
  let buffer ← composeFrame message
  let ((n, err), conn) := conn.Write buffer
  if n < ((length + 6 : Nat) : Int) then
    return (some (NetError.shortWrite (length + 6) n), conn)
  if err ≠ none then
    return (err, conn)
  return (none, conn)

/-- `ReadMessage(conn)`: returns the body, the error and the connection afterwards. -/
def ReadMessage (conn : Conn) : Except Fault ((List Byte × Option NetError) × Conn) := do
  let emptyMessage : List Byte := makeBytes 0
  let ((header, n, err), conn) := ReadFull conn 6
  if err ≠ none then
    return ((emptyMessage, err), conn)
  if n ≠ 6 then
    return ((emptyMessage, some (NetError.shortHeader n)), conn)
  let h := Slice.ofBuffer header
  let version ← (h.slice 0 2).bind Uint16
  let bodySize ← (h.slice 2 6).bind Uint32
  if version ≠ LLD_PROTOCOL_VERSION then
    return ((emptyMessage, some (NetError.versionMismatch version)), conn)
  let ((body, n2, err2), conn) := ReadFull conn bodySize
  if err2 ≠ none then
    return ((emptyMessage, err2), conn)
  if n2 ≠ bodySize then
    return ((emptyMessage, some (NetError.shortBody bodySize n2)), conn)
  return ((body, none), conn)

/-- `ReadDatagram(conn, expectedSize)` for a buffer size `expectedSize ≥ 0`. The body
returned is the slice `body` of the source, of length `bodySize`. -/
def ReadDatagram (conn : Conn) (expectedSize : Nat) :
    Except Fault ((List Byte × Option NetError) × Conn) := do
  let buffer := makeBytes (expectedSize + 6)
  let emptyMessage : List Byte := makeBytes 0
  let ((buffer, n, err), conn) := conn.Read buffer
  if err ≠ none then
    return ((emptyMessage, err), conn)
  let b := Slice.ofBuffer buffer
  let version ← (b.slice 0 2).bind Uint16
  let bodySize ← (b.slice 2 6).bind Uint32
  if version ≠ LLD_PROTOCOL_VERSION then
    return ((emptyMessage, some (NetError.datagramVersionMismatch version)), conn)
  let body := makeBytes bodySize
  let rest ← b.sliceFrom 6
  let body ← copyInto body 0 body.length rest.elems
  if (n : Int) < ((bodySize + 6 : Nat) : Int) then
    return ((body, some (NetError.truncatedDatagram ((n : Int) - 6) bodySize)), conn)
  return ((body, none), conn)

/-! ## Byte arrays with 2-byte lengths (`MarshalByteArrays`, `UnmarshalByteArrays`) -/

/-- First loop of `MarshalByteArrays`: `size += len(arr) + 2` over the inputs. -/
def marshalSize (arrs : List (List Byte)) : Nat :=
  arrs.foldl (fun size arr => size + (arr.length + 2)) 0

/-- Second loop of `MarshalByteArrays`, from offset `i` of the result buffer `res`. -/
def marshalLoop : List (List Byte) → Nat → List Byte → Except Fault (List Byte)
  | [], _, res => .ok res
  | arr :: rest, i, res => do
    let arrlen := arr.length
    if arrlen > 65535 then
      throw (Fault.explicit "Cannot marshal arrays with more than 65K bytes!")
    let res ← PutUint16 res i (i + 2) (uint16 arrlen)
    let res ← copyInto res (i + 2) (i + arrlen + 2) arr
    marshalLoop rest (i + arrlen + 2) res

/-- `MarshalByteArrays(arrs...)`. -/
def MarshalByteArrays (arrs : List (List Byte)) : Except Fault (List Byte) :=
  marshalLoop arrs 0 (makeBytes (marshalSize arrs))

/-- The loop of `UnmarshalByteArrays` from index `i`, with `arrs` the arrays found so
far. Every turn advances `i` by at least two, so `len(input)+1` turns of fuel are
never used up. -/
def unmarshalLoop (input : Slice) : Nat → Nat → List (List Byte) →
    Except Fault (List (List Byte))
  | 0, _, _ => .error Fault.outOfFuel
  | fuel + 1, i, arrs =>
    if i < input.len then do
      let len ← (input.slice i (i + 2)).bind Uint16
      let arr := makeBytes len
      let src ← input.slice (i + 2) (i + 2 + len)
      let arr ← copyInto arr 0 arr.length src.elems
      unmarshalLoop input fuel (i + len + 2) (arrs ++ [arr])
    else
      .ok arrs

/-- `UnmarshalByteArrays(input)`. -/
def UnmarshalByteArrays (input : Slice) : Except Fault (List (List Byte)) :=
  unmarshalLoop input (input.len + 1) 0 []

/-! ## The cryptographic suite -/

/-- The part of `abstract.Suite` the package uses. `MarshalBinary` is the method of
a point, returning the bytes and an error; `UnmarshalBinary bs` is
`suite.Point()` followed by `point.UnmarshalBinary(bs)`, which yields the point
decoded from the `len(bs)` bytes of the slice, or the suite's error. -/
structure Suite where
  Point : Type
  MarshalBinary : Point → List Byte × Option NetError
  UnmarshalBinary : List Byte → Except NetError Point

/-! ## Public-key arrays -/

/-- The loop of `MarshalPublicKeyArrayToByteArray` over the keys still to append. -/
def marshalKeysLoop (S : Suite) : List S.Point → List Byte →
    Except Fault (List Byte × Option NetError)
  | [], byteArray => .ok (byteArray, none)
  | pk :: rest, byteArray => do
    let (publicKeysBytes, err) := S.MarshalBinary pk
    let publicKeyLength ← PutUint32 (makeBytes 4) 0 4 (uint32 publicKeysBytes.length)
    let byteArray := byteArray ++ publicKeyLength
    let byteArray := byteArray ++ publicKeysBytes
    if err ≠ none then
      return ([], err)
    marshalKeysLoop S rest byteArray

/-- `MarshalPublicKeyArrayToByteArray(publicKeys)`. -/
def MarshalPublicKeyArrayToByteArray (S : Suite) (publicKeys : List S.Point) :
    Except Fault (List Byte × Option NetError) := do
  let byteArray : List Byte := []
  let msgType ← PutUint16 (makeBytes 2) 0 2 (uint16 MESSAGE_TYPE_PUBLICKEYS)
  let byteArray := byteArray ++ msgType
  marshalKeysLoop S publicKeys byteArray

/-- The loop of `UnMarshalPublicKeyArrayFromByteArray` from `currentByte`, with the
keys found so far. Every turn advances by more than four bytes. -/
def unmarshalKeysLoop (S : Suite) (buffer : Slice) : Nat → Nat → List S.Point →
    Except Fault (List S.Point × Option NetError)
  | 0, _, _ => .error Fault.outOfFuel
  | fuel + 1, currentByte, publicKeys =>
    if currentByte + 4 > buffer.len then
      .ok (publicKeys, none)
    else do
      let keyLength ← (buffer.slice currentByte (currentByte + 4)).bind Uint32
      if keyLength = 0 then
        return (publicKeys, none)
      let keyBytes ← buffer.slice (currentByte + 4) (currentByte + 4 + keyLength)
      match S.UnmarshalBinary keyBytes.elems with
      | .error err2 => return ([], some err2)
      | .ok publicKey =>
        unmarshalKeysLoop S buffer fuel (currentByte + 4 + keyLength) (publicKeys ++ [publicKey])

/-- `UnMarshalPublicKeyArrayFromByteArray(buffer, cryptoSuite)`. -/
def UnMarshalPublicKeyArrayFromByteArray (buffer : Slice) (S : Suite) :
    Except Fault (List S.Point × Option NetError) := do
  let messageType ← (buffer.slice 0 2).bind Uint16
  if messageType ≠ MESSAGE_TYPE_PUBLICKEYS then
    return ([], some NetError.wrongMessageType)
  unmarshalKeysLoop S buffer (buffer.len + 1) 2 []

/-! ## Base, keys and proof -/

/-- The message `WriteBasePublicKeysAndProofToConn` composes (lines 521-531): the
buffer of `totalMessageLength` bytes, the three length fields, then the three copies. -/
def composeBaseKeysProof (baseBytes keysBytes proof : List Byte) : Except Fault (List Byte) := do
  let totalMessageLength := 12 + baseBytes.length + keysBytes.length + proof.length
  let message := makeBytes totalMessageLength
  let message ← PutUint32 message 0 4 (uint32 baseBytes.length)
  let message ← PutUint32 message (4 + baseBytes.length) (8 + baseBytes.length)
    (uint32 keysBytes.length)
  let message ← PutUint32 message (8 + baseBytes.length + keysBytes.length)
    (12 + baseBytes.length + keysBytes.length) (uint32 proof.length)
  let message ← copyInto message 4 (4 + baseBytes.length) baseBytes
  let message ← copyInto message (8 + baseBytes.length)
    (8 + baseBytes.length + keysBytes.length) keysBytes
  copyInto message (12 + baseBytes.length + keysBytes.length)
    (12 + baseBytes.length + keysBytes.length + proof.length) proof

/-- `WriteBasePublicKeysAndProofToConn(conn, base, keys, proof)`, with the suite of
`config.CryptoSuite` as `S`. The error of `base.MarshalBinary()` is overwritten by
the next assignment, as in the source. -/
def WriteBasePublicKeysAndProofToConn (S : Suite) (conn : Conn) (base : S.Point)
    (keys : List S.Point) (proof : List Byte) : Except Fault (Option NetError × Conn) := do
  let (baseBytes, _) := S.MarshalBinary base
  let (keysBytes, err) ← MarshalPublicKeyArrayToByteArray S keys
  if err ≠ none then
    return (err, conn)
  let message ← composeBaseKeysProof baseBytes keysBytes proof
  let (err2, conn) ← WriteMessage conn message
  if err2 ≠ none then
    return (err2, conn)
  return (none, conn)

/-- `ParseBasePublicKeysAndProofFromConn(conn)`: the base (nil, here `none`, on the
error paths), the keys, the proof bytes and the error, and the connection afterwards. -/
def ParseBasePublicKeysAndProofFromConn (S : Suite) (conn : Conn) :
    Except Fault ((Option S.Point × List S.Point × List Byte × Option NetError) × Conn) := do
  let ((buffer, err), conn) ← ReadMessage conn
  if err ≠ none then
    return ((none, [], [], err), conn)
  let buffer := Slice.ofBuffer buffer
  let baseSize ← (buffer.slice 0 4).bind Uint32
  let keysSize ← (buffer.slice (4 + baseSize) (8 + baseSize)).bind Uint32
  let proofSize ← (buffer.slice (8 + baseSize + keysSize) (12 + baseSize + keysSize)).bind Uint32
  let baseBytes ← buffer.slice 4 (4 + baseSize)
  let keysBytes ← buffer.slice (8 + baseSize) (8 + baseSize + keysSize)
  let proof ← buffer.slice (12 + baseSize + keysSize) (12 + baseSize + keysSize + proofSize)
  match S.UnmarshalBinary baseBytes.elems with
  | .error err2 => return ((none, [], [], some err2), conn)
  | .ok base =>
    let (publicKeys, err) ← UnMarshalPublicKeyArrayFromByteArray keysBytes S
    if err ≠ none then
      return ((none, [], [], err), conn)
    return ((some base, publicKeys, proof.elems, none), conn)

/-! ## Base and keys -/

/-- The message `WriteBaseAndPublicKeyToConn` composes (lines 497-502). -/
def composeBaseKeys (baseBytes publicKeysBytes : List Byte) : Except Fault (List Byte) := do
  let message := makeBytes (8 + baseBytes.length + publicKeysBytes.length)
  let message ← PutUint32 message 0 4 (uint32 baseBytes.length)
  let message ← copyInto message 4 (4 + baseBytes.length) baseBytes
  let message ← PutUint32 message (4 + baseBytes.length) (8 + baseBytes.length)
    (uint32 publicKeysBytes.length)
  copyInto message (8 + baseBytes.length) message.length publicKeysBytes

/-- `WriteBaseAndPublicKeyToConn(conn, base, keys)`, with the suite of
`config.CryptoSuite` as `S`. When the write fails, the argument of `fmt.Println` on
line 506 is evaluated first: it calls `err.Error()` on the variable `err`, which
holds the result of `MarshalPublicKeyArrayToByteArray`. -/
def WriteBaseAndPublicKeyToConn (S : Suite) (conn : Conn) (base : S.Point)
    (keys : List S.Point) : Except Fault (Option NetError × Conn) := do
  let (baseBytes, err) := S.MarshalBinary base
  if err ≠ none then
    return (err, conn)
  let (publicKeysBytes, err) ← MarshalPublicKeyArrayToByteArray S keys
  if err ≠ none then
    return (err, conn)
  let message ← composeBaseKeys baseBytes publicKeysBytes
  let (err2, conn) ← WriteMessage conn message
  if err2 ≠ none then
    errorText err
    return (err2, conn)
  return (none, conn)

/-- `ParseBaseAndPublicKeysFromConn(conn)`: the base (nil, here `none`, on the error
paths), the keys and the error, and the connection afterwards. -/
def ParseBaseAndPublicKeysFromConn (S : Suite) (conn : Conn) :
    Except Fault ((Option S.Point × List S.Point × Option NetError) × Conn) := do
  let ((buffer, err), conn) ← ReadMessage conn
  if err ≠ none then
    return ((none, [], err), conn)
  let buffer := Slice.ofBuffer buffer
  let baseSize ← (buffer.slice 0 4).bind Uint32
  let keysSize ← (buffer.slice (4 + baseSize) (8 + baseSize)).bind Uint32
  let baseBytes ← buffer.slice 4 (4 + baseSize)
  let keysBytes ← buffer.slice (8 + baseSize) (8 + baseSize + keysSize)
  match S.UnmarshalBinary baseBytes.elems with
  | .error err2 => return ((none, [], some err2), conn)
  | .ok base =>
    let (publicKeys, err) ← UnMarshalPublicKeyArrayFromByteArray keysBytes S
    if err ≠ none then
      return ((none, [], err), conn)
    return ((some base, publicKeys, none), conn)

/-! ## A single public key -/

/-- `TellPublicKey(conn, publicKey)`, with the suite of the point as `S`. The error
of `MarshalBinary` is discarded, as in the source. -/
def TellPublicKey (S : Suite) (conn : Conn) (publicKey : S.Point) :
    Except Fault (Option NetError × Conn) := do
  let (publicKeyBytes, _) := S.MarshalBinary publicKey
  let (err, conn) ← WriteMessage conn publicKeyBytes
  if err ≠ none then
    return (err, conn)
  return (none, conn)

/-- `ParsePublicKeyFromConn(conn)`, with the suite of `config.CryptoSuite` as `S`:
the key (nil, here `none`, on the error paths) and the error. When the suite rejects
the bytes, the error returned is the variable `err` of the source, which holds the
result of `ReadMessage`. -/
def ParsePublicKeyFromConn (S : Suite) (conn : Conn) :
    Except Fault ((Option S.Point × Option NetError) × Conn) := do
  let ((buffer, err), conn) ← ReadMessage conn
  if err ≠ none then
    return ((none, err), conn)
  let buffer := Slice.ofBuffer buffer
  let msgType ← (buffer.slice 0 2).bind Uint16
  if msgType ≠ MESSAGE_TYPE_PUBLICKEYS then
    return ((none, some (NetError.wrongPublicKeyType msgType)), conn)
  let keyBytes ← buffer.sliceFrom 2
  match S.UnmarshalBinary keyBytes.elems with
  | .error _ => return ((none, err), conn)
  | .ok publicKey => return ((some publicKey, none), conn)

/-! ## Transcripts (`ParseTranscript`) -/

/-- The shape the four `for` loops of `ParseTranscript` share (lines 203-235, 239-298,
259-287 and 302-324): stop when fewer than four bytes are left or the length field is
zero; otherwise cut the element out, let `step` consume it at index `i`, advance by
`4 + length`, and stop once the index reaches `count`. The result is the offset and
the state at the `break`, or `none` when `step` made the function return early.
Every turn advances by more than four bytes, so `len(buffer)+1` turns of fuel are
never used up. -/
def sequenceLoop {σ : Type} (buffer : Slice) (count : Nat)
    (step : Slice → Nat → σ → Except Fault (Option σ)) :
    Nat → Nat → Nat → σ → Except Fault (Option (Nat × σ))
  | 0, _, _, _ => .error Fault.outOfFuel
  | fuel + 1, currentByte, i, st =>
    if currentByte + 4 > buffer.len then
      .ok (some (currentByte, st))
    else do
      let length ← (buffer.slice currentByte (currentByte + 4)).bind Uint32
      if length = 0 then
        return some (currentByte, st)
      let bytes ← buffer.slice (currentByte + 4) (currentByte + 4 + length)
      match ← step bytes i st with
      | none => return none
      | some st =>
        let currentByte := currentByte + (4 + length)
        let i := i + 1
        if i = count then
          return some (currentByte, st)
        sequenceLoop buffer count step fuel currentByte i st

/-- Body of the first loop (lines 219-226): unmarshal the base, return early when
that fails, else `G_s[i] = base`. -/
def storeBase (S : Suite) (G_S_i_Bytes : Slice) (i : Nat) (G_s : List (Option S.Point)) :
    Except Fault (Option (List (Option S.Point))) :=
  match S.UnmarshalBinary G_S_i_Bytes.elems with
  | .error _ => .ok none
  | .ok base =>
    if i < G_s.length then .ok (some (G_s.set i (some base)))
    else .error Fault.indexRange

/-- Body of the innermost loop (lines 271-278): unmarshal the key, return early when
that fails, else append it. -/
def appendEphKey (S : Suite) (ephPublicKeyIJBytes : Slice) (_j : Nat)
    (ephPublicKeys : List S.Point) : Except Fault (Option (List S.Point)) :=
  match S.UnmarshalBinary ephPublicKeyIJBytes.elems with
  | .error _ => .ok none
  | .ok ephPublicKey => .ok (some (ephPublicKeys ++ [ephPublicKey]))

/-- Body of the second loop (lines 252-290): read the keys of trustee `i` with the
innermost loop, then `ephPublicKeys_s[i] = ephPublicKeys`. -/
def storeEphKeys (S : Suite) (nClients : Nat) (ephPublicKeysBytes : Slice) (i : Nat)
    (ephPublicKeys_s : List (List S.Point)) : Except Fault (Option (List (List S.Point))) := do
  match ← sequenceLoop ephPublicKeysBytes nClients (appendEphKey S)
      (ephPublicKeysBytes.len + 1) 0 0 [] with
  | none => return none
  | some (_, ephPublicKeys) =>
    if i < ephPublicKeys_s.length then
      return some (ephPublicKeys_s.set i ephPublicKeys)
    else
      throw Fault.indexRange

/-- Body of the third loop (line 316): `proof_s[i] = proofBytes`. -/
def storeProof (proofBytes : Slice) (i : Nat) (proof_s : List (List Byte)) :
    Except Fault (Option (List (List Byte))) :=
  if i < proof_s.length then .ok (some (proof_s.set i proofBytes.elems))
  else .error Fault.indexRange

/-- `ParseTranscript(conn, nClients, nTrustees)` with the suite of `config.CryptoSuite`
as `S`, for a slice length `nTrustees ≥ 0`. A point slot that was never assigned is
the nil interface, `none`. On the early returns of the loops the error returned is
the variable `err` of the source, which holds the result of `ReadMessage`. -/
def ParseTranscript (S : Suite) (conn : Conn) (nClients nTrustees : Nat) :
    Except Fault ((List (Option S.Point) × List (List S.Point) × List (List Byte)
      × Option NetError) × Conn) := do
  let ((buffer, err), conn) ← ReadMessage conn
  if err ≠ none then
    return (([], [], [], err), conn)
  let buffer := Slice.ofBuffer buffer
  let G_s : List (Option S.Point) := List.replicate nTrustees none
  let ephPublicKeys_s : List (List S.Point) := List.replicate nTrustees []
  let proof_s : List (List Byte) := List.replicate nTrustees []
  match ← sequenceLoop buffer nTrustees (storeBase S) (buffer.len + 1) 0 0 G_s with
  | none => return (([], [], [], err), conn)
  | some (currentByte, G_s) =>
    match ← sequenceLoop buffer nTrustees (storeEphKeys S nClients) (buffer.len + 1)
        currentByte 0 ephPublicKeys_s with
    | none => return (([], [], [], err), conn)
    | some (currentByte, ephPublicKeys_s) =>
      match ← sequenceLoop buffer nTrustees storeProof (buffer.len + 1)
          currentByte 0 proof_s with
      | none => return (([], [], [], err), conn)
      | some (_, proof_s) =>
        return ((G_s, ephPublicKeys_s, proof_s, none), conn)

/-! ## Peers and fan-out (`NUnicastMessageToNodes`, `NUnicastMessage`) -/

/-- The connections a process holds. A value of type `net.Conn` is a handle, here a
number: `conns h` is the state of the connection behind the handle `h`, and `writes`
lists, oldest first, the handles `WriteMessage` was called on. -/
structure Network where
  conns : Nat → Conn
  writes : List Nat

/-- `WriteMessage(conn, message)` for a connection given by its handle: the call on
the state of that connection, which is stored back. -/
def Network.WriteMessage (net : Network) (conn : Nat) (message : List Byte) :
    Except Fault (Option NetError × Network) := do
  let (err, c) ← Daga.WriteMessage (net.conns conn) message
  return (err, { conns := fun k => if k = conn then c else net.conns k,
                 writes := net.writes ++ [conn] })

/-- Type `NodeRepresentation` of `net/types.go`, for public keys of type `P`. -/
structure NodeRepresentation (P : Type) where
  Id : Int
  Conn : Nat
  Connected : Bool
  PublicKey : P

/-- `NUnicastMessageToNodes(nodes, message)`: the loop `for i := 0; i < len(nodes); i++`
over the nodes from the current index on. The slice is updated in place in the
source; here the updated nodes are returned, with the network afterwards. -/
def NUnicastMessageToNodes {P : Type} :
    List (NodeRepresentation P) → Network → List Byte →
    Except Fault (List (NodeRepresentation P) × Network)
  | [], net, _ => .ok ([], net)
  | node :: rest, net, message =>
    if node.Connected then do
      let (err, net) ← net.WriteMessage node.Conn message
      let node := if err ≠ none then { node with Connected := false } else node
      let (rest, net) ← NUnicastMessageToNodes rest net message
      return (node :: rest, net)
    else do
      let (rest, net) ← NUnicastMessageToNodes rest net message
      return (node :: rest, net)

/-- `NUnicastMessage(conns, message)`: the loop `for i := 0; i < len(conns); i++` over
the connections from the current index on. -/
def NUnicastMessage : List Nat → Network → List Byte → Except Fault (Option NetError × Network)
  | [], net, _ => .ok (none, net)
  | conn :: rest, net, message => do
    let (err, net) ← net.WriteMessage conn message
    if err ≠ none then
      return (err, net)
    NUnicastMessage rest net message

/-! ## Timed reads (`ReadMessageWithTimeOut`, `ReadDatagramWithTimeOut`)

Both functions make the same three channels, start the same two tasks (a timer and a
read) and wait in one `select`; they differ in the read they guard and in what the
arms of the `select` do afterwards. The model below is the part they share. -/

/-- The three channels a timed read makes. -/
inductive ReadChan where
  | timeoutChan
  | errorChan
  | dataChan
  deriving DecidableEq

/-- The capacity each channel is made with: `make(chan bool, 1)` for `timeoutChan`,
`make(chan bool, 1)` (`chan error` for datagrams) for `errorChan`, and
`make(chan []byte)`, which has no buffer, for `dataChan`. -/
def ReadChan.capacity : ReadChan → Nat
  | .timeoutChan => 1
  | .errorChan => 1
  | .dataChan => 0

/-- The channel the read task sends its result on:
`if err != nil { errorChan <- ... } else { dataChan <- dataHolder }`. -/
def readTaskChan (err : Option NetError) : ReadChan :=
  if err ≠ none then .errorChan else .dataChan

/-- A background task: still in its call (`time.Sleep`, or the read), at its send on a
channel, or past it, which ends the task. -/
inductive Task where
  | working
  | sending (c : ReadChan)
  | terminated
  deriving DecidableEq

/-- The calling function: on its way to the `select`, waiting in it with no channel
ready, or past it through the arm of one channel. -/
inductive Caller where
  | entering
  | parked
  | left (arm : ReadChan)
  deriving DecidableEq

/-- The state of one timed read: the two tasks, the caller and how many values each
channel holds in its buffer. -/
structure TimedRead where
  timer : Task
  reader : Task
  caller : Caller
  queued : ReadChan → Nat

/-- The state once both tasks have been started. -/
def TimedRead.start : TimedRead :=
  { timer := .working, reader := .working, caller := .entering, queued := fun _ => 0 }

/-- What can happen next: the sleep ends, the read returns with `err`, a task performs
its send, the caller takes an arm of the `select` that is ready, or the caller finds
none ready and waits. -/
inductive Move where
  | timerWakes
  | readReturns (err : Option NetError)
  | timerSends
  | readerSends
  | callerSelects (arm : ReadChan)
  | callerParks

/-- A send on `c`: the value goes straight to the caller when it waits in the `select`
(which receives on all three channels), else into the buffer when there is room; else
the send cannot complete. Returns the caller and the buffers afterwards. -/
def TimedRead.send (s : TimedRead) (c : ReadChan) : Option (Caller × (ReadChan → Nat)) :=
  match s.caller with
  | .parked => some (.left c, s.queued)
  | caller =>
    if s.queued c < c.capacity then
      some (caller, fun k => if k = c then s.queued k + 1 else s.queued k)
    else none

/-- One move, when it is possible in the state. -/
def TimedRead.step (s : TimedRead) : Move → Option TimedRead
  | .timerWakes =>
    if s.timer = .working then some { s with timer := .sending .timeoutChan } else none
  | .readReturns err =>
    if s.reader = .working then some { s with reader := .sending (readTaskChan err) }
    else none
  | .timerSends =>
    match s.timer with
    | .sending c =>
      (s.send c).map fun r => { s with timer := .terminated, caller := r.1, queued := r.2 }
    | _ => none
  | .readerSends =>
    match s.reader with
    | .sending c =>
      (s.send c).map fun r => { s with reader := .terminated, caller := r.1, queued := r.2 }
    | _ => none
  | .callerSelects arm =>
    if s.caller = .entering then
      if 0 < s.queued arm then
        some { s with caller := .left arm,
                      queued := fun k => if k = arm then s.queued k - 1 else s.queued k }
      else if arm = .dataChan ∧ s.reader = .sending .dataChan then
        some { s with caller := .left .dataChan, reader := .terminated }
      else none
    else none
  | .callerParks =>
    if s.caller = .entering ∧ s.queued .timeoutChan = 0 ∧ s.queued .errorChan = 0 ∧
        s.queued .dataChan = 0 then
      some { s with caller := .parked }
    else none

/-- A schedule of moves, carried out in order; `none` when one of them is not
possible. -/
def TimedRead.run (s : TimedRead) : List Move → Option TimedRead
  | [] => some s
  | m :: ms => (s.step m).bind fun s' => s'.run ms

/-- What one call of `ReadMessageWithTimeOut` has done when it returns: the data and
the flag it returns (`none` is the nil slice) and the node ids it pushed onto each of
the caller's two channels. -/
structure TimedResult where
  data : Option (List Byte)
  errorDuringRead : Bool
  chanForTimeoutNode : List Int
  chanForDisconnectedNode : List Int
  deriving DecidableEq

/-- The arm of the `select` of `ReadMessageWithTimeOut` that receives from the given
channel, followed by `return data, errorDuringRead`; `dataHolder` is the value the
read task sends on `dataChan`. -/
def selectArm (nodeId : Int) (dataHolder : List Byte) : ReadChan → TimedResult
  | .dataChan =>
    { data := some dataHolder, errorDuringRead := false,
      chanForTimeoutNode := [], chanForDisconnectedNode := [] }
  | .timeoutChan =>
    { data := none, errorDuringRead := true,
      chanForTimeoutNode := [nodeId], chanForDisconnectedNode := [] }
  | .errorChan =>
    { data := none, errorDuringRead := true,
      chanForTimeoutNode := [], chanForDisconnectedNode := [nodeId] }

/-! ## Big-endian layout, as the specification words it -/

/-- The `k`-byte big-endian representation of `v`: most significant byte first. -/
def bigEndian : Nat → Nat → List Byte
  | 0, _ => []
  | k + 1, v => bigEndian k (v / 256) ++ [byteOf v]

/-- The number a big-endian byte string denotes. -/
def bigEndianValue (bs : List Byte) : Nat :=
  bs.foldl (fun acc b => acc * 256 + b.val) 0

/-- The stream frame of the specification: `version: u16 | bodyLength: u32 | body`. -/
def frameOf (body : List Byte) : List Byte :=
  bigEndian 2 LLD_PROTOCOL_VERSION ++ bigEndian 4 body.length ++ body

/-- The layout `[u16 length][bytes]` per array, in order. -/
def lengthPrefixed16 (arrs : List (List Byte)) : List Byte :=
  (arrs.map (fun a => bigEndian 2 a.length ++ a)).flatten

/-- The layout `[u32 length][bytes]` per entry, in order. -/
def lengthPrefixed32 (entries : List (List Byte)) : List Byte :=
  (entries.map (fun e => bigEndian 4 e.length ++ e)).flatten

/-- The serialization of a point under a suite. -/
def Suite.bytesOf (S : Suite) (p : S.Point) : List Byte := (S.MarshalBinary p).1

/-- The public-key array layout: the tag, then `[u32 length][key bytes]` per key. -/
def keyArrayLayout (S : Suite) (keys : List S.Point) : List Byte :=
  bigEndian 2 MESSAGE_TYPE_PUBLICKEYS ++ lengthPrefixed32 (keys.map S.bytesOf)

/-- The body layout `[u32 baseLen][base][u32 keysLen][keysArrayBytes][u32 proofLen][proof]`. -/
def baseKeysProofLayout (baseBytes keysBytes proof : List Byte) : List Byte :=
  bigEndian 4 baseBytes.length ++ baseBytes ++ (bigEndian 4 keysBytes.length ++ keysBytes)
    ++ (bigEndian 4 proof.length ++ proof)

/-- The transcript body: `nTrustees` entries `[u32 len][base_i]`, then `nTrustees`
entries `[u32 len][keys_i]` where `keys_i` is itself the entries `[u32 len][key_ij]`,
then `nTrustees` entries `[u32 len][proof_i]`. -/
def transcriptLayout (S : Suite) (bases : List S.Point) (keys : List (List S.Point))
    (proofs : List (List Byte)) : List Byte :=
  lengthPrefixed32 (bases.map S.bytesOf)
    ++ lengthPrefixed32 (keys.map (fun ks => lengthPrefixed32 (ks.map S.bytesOf)))
    ++ lengthPrefixed32 proofs

/-- The states a loop body goes through on the successive elements `entries`, from
index `i` on: `Steps step i entries s s'` holds when `step` accepts every element in
turn (whatever lies behind it in the buffer), leading from state `s` to state `s'`. -/
inductive Steps {σ : Type} (step : Slice → Nat → σ → Except Fault (Option σ)) :
    Nat → List (List Byte) → σ → σ → Prop where
  | nil (i : Nat) (s : σ) : Steps step i [] s s
  | cons (i : Nat) (e : List Byte) (es : List (List Byte)) (s s1 s' : σ) :
      (∀ sp, step ⟨e, sp⟩ i s = .ok (some s1)) → Steps step (i + 1) es s1 s' →
      Steps step i (e :: es) s s'

/-- What `WriteMessage(conn, message)` returns for a connection in state `c`. -/
def Conn.writeResult (c : Conn) (message : List Byte) : Option NetError :=
  match WriteMessage c message with
  | .ok (err, _) => err
  | .error _ => none

/-- The network once `WriteMessage(·, message)` has been called on the handles
`written`, in that order: every connection has been handed the frame as many times as
its handle occurs, and the handles are appended to the record of calls. -/
def Network.after (net : Network) (written : List Nat) (message : List Byte) : Network :=
  { conns := fun h => { net.conns h with
      writeLog := (net.conns h).writeLog
        ++ List.replicate (written.count h) (frameOf message) },
    writes := net.writes ++ written }

/-- The handles of the nodes flagged connected, in index order. -/
def connectedHandles {P : Type} (nodes : List (NodeRepresentation P)) : List Nat :=
  (nodes.filter (fun n => n.Connected)).map (fun n => n.Conn)

/-- What `WriteMessage(conn, message)` returns on the handle `conn` once it has been
called on the handles `written`. -/
def Network.resultAt (net : Network) (message : List Byte) (written : List Nat) (conn : Nat) :
    Option NetError :=
  ((net.after written message).conns conn).writeResult message

/-- The stream that carries the frames of the given bodies, one after the other. -/
def framesOf (bodies : List (List Byte)) : List Byte :=
  (bodies.map frameOf).flatten

/-- A reader that calls `ReadMessage` on the connection `k` times in a row and keeps
every result, in the order of the calls. -/
def readMessages (conn : Conn) : Nat →
    Except Fault (List (List Byte × Option NetError) × Conn)
  | 0 => .ok ([], conn)
  | k + 1 => do
    let (result, conn) ← ReadMessage conn
    let (results, conn) ← readMessages conn k
    return (result :: results, conn)

/-- The event behind a channel has happened in a schedule: the timer has fired and
sent, the read has failed, or the read has succeeded. -/
def resolved (moves : List Move) : ReadChan → Prop
  | .timeoutChan => Move.timerWakes ∈ moves ∧ Move.timerSends ∈ moves
  | .errorChan => ∃ e, Move.readReturns (some e) ∈ moves
  | .dataChan => Move.readReturns none ∈ moves

/-- A suite whose points are byte strings that serialize to themselves. -/
def Suite.plain : Suite :=
  { Point := List Byte, MarshalBinary := fun p => (p, none), UnmarshalBinary := fun bs => .ok bs }

/-- A suite whose points are single bytes: a point serializes to its byte, and only
one-byte strings deserialize; every other string is rejected with the suite's error. -/
def Suite.single : Suite :=
  { Point := Byte, MarshalBinary := fun p => ([p], none),
    UnmarshalBinary := fun bs =>
      match bs with
      | [b] => .ok b
      | _ => .error (NetError.suite 1) }

/-- A connection whose peer has sent `input` and then closed, and whose transport
accepts every buffer in full. -/
def Conn.reliable (input : List Byte) : Conn :=
  { input := input, inputEnd := NetError.EOF, packets := [], writeLog := [],
    writeOutcome := fun _ b => ((b.length : Int), none) }

/-- A connection whose transport answers every `Write` with the same `(n, err)`. -/
def Conn.answering (n : Int) (err : Option NetError) : Conn :=
  { input := [], inputEnd := NetError.EOF, packets := [], writeLog := [],
    writeOutcome := fun _ _ => (n, err) }

/-- A datagram connection on which the given receive results are pending. -/
def Conn.receiving (packets : List (List Byte × Option NetError)) : Conn :=
  { input := [], inputEnd := NetError.EOF, packets := packets, writeLog := [],
    writeOutcome := fun _ b => ((b.length : Int), none) }

/-- The network whose connection `h` is the `h`-th of `cs` (a closed connection that
accepts every write beyond them), with no call recorded yet. -/
def Network.ofConns (cs : List Conn) : Network :=
  { conns := fun h => cs.getD h (Conn.reliable []), writes := [] }

/-- Three peers on the connections 0, 1 and 2, all flagged connected. -/
def threePeers : List (NodeRepresentation Nat) :=
  [{ Id := 1, Conn := 0, Connected := true, PublicKey := 11 },
   { Id := 2, Conn := 1, Connected := true, PublicKey := 12 },
   { Id := 3, Conn := 2, Connected := true, PublicKey := 13 }]

/-- A network of three connections of which the middle one refuses every write. -/
def middleFails : Network :=
  Network.ofConns [Conn.reliable [], Conn.answering 0 (some (NetError.transport 1)),
    Conn.reliable []]

/-- Two entries of a key array under `Suite.single`: the key bytes and the key they
deserialize to. -/
def twoKeyEntries : List (List Byte × Suite.single.Point) :=
  [([7], (7 : Byte)), ([8], (8 : Byte))]

/-! ## Lemmas on buffers -/

theorem bigEndian_length (k v : Nat) : (bigEndian k v).length = k := by
  induction k generalizing v with
  | zero => rfl
  | succ k ih => simp [bigEndian, ih]

theorem bigEndian_two (v : Nat) : bigEndian 2 v = [byteOf (v / 256), byteOf v] := by
  simp [bigEndian]

theorem bigEndian_four (v : Nat) :
    bigEndian 4 v = [byteOf (v / 16777216), byteOf (v / 65536), byteOf (v / 256), byteOf v] := by
  have h2 : v / 256 / 256 = v / 65536 := by rw [Nat.div_div_eq_div_mul]
  have h3 : v / 65536 / 256 = v / 16777216 := by rw [Nat.div_div_eq_div_mul]
  simp only [bigEndian, h2, h3, List.nil_append, List.cons_append]

theorem overwrite_mid (pre old post new : List Byte) (h : old.length = new.length) :
    overwrite (pre ++ old ++ post) pre.length new = pre ++ new ++ post := by
  have e : pre ++ old ++ post = pre ++ (old ++ post) := List.append_assoc _ _ _
  unfold overwrite
  rw [e, List.take_left, List.drop_append, ← h, List.drop_left, List.append_assoc]

theorem makeBytes_add (a b : Nat) : makeBytes (a + b) = makeBytes a ++ makeBytes b := by
  exact List.replicate_add a b 0

theorem makeBytes_length (n : Nat) : (makeBytes n).length = n := by
  exact List.length_replicate n 0

theorem PutUint16_mid (pre old post : List Byte) (lo hi v : Nat)
    (hold : old.length = 2) (hlo : lo = pre.length) (hhi : hi = lo + 2) :
    PutUint16 (pre ++ old ++ post) lo hi v = .ok (pre ++ bigEndian 2 v ++ post) := by
  subst hlo hhi
  have hc : pre.length ≤ pre.length + 2 ∧
      pre.length + 2 ≤ (pre ++ old ++ post).length := by
    simp only [List.length_append, hold]; omega
  have hd : ¬ (pre.length + 2 - pre.length < 2) := by omega
  rw [PutUint16, if_pos hc, if_neg hd, ← bigEndian_two,
    overwrite_mid pre old post _ (by rw [hold, bigEndian_length])]

theorem PutUint32_mid (pre old post : List Byte) (lo hi v : Nat)
    (hold : old.length = 4) (hlo : lo = pre.length) (hhi : hi = lo + 4) :
    PutUint32 (pre ++ old ++ post) lo hi v = .ok (pre ++ bigEndian 4 v ++ post) := by
  subst hlo hhi
  have hc : pre.length ≤ pre.length + 4 ∧
      pre.length + 4 ≤ (pre ++ old ++ post).length := by
    simp only [List.length_append, hold]; omega
  have hd : ¬ (pre.length + 4 - pre.length < 4) := by omega
  rw [PutUint32, if_pos hc, if_neg hd, ← bigEndian_four,
    overwrite_mid pre old post _ (by rw [hold, bigEndian_length])]

theorem copyInto_mid (pre old post src : List Byte) (lo hi : Nat)
    (hold : old.length = src.length) (hlo : lo = pre.length) (hhi : hi = lo + src.length) :
    copyInto (pre ++ old ++ post) lo hi src = .ok (pre ++ src ++ post) := by
  subst hlo hhi
  have hc : pre.length ≤ pre.length + src.length ∧
      pre.length + src.length ≤ (pre ++ old ++ post).length := by
    simp only [List.length_append, hold]; omega
  have ht : src.take (pre.length + src.length - pre.length) = src := by
    rw [Nat.add_sub_cancel_left, List.take_length]
  rw [copyInto, if_pos hc, ht, overwrite_mid pre old post _ hold]

/-- The buffer of `WriteMessage` is header then body, whatever the body. -/
theorem composeFrame_eq (message : List Byte) :
    composeFrame message = .ok (bigEndian 2 LLD_PROTOCOL_VERSION ++
      bigEndian 4 (uint32 message.length) ++ message) := by
  have hm : makeBytes (message.length + 6)
      = [] ++ makeBytes 2 ++ (makeBytes 4 ++ makeBytes message.length) := by
    rw [show message.length + 6 = 2 + (4 + message.length) by omega, makeBytes_add,
      makeBytes_add, List.nil_append]
  have hv : uint16 LLD_PROTOCOL_VERSION = LLD_PROTOCOL_VERSION := by decide
  simp only [composeFrame, bind, Except.bind]
  rw [hm, PutUint16_mid [] _ _ 0 2 _ (makeBytes_length 2) rfl rfl, hv]
  simp only [List.nil_append]
  rw [← List.append_assoc,
    PutUint32_mid _ (makeBytes 4) _ 2 6 _ (makeBytes_length 4) (by rw [bigEndian_length])
      rfl]
  simp only
  have hl : (bigEndian 2 LLD_PROTOCOL_VERSION ++ bigEndian 4 (uint32 message.length)
      ++ makeBytes message.length).length = 6 + message.length := by
    simp only [List.length_append, bigEndian_length, makeBytes_length]
  rw [hl, ← List.append_nil (_ ++ _ ++ makeBytes message.length),
    copyInto_mid _ (makeBytes message.length) [] message 6 _ (makeBytes_length _)
      (by simp only [List.length_append, bigEndian_length]) rfl, List.append_nil]

/-! ## Lemmas on reading -/

theorem bigEndian_two_bytes (b0 b1 : Byte) :
    bigEndian 2 (b0.val * 256 + b1.val) = [b0, b1] := by
  rw [bigEndian_two]
  have h0 := b0.isLt
  have h1 := b1.isLt
  simp only [byteOf, List.cons.injEq, and_true]
  constructor <;> (apply Fin.ext; simp only; omega)

theorem bigEndian_four_bytes (b0 b1 b2 b3 : Byte) :
    bigEndian 4 (b0.val * 16777216 + b1.val * 65536 + b2.val * 256 + b3.val)
      = [b0, b1, b2, b3] := by
  rw [bigEndian_four]
  have h0 := b0.isLt
  have h1 := b1.isLt
  have h2 := b2.isLt
  have h3 := b3.isLt
  simp only [byteOf, List.cons.injEq, and_true]
  refine ⟨?_, ?_, ?_, ?_⟩ <;> (apply Fin.ext; simp only; omega)

theorem Uint16_bigEndian (v : Nat) (sp : List Byte) :
    Uint16 ⟨bigEndian 2 v, sp⟩ = .ok (v % 65536) := by
  rw [bigEndian_two]
  simp only [Uint16, byteOf, Except.ok.injEq]
  omega

theorem Uint32_bigEndian (v : Nat) (sp : List Byte) :
    Uint32 ⟨bigEndian 4 v, sp⟩ = .ok (v % 4294967296) := by
  rw [bigEndian_four]
  simp only [Uint32, byteOf, Except.ok.injEq]
  omega

/-- Cutting the middle part out of a slice. -/
theorem Slice.slice_mid (pre mid post spare : List Byte) (lo hi : Nat)
    (hlo : lo = pre.length) (hhi : hi = lo + mid.length) :
    Slice.slice ⟨pre ++ mid ++ post, spare⟩ lo hi = .ok ⟨mid, post ++ spare⟩ := by
  subst hlo hhi
  have hc : pre.length ≤ pre.length + mid.length ∧
      pre.length + mid.length ≤ (Slice.mk (pre ++ mid ++ post) spare).cap := by
    simp only [Slice.cap, List.length_append]; omega
  have e : pre ++ mid ++ post ++ spare = pre ++ (mid ++ (post ++ spare)) := by
    simp only [List.append_assoc]
  rw [Slice.slice, if_pos hc]
  simp only [e, List.drop_left, Nat.add_sub_cancel_left, List.take_left, List.drop_append]

theorem ReadFull_enough (c : Conn) (k : Nat) (hk : k ≤ c.input.length) :
    ReadFull c k = ((c.input.take k, k, none), { c with input := c.input.drop k }) := by
  unfold ReadFull
  by_cases h0 : k = 0
  · subst h0
    simp only [if_true, List.take_zero, List.drop_zero]
  · rw [if_neg h0, if_pos hk]

theorem ReadFull_short (c : Conn) (k : Nat) (hk : c.input.length < k) :
    ReadFull c k = ((overwrite (makeBytes k) 0 c.input, c.input.length, some c.endError),
      { c with input := [] }) := by
  unfold ReadFull
  rw [if_neg (by omega), if_neg (by omega)]

/-- What `ReadMessage` returns on a stream that holds at least six bytes. -/
theorem ReadMessage_header (conn : Conn) (b0 b1 b2 b3 b4 b5 : Byte) (tail : List Byte)
    (h : conn.input = b0 :: b1 :: b2 :: b3 :: b4 :: b5 :: tail) :
    ReadMessage conn = .ok
      (if b0.val * 256 + b1.val ≠ LLD_PROTOCOL_VERSION then
        (([], some (NetError.versionMismatch (b0.val * 256 + b1.val))),
          { conn with input := tail })
      else if b2.val * 16777216 + b3.val * 65536 + b4.val * 256 + b5.val ≤ tail.length then
        ((tail.take (b2.val * 16777216 + b3.val * 65536 + b4.val * 256 + b5.val), none),
          { conn with input :=
              tail.drop (b2.val * 16777216 + b3.val * 65536 + b4.val * 256 + b5.val) })
      else
        (([], some ({ conn with input := tail }).endError), { conn with input := [] })) := by
  have hs0 : Slice.slice (Slice.ofBuffer [b0, b1, b2, b3, b4, b5]) 0 2
      = .ok ⟨[b0, b1], [b2, b3, b4, b5]⟩ :=
    Slice.slice_mid [] [b0, b1] [b2, b3, b4, b5] [] 0 2 rfl rfl
  have hs1 : Slice.slice (Slice.ofBuffer [b0, b1, b2, b3, b4, b5]) 2 6
      = .ok ⟨[b2, b3, b4, b5], []⟩ :=
    Slice.slice_mid [b0, b1] [b2, b3, b4, b5] [] [] 2 6 rfl rfl
  have hf : ReadFull conn 6 = (([b0, b1, b2, b3, b4, b5], 6, none),
      { conn with input := tail }) := by
    rw [ReadFull_enough conn 6 (by rw [h]; simp), h]
    rfl
  simp only [ReadMessage, bind, Except.bind, pure, Except.pure]
  rw [hf]
  simp only [hs0, hs1, Uint16, Uint32, ne_eq, not_true_eq_false, if_false, makeBytes,
    List.replicate]
  by_cases hv : b0.val * 256 + b1.val = LLD_PROTOCOL_VERSION
  · by_cases hb : b2.val * 16777216 + b3.val * 65536 + b4.val * 256 + b5.val ≤ tail.length
    · rw [ReadFull_enough _ _ hb]
      simp [hv, hb]
    · rw [ReadFull_short _ _ (by simpa using hb)]
      simp [hv, hb]
  · simp [hv]

theorem ReadMessage_short_header (conn : Conn) (h : conn.input.length < 6) :
    ReadMessage conn = .ok (([], some conn.endError), { conn with input := [] }) := by
  simp only [ReadMessage, bind, Except.bind, pure, Except.pure]
  rw [ReadFull_short conn 6 h]
  simp [makeBytes]

theorem bigEndian_four_mod (v : Nat) : bigEndian 4 (v % 4294967296) = bigEndian 4 v := by
  rw [bigEndian_four, bigEndian_four]
  simp only [byteOf, List.cons.injEq, and_true]
  refine ⟨?_, ?_, ?_, ?_⟩ <;> (apply Fin.ext; simp only; omega)

theorem bigEndianValue_snoc (bs : List Byte) (b : Byte) :
    bigEndianValue (bs ++ [b]) = bigEndianValue bs * 256 + b.val := by
  simp [bigEndianValue, List.foldl_append]

theorem bigEndianValue_bigEndian (k v : Nat) (h : v < 256 ^ k) :
    bigEndianValue (bigEndian k v) = v := by
  induction k generalizing v with
  | zero =>
    have : v = 0 := by simpa using h
    subst this
    rfl
  | succ k ih =>
    have h1 : v / 256 < 256 ^ k := by
      rw [Nat.div_lt_iff_lt_mul (by decide)]
      rw [pow_succ] at h
      exact h
    rw [bigEndian, bigEndianValue_snoc, ih _ h1]
    simp only [byteOf]
    omega

theorem frameOf_length (body : List Byte) : (frameOf body).length = body.length + 6 := by
  simp only [frameOf, List.length_append, bigEndian_length]
  omega

theorem composeFrame_frameOf (message : List Byte) :
    composeFrame message = .ok (frameOf message) := by
  rw [composeFrame_eq, uint32, bigEndian_four_mod, frameOf]

/-- The whole of `WriteMessage`: one `Write` of the frame, then the two checks. -/
theorem WriteMessage_eq (conn : Conn) (message : List Byte) :
    WriteMessage conn message = .ok
      (if (conn.writeOutcome conn.writeLog (frameOf message)).1
            < ((message.length + 6 : Nat) : Int) then
          some (NetError.shortWrite (message.length + 6)
            (conn.writeOutcome conn.writeLog (frameOf message)).1)
        else (conn.writeOutcome conn.writeLog (frameOf message)).2,
       { conn with writeLog := conn.writeLog ++ [frameOf message] }) := by
  simp only [WriteMessage, bind, Except.bind, pure, Except.pure, composeFrame_frameOf,
    Conn.Write]
  split_ifs <;> simp_all

/-- Reading a stream that starts with the frame of `body`. -/
theorem ReadMessage_frameOf (r : Conn) (body rest : List Byte)
    (hlen : body.length < 4294967296) (hr : r.input = frameOf body ++ rest) :
    ReadMessage r = .ok ((body, none), { r with input := rest }) := by
  have hin : r.input = byteOf (LLD_PROTOCOL_VERSION / 256) :: byteOf LLD_PROTOCOL_VERSION ::
      byteOf (body.length / 16777216) :: byteOf (body.length / 65536) ::
      byteOf (body.length / 256) :: byteOf body.length :: (body ++ rest) := by
    rw [hr, frameOf, bigEndian_two, bigEndian_four]
    simp only [List.cons_append, List.nil_append]
  have hver : (byteOf (LLD_PROTOCOL_VERSION / 256)).val * 256
      + (byteOf LLD_PROTOCOL_VERSION).val = LLD_PROTOCOL_VERSION := by decide
  have hsz : (byteOf (body.length / 16777216)).val * 16777216
      + (byteOf (body.length / 65536)).val * 65536
      + (byteOf (body.length / 256)).val * 256 + (byteOf body.length).val = body.length := by
    simp only [byteOf]
    omega
  rw [ReadMessage_header r _ _ _ _ _ _ _ hin, hver, hsz]
  simp only [ne_eq, not_true_eq_false, if_false, List.length_append, Nat.le_add_right,
    if_true, List.take_left, List.drop_left]

/-- What `ReadDatagram` returns, in terms of the receive buffer after the single
`Read`: its first six bytes are the header, `tail` the `expectedSize` bytes behind. -/
theorem ReadDatagram_buffer (d : Conn) (data : List Byte) (perr : Option NetError)
    (more : List (List Byte × Option NetError)) (expectedSize : Nat)
    (b0 b1 b2 b3 b4 b5 : Byte) (tail : List Byte)
    (hp : d.packets = (data, perr) :: more)
    (hbuf : overwrite (makeBytes (expectedSize + 6)) 0 (data.take (expectedSize + 6))
      = b0 :: b1 :: b2 :: b3 :: b4 :: b5 :: tail) :
    ReadDatagram d expectedSize = .ok
      (if perr ≠ none then (([], perr), { d with packets := more })
      else if b0.val * 256 + b1.val ≠ LLD_PROTOCOL_VERSION then
        (([], some (NetError.datagramVersionMismatch (b0.val * 256 + b1.val))),
          { d with packets := more })
      else if ((min data.length (expectedSize + 6) : Nat) : Int) <
          ((b2.val * 16777216 + b3.val * 65536 + b4.val * 256 + b5.val + 6 : Nat) : Int) then
        ((overwrite (makeBytes (b2.val * 16777216 + b3.val * 65536 + b4.val * 256 + b5.val)) 0
            (tail.take (b2.val * 16777216 + b3.val * 65536 + b4.val * 256 + b5.val)),
          some (NetError.truncatedDatagram
            (((min data.length (expectedSize + 6) : Nat) : Int) - 6)
            (b2.val * 16777216 + b3.val * 65536 + b4.val * 256 + b5.val))),
          { d with packets := more })
      else
        ((overwrite (makeBytes (b2.val * 16777216 + b3.val * 65536 + b4.val * 256 + b5.val)) 0
            (tail.take (b2.val * 16777216 + b3.val * 65536 + b4.val * 256 + b5.val)), none),
          { d with packets := more })) := by
  have hs0 : Slice.slice (Slice.ofBuffer (b0 :: b1 :: b2 :: b3 :: b4 :: b5 :: tail)) 0 2
      = .ok ⟨[b0, b1], b2 :: b3 :: b4 :: b5 :: tail⟩ := by
    have := Slice.slice_mid [] [b0, b1] (b2 :: b3 :: b4 :: b5 :: tail) [] 0 2 rfl rfl
    simpa using this
  have hs1 : Slice.slice (Slice.ofBuffer (b0 :: b1 :: b2 :: b3 :: b4 :: b5 :: tail)) 2 6
      = .ok ⟨[b2, b3, b4, b5], tail⟩ := by
    have := Slice.slice_mid [b0, b1] [b2, b3, b4, b5] tail [] 2 6 rfl rfl
    simpa using this
  have hs2 : Slice.sliceFrom (Slice.ofBuffer (b0 :: b1 :: b2 :: b3 :: b4 :: b5 :: tail)) 6
      = .ok ⟨tail, []⟩ := by
    have := Slice.slice_mid [b0, b1, b2, b3, b4, b5] tail [] [] 6 (6 + tail.length) rfl rfl
    simp only [List.append_nil] at this
    rw [Slice.sliceFrom, Slice.len, Slice.ofBuffer, ← this]
    simp only [List.length_cons, List.cons_append, List.nil_append]
    congr 1
    omega
  have hread : d.Read (makeBytes (expectedSize + 6))
      = ((b0 :: b1 :: b2 :: b3 :: b4 :: b5 :: tail, min data.length (expectedSize + 6), perr),
          { d with packets := more }) := by
    simp only [Conn.Read, hp, makeBytes_length, hbuf]
  simp only [ReadDatagram, bind, Except.bind, pure, Except.pure]
  rw [hread]
  simp only [hs0, hs1, hs2, Uint16, Uint32]
  have hcopy : ∀ k : Nat, copyInto (makeBytes k) 0 (makeBytes k).length tail
      = .ok (overwrite (makeBytes k) 0 (tail.take k)) := by
    intro k
    rw [copyInto, if_pos ⟨Nat.zero_le _, le_refl _⟩, makeBytes_length, Nat.sub_zero]
  simp only [hcopy]
  split_ifs <;> rfl

theorem six_bytes_of_length (l : List Byte) (h : 6 ≤ l.length) :
    ∃ b0 b1 b2 b3 b4 b5 tail, l = b0 :: b1 :: b2 :: b3 :: b4 :: b5 :: tail := by
  match l, h with
  | b0 :: b1 :: b2 :: b3 :: b4 :: b5 :: tail, _ => exact ⟨b0, b1, b2, b3, b4, b5, tail, rfl⟩
  | [], h | [_], h | [_, _], h | [_, _, _], h | [_, _, _, _], h | [_, _, _, _, _], h =>
    simp at h

/-- The datagram receive buffer starts with the six header bytes of the datagram. -/
theorem receive_buffer_header (hdr body : List Byte) (expectedSize : Nat)
    (hh : hdr.length = 6) :
    ∃ tail, overwrite (makeBytes (expectedSize + 6)) 0 ((hdr ++ body).take (expectedSize + 6))
      = hdr ++ tail := by
  have ht : (hdr ++ body).take (expectedSize + 6) = hdr ++ body.take expectedSize := by
    rw [show expectedSize + 6 = hdr.length + expectedSize by omega, List.take_append]
  refine ⟨body.take expectedSize ++
    (makeBytes (expectedSize + 6)).drop (0 + (hdr ++ body.take expectedSize).length), ?_⟩
  rw [ht, overwrite, List.take_zero, List.nil_append, List.append_assoc]

/-! ## Lemmas on byte arrays with 2-byte lengths -/

theorem bigEndian_two_mod (v : Nat) : bigEndian 2 (v % 65536) = bigEndian 2 v := by
  rw [bigEndian_two, bigEndian_two]
  simp only [byteOf, List.cons.injEq, and_true]
  refine ⟨?_, ?_⟩ <;> (apply Fin.ext; simp only; omega)

theorem lengthPrefixed16_nil : lengthPrefixed16 [] = [] := rfl

theorem lengthPrefixed16_cons (a : List Byte) (rest : List (List Byte)) :
    lengthPrefixed16 (a :: rest) = bigEndian 2 a.length ++ a ++ lengthPrefixed16 rest := by
  simp only [lengthPrefixed16, List.map_cons, List.flatten_cons]

theorem lengthPrefixed16_cons_length (a : List Byte) (rest : List (List Byte)) :
    (lengthPrefixed16 (a :: rest)).length
      = 2 + (a.length + (lengthPrefixed16 rest).length) := by
  rw [lengthPrefixed16_cons]
  simp only [List.length_append, bigEndian_length]
  omega

theorem marshalSize_foldl (arrs : List (List Byte)) (s0 : Nat) :
    arrs.foldl (fun size arr => size + (arr.length + 2)) s0
      = s0 + (lengthPrefixed16 arrs).length := by
  induction arrs generalizing s0 with
  | nil => rfl
  | cons a rest ih =>
    rw [List.foldl_cons, ih, lengthPrefixed16_cons_length]
    omega

theorem marshalSize_eq (arrs : List (List Byte)) :
    marshalSize arrs = (lengthPrefixed16 arrs).length := by
  rw [marshalSize, marshalSize_foldl, Nat.zero_add]

/-- One turn of the second loop of `MarshalByteArrays` on an array within the limit. -/
theorem marshalLoop_cons (a : List Byte) (rest : List (List Byte)) (pre : List Byte)
    (i : Nat) (hi : i = pre.length) (ha : a.length ≤ 65535) :
    marshalLoop (a :: rest) i (pre ++ makeBytes (lengthPrefixed16 (a :: rest)).length)
      = marshalLoop rest (i + a.length + 2)
          ((pre ++ bigEndian 2 a.length ++ a) ++ makeBytes (lengthPrefixed16 rest).length) := by
  have hm : pre ++ makeBytes (lengthPrefixed16 (a :: rest)).length
      = pre ++ makeBytes 2 ++ (makeBytes a.length ++ makeBytes (lengthPrefixed16 rest).length) := by
    rw [lengthPrefixed16_cons_length, makeBytes_add, makeBytes_add, List.append_assoc]
  have h1 := PutUint16_mid pre (makeBytes 2)
    (makeBytes a.length ++ makeBytes (lengthPrefixed16 rest).length) i (i + 2)
    (uint16 a.length) (makeBytes_length 2) hi rfl
  have h2 := copyInto_mid (pre ++ bigEndian 2 a.length) (makeBytes a.length)
    (makeBytes (lengthPrefixed16 rest).length) a (i + 2) (i + a.length + 2)
    (makeBytes_length _) (by simp only [List.length_append, bigEndian_length, hi]) (by omega)
  have hu : bigEndian 2 (uint16 a.length) = bigEndian 2 a.length := bigEndian_two_mod _
  rw [hu] at h1
  rw [marshalLoop, if_neg (by omega)]
  simp only [bind, Except.bind, pure, Except.pure]
  rw [hm, h1]
  simp only
  rw [← List.append_assoc, h2]

theorem marshalLoop_ok (rest : List (List Byte)) (pre : List Byte) (i : Nat)
    (hi : i = pre.length) (hall : ∀ a ∈ rest, a.length ≤ 65535) :
    marshalLoop rest i (pre ++ makeBytes (lengthPrefixed16 rest).length)
      = .ok (pre ++ lengthPrefixed16 rest) := by
  induction rest generalizing pre i with
  | nil =>
    rw [marshalLoop, lengthPrefixed16_nil]
    rfl
  | cons a rest ih =>
    rw [marshalLoop_cons a rest pre i hi (hall a (List.mem_cons_self a rest)),
      ih _ _ (by simp only [List.length_append, bigEndian_length, hi]; omega)
        (fun b hb => hall b (List.mem_cons_of_mem a hb)),
      lengthPrefixed16_cons]
    simp only [List.append_assoc]

theorem marshalLoop_panic (rest : List (List Byte)) (pre : List Byte) (i : Nat)
    (hi : i = pre.length) (hex : ∃ a ∈ rest, 65535 < a.length) :
    marshalLoop rest i (pre ++ makeBytes (lengthPrefixed16 rest).length)
      = .error (Fault.explicit "Cannot marshal arrays with more than 65K bytes!") := by
  induction rest generalizing pre i with
  | nil =>
    obtain ⟨a, ha, _⟩ := hex
    cases ha
  | cons a rest ih =>
    by_cases hlen : 65535 < a.length
    · rw [marshalLoop, if_pos hlen]
      rfl
    · obtain ⟨b, hb, hblen⟩ := hex
      have hb' : b ∈ rest := by
        rcases List.mem_cons.mp hb with h | h
        · subst h
          exact absurd hblen hlen
        · exact h
      rw [marshalLoop_cons a rest pre i hi (by omega)]
      exact ih _ _ (by simp only [List.length_append, bigEndian_length, hi]; omega)
        ⟨b, hb', hblen⟩

/-- The loop of `UnmarshalByteArrays` on what is left of a well-formed encoding. -/
theorem unmarshalLoop_lengthPrefixed16 (rest : List (List Byte)) (pre spare : List Byte)
    (fuel i : Nat) (acc : List (List Byte))
    (hi : i = pre.length) (hfuel : rest.length < fuel)
    (hall : ∀ a ∈ rest, a.length ≤ 65535) :
    unmarshalLoop ⟨pre ++ lengthPrefixed16 rest, spare⟩ fuel i acc = .ok (acc ++ rest) := by
  induction rest generalizing pre fuel i acc with
  | nil =>
    obtain ⟨fuel, rfl⟩ : ∃ f, fuel = f + 1 := ⟨fuel - 1, by simp at hfuel; omega⟩
    rw [unmarshalLoop, if_neg (by simp [Slice.len, lengthPrefixed16_nil, hi])]
    simp
  | cons a rest ih =>
    obtain ⟨fuel, rfl⟩ : ∃ f, fuel = f + 1 := ⟨fuel - 1, by simp at hfuel; omega⟩
    have ha : a.length ≤ 65535 := hall a (List.mem_cons_self a rest)
    have hin : pre ++ lengthPrefixed16 (a :: rest)
        = pre ++ bigEndian 2 a.length ++ (a ++ lengthPrefixed16 rest) := by
      rw [lengthPrefixed16_cons]
      simp only [List.append_assoc]
    have hin2 : pre ++ lengthPrefixed16 (a :: rest)
        = (pre ++ bigEndian 2 a.length) ++ a ++ lengthPrefixed16 rest := by
      rw [lengthPrefixed16_cons]
      simp only [List.append_assoc]
    have hs1 : Slice.slice ⟨pre ++ lengthPrefixed16 (a :: rest), spare⟩ i (i + 2)
        = .ok ⟨bigEndian 2 a.length, (a ++ lengthPrefixed16 rest) ++ spare⟩ := by
      rw [hin]
      exact Slice.slice_mid pre _ _ spare i (i + 2) hi (by rw [bigEndian_length])
    have hs2 : Slice.slice ⟨pre ++ lengthPrefixed16 (a :: rest), spare⟩ (i + 2)
        (i + 2 + a.length) = .ok ⟨a, lengthPrefixed16 rest ++ spare⟩ := by
      rw [hin2]
      exact Slice.slice_mid _ a _ spare (i + 2) (i + 2 + a.length)
        (by simp only [List.length_append, bigEndian_length, hi]) rfl
    have hcopy : copyInto (makeBytes a.length) 0 (makeBytes a.length).length a = .ok a := by
      have := copyInto_mid [] (makeBytes a.length) [] a 0 (makeBytes a.length).length
        (makeBytes_length _) rfl (by rw [makeBytes_length, Nat.zero_add])
      simpa using this
    have hlt : i < (Slice.mk (pre ++ lengthPrefixed16 (a :: rest)) spare).len := by
      simp only [Slice.len, List.length_append, lengthPrefixed16_cons_length, hi]
      omega
    rw [unmarshalLoop, if_pos hlt]
    simp only [bind, Except.bind, hs1, Uint16_bigEndian, Nat.mod_eq_of_lt (show a.length < 65536 by omega),
      hs2, hcopy]
    have := ih (pre ++ bigEndian 2 a.length ++ a) fuel (i + a.length + 2) (acc ++ [a])
      (by simp only [List.length_append, bigEndian_length, hi]; omega)
      (by simp only [List.length_cons] at hfuel; omega)
      (fun b hb => hall b (List.mem_cons_of_mem a hb))
    rw [hin2, this]
    simp only [List.append_assoc, List.singleton_append]

theorem MarshalByteArrays_ok (arrs : List (List Byte)) (hall : ∀ a ∈ arrs, a.length ≤ 65535) :
    MarshalByteArrays arrs = .ok (lengthPrefixed16 arrs) := by
  have := marshalLoop_ok arrs [] 0 rfl hall
  simpa only [MarshalByteArrays, marshalSize_eq, List.nil_append] using this

theorem MarshalByteArrays_panic (arrs : List (List Byte)) (hex : ∃ a ∈ arrs, 65535 < a.length) :
    MarshalByteArrays arrs
      = .error (Fault.explicit "Cannot marshal arrays with more than 65K bytes!") := by
  have := marshalLoop_panic arrs [] 0 rfl hex
  simpa only [MarshalByteArrays, marshalSize_eq, List.nil_append] using this

theorem length_le_lengthPrefixed16 (arrs : List (List Byte)) :
    arrs.length ≤ (lengthPrefixed16 arrs).length := by
  induction arrs with
  | nil => exact Nat.le_refl _
  | cons a rest ih =>
    rw [lengthPrefixed16_cons_length, List.length_cons]
    omega

/-! ## Lemmas on entries with 4-byte lengths -/

theorem lengthPrefixed32_nil : lengthPrefixed32 [] = [] := rfl

theorem lengthPrefixed32_cons (e : List Byte) (rest : List (List Byte)) :
    lengthPrefixed32 (e :: rest) = bigEndian 4 e.length ++ e ++ lengthPrefixed32 rest := by
  simp only [lengthPrefixed32, List.map_cons, List.flatten_cons]

theorem lengthPrefixed32_append (xs ys : List (List Byte)) :
    lengthPrefixed32 (xs ++ ys) = lengthPrefixed32 xs ++ lengthPrefixed32 ys := by
  simp only [lengthPrefixed32, List.map_append, List.flatten_append]

theorem lengthPrefixed32_cons_length (e : List Byte) (rest : List (List Byte)) :
    (lengthPrefixed32 (e :: rest)).length
      = 4 + (e.length + (lengthPrefixed32 rest).length) := by
  rw [lengthPrefixed32_cons]
  simp only [List.length_append, bigEndian_length]
  omega

theorem length_le_lengthPrefixed32 (es : List (List Byte)) :
    es.length ≤ (lengthPrefixed32 es).length := by
  induction es with
  | nil => exact Nat.le_refl _
  | cons e rest ih =>
    rw [lengthPrefixed32_cons_length, List.length_cons]
    omega

/-- An entry `[u32 length][bytes]` at offset `cb` leaves room for its length field. -/
theorem entry32_in_range (pre e post spare : List Byte) (cb : Nat) (hcb : cb = pre.length) :
    ¬ (cb + 4 > (Slice.mk (pre ++ (bigEndian 4 e.length ++ e) ++ post) spare).len) := by
  simp only [Slice.len, List.length_append, bigEndian_length, hcb]
  omega

/-- Reading the length field of an entry `[u32 length][bytes]` at offset `cb`. -/
theorem entry32_length (pre e post spare : List Byte) (cb : Nat) (hcb : cb = pre.length)
    (hlen : e.length < 4294967296) :
    (Slice.slice ⟨pre ++ (bigEndian 4 e.length ++ e) ++ post, spare⟩ cb (cb + 4)).bind Uint32
      = .ok e.length := by
  have hin : pre ++ (bigEndian 4 e.length ++ e) ++ post
      = pre ++ bigEndian 4 e.length ++ (e ++ post) := by
    simp only [List.append_assoc]
  rw [hin, Slice.slice_mid pre _ _ spare cb (cb + 4) hcb (by rw [bigEndian_length])]
  simp only [Except.bind]
  rw [Uint32_bigEndian, Nat.mod_eq_of_lt hlen]

/-- Cutting the bytes of an entry `[u32 length][bytes]` at offset `cb`. -/
theorem entry32_value (pre e post spare : List Byte) (cb : Nat) (hcb : cb = pre.length) :
    Slice.slice ⟨pre ++ (bigEndian 4 e.length ++ e) ++ post, spare⟩ (cb + 4)
      (cb + 4 + e.length) = .ok ⟨e, post ++ spare⟩ := by
  have hin : pre ++ (bigEndian 4 e.length ++ e) ++ post
      = (pre ++ bigEndian 4 e.length) ++ e ++ post := by
    simp only [List.append_assoc]
  rw [hin]
  exact Slice.slice_mid _ e post spare (cb + 4) (cb + 4 + e.length)
    (by simp only [List.length_append, bigEndian_length, hcb]) rfl

/-! ## Lemmas on public-key arrays -/

theorem PutUint32_fresh (v : Nat) : PutUint32 (makeBytes 4) 0 4 v = .ok (bigEndian 4 v) := by
  have := PutUint32_mid [] (makeBytes 4) [] 0 4 v (makeBytes_length 4) rfl rfl
  simpa only [List.nil_append, List.append_nil] using this

theorem PutUint16_fresh (v : Nat) : PutUint16 (makeBytes 2) 0 2 v = .ok (bigEndian 2 v) := by
  have := PutUint16_mid [] (makeBytes 2) [] 0 2 v (makeBytes_length 2) rfl rfl
  simpa only [List.nil_append, List.append_nil] using this

theorem marshalKeysLoop_ok (S : Suite) (rest : List S.Point) (acc : List Byte)
    (hm : ∀ k ∈ rest, (S.MarshalBinary k).2 = none) :
    marshalKeysLoop S rest acc = .ok (acc ++ lengthPrefixed32 (rest.map S.bytesOf), none) := by
  induction rest generalizing acc with
  | nil =>
    rw [marshalKeysLoop, List.map_nil, lengthPrefixed32_nil, List.append_nil]
  | cons k rest ih =>
    have hk : (S.MarshalBinary k).2 = none := hm k (List.mem_cons_self k rest)
    rw [marshalKeysLoop]
    simp only [bind, Except.bind, pure, Except.pure, PutUint32_fresh, uint32,
      bigEndian_four_mod, hk, ne_eq, not_true_eq_false, if_false]
    rw [ih _ (fun b hb => hm b (List.mem_cons_of_mem k hb)), List.map_cons,
      lengthPrefixed32_cons]
    simp only [Suite.bytesOf, List.append_assoc]

theorem MarshalPublicKeyArrayToByteArray_ok (S : Suite) (keys : List S.Point)
    (hm : ∀ k ∈ keys, (S.MarshalBinary k).2 = none) :
    MarshalPublicKeyArrayToByteArray S keys = .ok (keyArrayLayout S keys, none) := by
  simp only [MarshalPublicKeyArrayToByteArray, bind, Except.bind, PutUint16_fresh,
    List.nil_append]
  rw [marshalKeysLoop_ok S keys _ hm]
  have hu : bigEndian 2 (uint16 MESSAGE_TYPE_PUBLICKEYS) = bigEndian 2 MESSAGE_TYPE_PUBLICKEYS :=
    bigEndian_two_mod _
  rw [hu, keyArrayLayout]

/-- The loop of `UnMarshalPublicKeyArrayFromByteArray` on what is left of a key array. -/
theorem unmarshalKeysLoop_ok (S : Suite) (rest : List S.Point) (pre spare : List Byte)
    (fuel cb : Nat) (acc : List S.Point)
    (hcb : cb = pre.length) (hfuel : rest.length < fuel)
    (hinv : ∀ k ∈ rest, S.UnmarshalBinary (S.bytesOf k) = .ok k)
    (hne : ∀ k ∈ rest, 0 < (S.bytesOf k).length)
    (hlt : ∀ k ∈ rest, (S.bytesOf k).length < 4294967296) :
    unmarshalKeysLoop S ⟨pre ++ lengthPrefixed32 (rest.map S.bytesOf), spare⟩ fuel cb acc
      = .ok (acc ++ rest, none) := by
  induction rest generalizing pre fuel cb acc with
  | nil =>
    obtain ⟨fuel, rfl⟩ : ∃ f, fuel = f + 1 := ⟨fuel - 1, by simp at hfuel; omega⟩
    rw [unmarshalKeysLoop, if_pos (by simp [Slice.len, lengthPrefixed32_nil, hcb])]
    simp
  | cons k rest ih =>
    obtain ⟨fuel, rfl⟩ : ∃ f, fuel = f + 1 := ⟨fuel - 1, by simp at hfuel; omega⟩
    have hk := List.mem_cons_self k rest
    have hin : pre ++ lengthPrefixed32 ((k :: rest).map S.bytesOf)
        = pre ++ (bigEndian 4 (S.bytesOf k).length ++ S.bytesOf k)
          ++ lengthPrefixed32 (rest.map S.bytesOf) := by
      rw [List.map_cons, lengthPrefixed32_cons]
      simp only [List.append_assoc]
    rw [unmarshalKeysLoop, hin, if_neg (entry32_in_range _ _ _ _ cb hcb),
      entry32_length _ _ _ _ cb hcb (hlt k hk)]
    simp only [bind, Except.bind, pure, Except.pure,
      if_neg (Nat.pos_iff_ne_zero.mp (hne k hk)), entry32_value _ _ _ _ cb hcb, hinv k hk]
    have := ih (pre ++ (bigEndian 4 (S.bytesOf k).length ++ S.bytesOf k)) fuel
      (cb + 4 + (S.bytesOf k).length) (acc ++ [k])
      (by simp only [List.length_append, bigEndian_length, hcb]; omega)
      (by simp only [List.length_cons] at hfuel; omega)
      (fun b hb => hinv b (List.mem_cons_of_mem k hb))
      (fun b hb => hne b (List.mem_cons_of_mem k hb))
      (fun b hb => hlt b (List.mem_cons_of_mem k hb))
    rw [this]
    simp only [List.append_assoc, List.singleton_append]

theorem UnMarshalPublicKeyArrayFromByteArray_ok (S : Suite) (keys : List S.Point)
    (spare : List Byte)
    (hinv : ∀ k ∈ keys, S.UnmarshalBinary (S.bytesOf k) = .ok k)
    (hne : ∀ k ∈ keys, 0 < (S.bytesOf k).length)
    (hlt : ∀ k ∈ keys, (S.bytesOf k).length < 4294967296) :
    UnMarshalPublicKeyArrayFromByteArray ⟨keyArrayLayout S keys, spare⟩ S
      = .ok (keys, none) := by
  have hs : Slice.slice ⟨keyArrayLayout S keys, spare⟩ 0 2
      = .ok ⟨bigEndian 2 MESSAGE_TYPE_PUBLICKEYS,
          lengthPrefixed32 (keys.map S.bytesOf) ++ spare⟩ := by
    have := Slice.slice_mid [] (bigEndian 2 MESSAGE_TYPE_PUBLICKEYS)
      (lengthPrefixed32 (keys.map S.bytesOf)) spare 0 2 rfl (by rw [bigEndian_length])
    simpa only [keyArrayLayout, List.nil_append] using this
  have hfuel : keys.length < (Slice.mk (keyArrayLayout S keys) spare).len + 1 := by
    have := length_le_lengthPrefixed32 (keys.map S.bytesOf)
    simp only [List.length_map] at this
    simp only [Slice.len, keyArrayLayout, List.length_append, bigEndian_length]
    omega
  have := unmarshalKeysLoop_ok S keys (bigEndian 2 MESSAGE_TYPE_PUBLICKEYS) spare
    ((Slice.mk (keyArrayLayout S keys) spare).len + 1) 2 [] (by rw [bigEndian_length])
    hfuel hinv hne hlt
  simp only [UnMarshalPublicKeyArrayFromByteArray, bind, Except.bind, pure, Except.pure, hs,
    Uint16_bigEndian]
  rw [if_neg (by decide)]
  simpa only [keyArrayLayout, List.nil_append] using this

/-! ## Lemmas on base, keys and proof -/

/-- The six buffer writes of `WriteBasePublicKeysAndProofToConn`. -/
theorem composeBaseKeysProof_eq (b k pr : List Byte) :
    composeBaseKeysProof b k pr = .ok (baseKeysProofLayout b k pr) := by
  have h0 : makeBytes (12 + b.length + k.length + pr.length)
      = makeBytes 4 ++ (makeBytes b.length ++ (makeBytes 4 ++ (makeBytes k.length
          ++ (makeBytes 4 ++ makeBytes pr.length)))) := by
    rw [show 12 + b.length + k.length + pr.length
      = 4 + (b.length + (4 + (k.length + (4 + pr.length)))) by omega]
    simp only [makeBytes_add]
  have h1 : PutUint32 (makeBytes 4 ++ (makeBytes b.length ++ (makeBytes 4 ++ (makeBytes k.length
        ++ (makeBytes 4 ++ makeBytes pr.length))))) 0 4 (uint32 b.length)
      = .ok (bigEndian 4 b.length ++ (makeBytes b.length ++ (makeBytes 4 ++ (makeBytes k.length
        ++ (makeBytes 4 ++ makeBytes pr.length))))) := by
    have := PutUint32_mid [] (makeBytes 4) (makeBytes b.length ++ (makeBytes 4 ++
      (makeBytes k.length ++ (makeBytes 4 ++ makeBytes pr.length)))) 0 4 (uint32 b.length)
      (makeBytes_length 4) rfl rfl
    simpa only [List.nil_append, uint32, bigEndian_four_mod] using this
  have h2 : PutUint32 (bigEndian 4 b.length ++ (makeBytes b.length ++ (makeBytes 4 ++
        (makeBytes k.length ++ (makeBytes 4 ++ makeBytes pr.length)))))
        (4 + b.length) (8 + b.length) (uint32 k.length)
      = .ok (bigEndian 4 b.length ++ (makeBytes b.length ++ (bigEndian 4 k.length ++
        (makeBytes k.length ++ (makeBytes 4 ++ makeBytes pr.length))))) := by
    have := PutUint32_mid (bigEndian 4 b.length ++ makeBytes b.length) (makeBytes 4)
      (makeBytes k.length ++ (makeBytes 4 ++ makeBytes pr.length))
      (4 + b.length) (8 + b.length) (uint32 k.length) (makeBytes_length 4)
      (by simp only [List.length_append, bigEndian_length, makeBytes_length]) (by omega)
    simpa only [List.append_assoc, uint32, bigEndian_four_mod] using this
  have h3 : PutUint32 (bigEndian 4 b.length ++ (makeBytes b.length ++ (bigEndian 4 k.length ++
        (makeBytes k.length ++ (makeBytes 4 ++ makeBytes pr.length)))))
        (8 + b.length + k.length) (12 + b.length + k.length) (uint32 pr.length)
      = .ok (bigEndian 4 b.length ++ (makeBytes b.length ++ (bigEndian 4 k.length ++
        (makeBytes k.length ++ (bigEndian 4 pr.length ++ makeBytes pr.length))))) := by
    have := PutUint32_mid (bigEndian 4 b.length ++ makeBytes b.length ++ bigEndian 4 k.length
      ++ makeBytes k.length) (makeBytes 4) (makeBytes pr.length)
      (8 + b.length + k.length) (12 + b.length + k.length) (uint32 pr.length)
      (makeBytes_length 4)
      (by simp only [List.length_append, bigEndian_length, makeBytes_length]; omega) (by omega)
    simpa only [List.append_assoc, uint32, bigEndian_four_mod] using this
  have h4 : copyInto (bigEndian 4 b.length ++ (makeBytes b.length ++ (bigEndian 4 k.length ++
        (makeBytes k.length ++ (bigEndian 4 pr.length ++ makeBytes pr.length)))))
        4 (4 + b.length) b
      = .ok (bigEndian 4 b.length ++ (b ++ (bigEndian 4 k.length ++
        (makeBytes k.length ++ (bigEndian 4 pr.length ++ makeBytes pr.length))))) := by
    have := copyInto_mid (bigEndian 4 b.length) (makeBytes b.length) (bigEndian 4 k.length ++
      (makeBytes k.length ++ (bigEndian 4 pr.length ++ makeBytes pr.length))) b
      4 (4 + b.length) (makeBytes_length _) (by rw [bigEndian_length]) rfl
    simpa only [List.append_assoc] using this
  have h5 : copyInto (bigEndian 4 b.length ++ (b ++ (bigEndian 4 k.length ++
        (makeBytes k.length ++ (bigEndian 4 pr.length ++ makeBytes pr.length)))))
        (8 + b.length) (8 + b.length + k.length) k
      = .ok (bigEndian 4 b.length ++ (b ++ (bigEndian 4 k.length ++
        (k ++ (bigEndian 4 pr.length ++ makeBytes pr.length))))) := by
    have := copyInto_mid (bigEndian 4 b.length ++ b ++ bigEndian 4 k.length)
      (makeBytes k.length) (bigEndian 4 pr.length ++ makeBytes pr.length) k
      (8 + b.length) (8 + b.length + k.length) (makeBytes_length _)
      (by simp only [List.length_append, bigEndian_length]; omega) rfl
    simpa only [List.append_assoc] using this
  have h6 : copyInto (bigEndian 4 b.length ++ (b ++ (bigEndian 4 k.length ++
        (k ++ (bigEndian 4 pr.length ++ makeBytes pr.length)))))
        (12 + b.length + k.length) (12 + b.length + k.length + pr.length) pr
      = .ok (bigEndian 4 b.length ++ (b ++ (bigEndian 4 k.length ++
        (k ++ (bigEndian 4 pr.length ++ pr))))) := by
    have := copyInto_mid (bigEndian 4 b.length ++ b ++ bigEndian 4 k.length ++ k
      ++ bigEndian 4 pr.length) (makeBytes pr.length) [] pr
      (12 + b.length + k.length) (12 + b.length + k.length + pr.length) (makeBytes_length _)
      (by simp only [List.length_append, bigEndian_length]; omega) rfl
    simpa only [List.append_assoc, List.append_nil] using this
  simp only [composeBaseKeysProof, bind, Except.bind, h0, h1, h2, h3, h4, h5, h6,
    baseKeysProofLayout, List.append_assoc]

theorem bind_ok_eq {α β : Type} (a : α) (f : α → Except Fault β) :
    Except.bind (Except.ok a) f = f a := rfl

theorem entry32_length_at (buf pre e post spare : List Byte) (lo hi : Nat)
    (hbuf : buf = pre ++ (bigEndian 4 e.length ++ e) ++ post)
    (hlo : lo = pre.length) (hhi : hi = lo + 4) (hlen : e.length < 4294967296) :
    (Slice.slice ⟨buf, spare⟩ lo hi).bind Uint32 = .ok e.length := by
  subst hbuf hhi
  exact entry32_length pre e post spare lo hlo hlen

theorem entry32_value_at (buf pre e post spare : List Byte) (lo hi : Nat)
    (hbuf : buf = pre ++ (bigEndian 4 e.length ++ e) ++ post)
    (hlo : lo = pre.length + 4) (hhi : hi = lo + e.length) :
    Slice.slice ⟨buf, spare⟩ lo hi = .ok ⟨e, post ++ spare⟩ := by
  subst hbuf hhi hlo
  exact entry32_value pre e post spare pre.length rfl

theorem WriteBasePublicKeysAndProofToConn_eq (S : Suite) (conn : Conn) (base : S.Point)
    (keys : List S.Point) (proof : List Byte)
    (hm : ∀ k ∈ keys, (S.MarshalBinary k).2 = none) :
    WriteBasePublicKeysAndProofToConn S conn base keys proof
      = WriteMessage conn
          (baseKeysProofLayout (S.bytesOf base) (keyArrayLayout S keys) proof) := by
  simp only [WriteBasePublicKeysAndProofToConn, bind, Except.bind, pure, Except.pure,
    MarshalPublicKeyArrayToByteArray_ok S keys hm, composeBaseKeysProof_eq, ne_eq,
    not_true_eq_false, if_false, Suite.bytesOf]
  rw [WriteMessage_eq]
  simp only
  split_ifs <;> simp_all

theorem ParseBasePublicKeysAndProofFromConn_ok (S : Suite) (r : Conn) (base : S.Point)
    (keys : List S.Point) (proof rest : List Byte)
    (hinvb : S.UnmarshalBinary (S.bytesOf base) = .ok base)
    (hinv : ∀ k ∈ keys, S.UnmarshalBinary (S.bytesOf k) = .ok k)
    (hne : ∀ k ∈ keys, 0 < (S.bytesOf k).length)
    (hlt : ∀ k ∈ keys, (S.bytesOf k).length < 4294967296)
    (hsize : (baseKeysProofLayout (S.bytesOf base) (keyArrayLayout S keys) proof).length
      < 4294967296)
    (hr : r.input
      = frameOf (baseKeysProofLayout (S.bytesOf base) (keyArrayLayout S keys) proof) ++ rest) :
    ParseBasePublicKeysAndProofFromConn S r
      = .ok ((some base, keys, proof, none), { r with input := rest }) := by
  have hl : (baseKeysProofLayout (S.bytesOf base) (keyArrayLayout S keys) proof).length
      = 12 + (S.bytesOf base).length + (keyArrayLayout S keys).length + proof.length := by
    simp only [baseKeysProofLayout, List.length_append, bigEndian_length]
    omega
  have hA := entry32_length_at
    (baseKeysProofLayout (S.bytesOf base) (keyArrayLayout S keys) proof) [] (S.bytesOf base)
    ((bigEndian 4 (keyArrayLayout S keys).length ++ keyArrayLayout S keys)
      ++ (bigEndian 4 proof.length ++ proof)) [] 0 4
    (by simp only [baseKeysProofLayout, List.append_assoc, List.nil_append]) rfl rfl (by omega)
  have hB := entry32_length_at
    (baseKeysProofLayout (S.bytesOf base) (keyArrayLayout S keys) proof)
    (bigEndian 4 (S.bytesOf base).length ++ S.bytesOf base) (keyArrayLayout S keys)
    (bigEndian 4 proof.length ++ proof) [] (4 + (S.bytesOf base).length)
    (8 + (S.bytesOf base).length)
    (by simp only [baseKeysProofLayout, List.append_assoc])
    (by simp only [List.length_append, bigEndian_length]) (by omega) (by omega)
  have hC := entry32_length_at
    (baseKeysProofLayout (S.bytesOf base) (keyArrayLayout S keys) proof)
    (bigEndian 4 (S.bytesOf base).length ++ S.bytesOf base
      ++ (bigEndian 4 (keyArrayLayout S keys).length ++ keyArrayLayout S keys)) proof
    [] [] (8 + (S.bytesOf base).length + (keyArrayLayout S keys).length)
    (12 + (S.bytesOf base).length + (keyArrayLayout S keys).length)
    (by simp only [baseKeysProofLayout, List.append_assoc, List.append_nil])
    (by simp only [List.length_append, bigEndian_length]; omega) (by omega) (by omega)
  have hD := entry32_value_at
    (baseKeysProofLayout (S.bytesOf base) (keyArrayLayout S keys) proof) [] (S.bytesOf base)
    ((bigEndian 4 (keyArrayLayout S keys).length ++ keyArrayLayout S keys)
      ++ (bigEndian 4 proof.length ++ proof)) [] 4 (4 + (S.bytesOf base).length)
    (by simp only [baseKeysProofLayout, List.append_assoc, List.nil_append]) rfl rfl
  have hE := entry32_value_at
    (baseKeysProofLayout (S.bytesOf base) (keyArrayLayout S keys) proof)
    (bigEndian 4 (S.bytesOf base).length ++ S.bytesOf base) (keyArrayLayout S keys)
    (bigEndian 4 proof.length ++ proof) [] (8 + (S.bytesOf base).length)
    (8 + (S.bytesOf base).length + (keyArrayLayout S keys).length)
    (by simp only [baseKeysProofLayout, List.append_assoc])
    (by simp only [List.length_append, bigEndian_length]; omega) rfl
  have hF := entry32_value_at
    (baseKeysProofLayout (S.bytesOf base) (keyArrayLayout S keys) proof)
    (bigEndian 4 (S.bytesOf base).length ++ S.bytesOf base
      ++ (bigEndian 4 (keyArrayLayout S keys).length ++ keyArrayLayout S keys)) proof
    [] [] (12 + (S.bytesOf base).length + (keyArrayLayout S keys).length)
    (12 + (S.bytesOf base).length + (keyArrayLayout S keys).length + proof.length)
    (by simp only [baseKeysProofLayout, List.append_assoc, List.append_nil])
    (by simp only [List.length_append, bigEndian_length]; omega) rfl
  have hK := UnMarshalPublicKeyArrayFromByteArray_ok S keys
    ((bigEndian 4 proof.length ++ proof) ++ []) hinv hne hlt
  simp only [ParseBasePublicKeysAndProofFromConn, bind, pure, Except.pure,
    ReadMessage_frameOf r _ rest hsize hr, bind_ok_eq, Slice.ofBuffer, ne_eq,
    not_true_eq_false, if_false, hA, hB, hC, hD, hE, hF, hinvb, hK]

theorem bytesOf_length_le_keyArrayLayout (S : Suite) (keys : List S.Point) (k : S.Point)
    (hk : k ∈ keys) : (S.bytesOf k).length ≤ (keyArrayLayout S keys).length := by
  have h : ∀ ks : List S.Point, k ∈ ks →
      (S.bytesOf k).length ≤ (lengthPrefixed32 (ks.map S.bytesOf)).length := by
    intro ks
    induction ks with
    | nil => intro h; cases h
    | cons a rest ih =>
      intro h
      rw [List.map_cons, lengthPrefixed32_cons_length]
      rcases List.mem_cons.mp h with h | h
      · subst h
        omega
      · have := ih h
        omega
  have := h keys hk
  simp only [keyArrayLayout, List.length_append]
  omega

/-! ## Lemmas on transcripts -/

/-- A loop of `ParseTranscript` that finds exactly `count` well-formed non-empty
entries from index `i` on consumes them all and stops on the count. -/
theorem sequenceLoop_entries {σ : Type} (step : Slice → Nat → σ → Except Fault (Option σ))
    (entries : List (List Byte)) (pre post spare : List Byte) (count fuel cb i : Nat)
    (s s' : σ) (hentries : entries ≠ [])
    (hcb : cb = pre.length) (hcount : count = i + entries.length)
    (hfuel : entries.length < fuel)
    (hpos : ∀ e ∈ entries, 0 < e.length) (hlt : ∀ e ∈ entries, e.length < 4294967296)
    (hsteps : Steps step i entries s s') :
    sequenceLoop ⟨pre ++ lengthPrefixed32 entries ++ post, spare⟩ count step fuel cb i s
      = .ok (some (cb + (lengthPrefixed32 entries).length, s')) := by
  induction entries generalizing pre fuel cb i s with
  | nil => exact absurd rfl hentries
  | cons e es ih =>
    obtain ⟨fuel, rfl⟩ : ∃ f, fuel = f + 1 := ⟨fuel - 1, by simp at hfuel; omega⟩
    have he := List.mem_cons_self e es
    cases hsteps with
    | cons _ _ _ _ s1 _ hstep hrest =>
      have hin : pre ++ lengthPrefixed32 (e :: es) ++ post
          = pre ++ (bigEndian 4 e.length ++ e) ++ (lengthPrefixed32 es ++ post) := by
        rw [lengthPrefixed32_cons]
        simp only [List.append_assoc]
      rw [sequenceLoop, hin, if_neg (entry32_in_range _ _ _ _ cb hcb),
        entry32_length _ _ _ _ cb hcb (hlt e he)]
      simp only [bind, bind_ok_eq, pure, Except.pure,
        if_neg (Nat.pos_iff_ne_zero.mp (hpos e he)), entry32_value _ _ _ _ cb hcb, hstep]
      by_cases hes : es = []
      · subst hes
        cases hrest
        rw [if_pos (by simpa using hcount.symm)]
        simp only [lengthPrefixed32_cons_length, lengthPrefixed32_nil, List.length_nil,
          Nat.add_zero]
      · have hlen : 0 < es.length := List.length_pos.mpr hes
        rw [if_neg (by simp only [List.length_cons] at hcount; omega)]
        have := ih (pre ++ (bigEndian 4 e.length ++ e)) fuel (cb + (4 + e.length)) (i + 1) s1 hes
          (by simp only [List.length_append, bigEndian_length, hcb])
          (by simp only [List.length_cons] at hcount; omega)
          (by simp only [List.length_cons] at hfuel; omega)
          (fun b hb => hpos b (List.mem_cons_of_mem e hb))
          (fun b hb => hlt b (List.mem_cons_of_mem e hb)) hrest
        have hin2 : pre ++ (bigEndian 4 e.length ++ e) ++ (lengthPrefixed32 es ++ post)
            = pre ++ (bigEndian 4 e.length ++ e) ++ lengthPrefixed32 es ++ post := by
          simp only [List.append_assoc]
        rw [hin2, this, lengthPrefixed32_cons_length]
        simp only [Nat.add_assoc]

theorem set_length_append {α : Type} (l₁ l₂ : List α) (a b : α) :
    (l₁ ++ a :: l₂).set l₁.length b = l₁ ++ b :: l₂ := by
  induction l₁ with
  | nil => rfl
  | cons x xs ih => simp only [List.cons_append, List.length_cons, List.set_cons_succ, ih]

theorem replicate_succ_add {α : Type} (n m : Nat) (a : α) :
    List.replicate (n + 1 + m) a = a :: List.replicate (n + m) a := by
  rw [show n + 1 + m = (n + m) + 1 by omega, List.replicate_succ]

theorem steps_storeBase (S : Suite) (rest : List S.Point) (done : List (Option S.Point))
    (m : Nat) (hinv : ∀ p ∈ rest, S.UnmarshalBinary (S.bytesOf p) = .ok p) :
    Steps (storeBase S) done.length (rest.map S.bytesOf)
      (done ++ List.replicate (rest.length + m) none)
      (done ++ rest.map some ++ List.replicate m none) := by
  induction rest generalizing done with
  | nil =>
    simp only [List.map_nil, List.length_nil, Nat.zero_add, List.append_nil]
    exact Steps.nil _ _
  | cons p rest ih =>
    rw [List.map_cons, List.length_cons, replicate_succ_add]
    refine Steps.cons _ _ _ _ (done ++ [some p] ++ List.replicate (rest.length + m) none) _ ?_ ?_
    · intro sp
      have hlen : done.length < (done ++ none :: List.replicate (rest.length + m) none).length := by
        simp only [List.length_append, List.length_cons]
        omega
      simp only [storeBase, hinv p (List.mem_cons_self p rest), if_pos hlen, set_length_append,
        List.append_assoc, List.singleton_append]
    · have := ih (done ++ [some p]) (fun q hq => hinv q (List.mem_cons_of_mem p hq))
      simpa only [List.length_append, List.length_singleton, List.map_cons, List.append_assoc,
        List.singleton_append] using this

theorem steps_appendEphKey (S : Suite) (ks acc : List S.Point) (j : Nat)
    (hinv : ∀ p ∈ ks, S.UnmarshalBinary (S.bytesOf p) = .ok p) :
    Steps (appendEphKey S) j (ks.map S.bytesOf) acc (acc ++ ks) := by
  induction ks generalizing acc j with
  | nil =>
    simp only [List.map_nil, List.append_nil]
    exact Steps.nil _ _
  | cons p ks ih =>
    rw [List.map_cons]
    refine Steps.cons _ _ _ _ (acc ++ [p]) _ ?_ ?_
    · intro sp
      simp only [appendEphKey, hinv p (List.mem_cons_self p ks)]
    · have := ih (acc ++ [p]) (j + 1) (fun q hq => hinv q (List.mem_cons_of_mem p hq))
      simpa only [List.append_assoc, List.singleton_append] using this

theorem steps_storeProof (ps done : List (List Byte)) (m : Nat) :
    Steps storeProof done.length ps (done ++ List.replicate (ps.length + m) [])
      (done ++ ps ++ List.replicate m []) := by
  induction ps generalizing done with
  | nil =>
    simp only [List.length_nil, Nat.zero_add, List.append_nil]
    exact Steps.nil _ _
  | cons p ps ih =>
    rw [List.length_cons, replicate_succ_add]
    refine Steps.cons _ _ _ _ (done ++ [p] ++ List.replicate (ps.length + m) []) _ ?_ ?_
    · intro sp
      have hlen : done.length < (done ++ [] :: List.replicate (ps.length + m) []).length := by
        simp only [List.length_append, List.length_cons]
        omega
      simp only [storeProof, if_pos hlen, set_length_append, List.append_assoc,
        List.singleton_append]
    · have := ih (done ++ [p])
      simpa only [List.length_append, List.length_singleton, List.append_assoc,
        List.singleton_append] using this

/-- The innermost loop on the keys of one trustee. -/
theorem sequenceLoop_ephKeys (S : Suite) (ks : List S.Point) (sp : List Byte)
    (hks : ks ≠ [])
    (hinv : ∀ p ∈ ks, S.UnmarshalBinary (S.bytesOf p) = .ok p)
    (hne : ∀ p ∈ ks, 0 < (S.bytesOf p).length)
    (hlt : ∀ p ∈ ks, (S.bytesOf p).length < 4294967296) :
    sequenceLoop ⟨lengthPrefixed32 (ks.map S.bytesOf), sp⟩ ks.length (appendEphKey S)
        ((Slice.mk (lengthPrefixed32 (ks.map S.bytesOf)) sp).len + 1) 0 0 []
      = .ok (some ((lengthPrefixed32 (ks.map S.bytesOf)).length, ks)) := by
  have hle := length_le_lengthPrefixed32 (ks.map S.bytesOf)
  have := sequenceLoop_entries (appendEphKey S) (ks.map S.bytesOf) [] [] sp ks.length
    ((Slice.mk (lengthPrefixed32 (ks.map S.bytesOf)) sp).len + 1) 0 0 [] ([] ++ ks)
    (by simpa using hks) rfl (by simp only [List.length_map, Nat.zero_add])
    (by simp only [Slice.len]; omega)
    (by
      intro e he
      obtain ⟨p, hp, rfl⟩ := List.mem_map.mp he
      exact hne p hp)
    (by
      intro e he
      obtain ⟨p, hp, rfl⟩ := List.mem_map.mp he
      exact hlt p hp)
    (steps_appendEphKey S ks [] 0 hinv)
  simpa only [List.nil_append, List.append_nil, Nat.zero_add] using this

theorem steps_storeEphKeys (S : Suite) (nClients : Nat) (kss done : List (List S.Point))
    (m : Nat) (hn : 1 ≤ nClients) (hlen : ∀ ks ∈ kss, ks.length = nClients)
    (hinv : ∀ ks ∈ kss, ∀ p ∈ ks, S.UnmarshalBinary (S.bytesOf p) = .ok p)
    (hne : ∀ ks ∈ kss, ∀ p ∈ ks, 0 < (S.bytesOf p).length)
    (hlt : ∀ ks ∈ kss, ∀ p ∈ ks, (S.bytesOf p).length < 4294967296) :
    Steps (storeEphKeys S nClients) done.length
      (kss.map (fun ks => lengthPrefixed32 (ks.map S.bytesOf)))
      (done ++ List.replicate (kss.length + m) [])
      (done ++ kss ++ List.replicate m []) := by
  induction kss generalizing done with
  | nil =>
    simp only [List.map_nil, List.length_nil, Nat.zero_add, List.append_nil]
    exact Steps.nil _ _
  | cons ks kss ih =>
    have hk := List.mem_cons_self ks kss
    rw [List.map_cons, List.length_cons, replicate_succ_add]
    refine Steps.cons _ _ _ _ (done ++ [ks] ++ List.replicate (kss.length + m) []) _ ?_ ?_
    · intro sp
      have hl : done.length < (done ++ [] :: List.replicate (kss.length + m) []).length := by
        simp only [List.length_append, List.length_cons]
        omega
      have hks : ks ≠ [] := by
        intro h
        have := hlen ks hk
        rw [h] at this
        simp only [List.length_nil] at this
        omega
      have hloop := sequenceLoop_ephKeys S ks sp hks (hinv ks hk) (hne ks hk) (hlt ks hk)
      rw [hlen ks hk] at hloop
      simp only [storeEphKeys, bind, pure, Except.pure, hloop, bind_ok_eq, if_pos hl,
        set_length_append, List.append_assoc, List.singleton_append]
    · have := ih (done ++ [ks]) (fun q hq => hlen q (List.mem_cons_of_mem ks hq))
        (fun q hq => hinv q (List.mem_cons_of_mem ks hq))
        (fun q hq => hne q (List.mem_cons_of_mem ks hq))
        (fun q hq => hlt q (List.mem_cons_of_mem ks hq))
      simpa only [List.length_append, List.length_singleton, List.append_assoc,
        List.singleton_append] using this

theorem mem_length_le_lengthPrefixed32 (es : List (List Byte)) (e : List Byte) (he : e ∈ es) :
    e.length ≤ (lengthPrefixed32 es).length := by
  induction es with
  | nil => cases he
  | cons a rest ih =>
    rw [lengthPrefixed32_cons_length]
    rcases List.mem_cons.mp he with h | h
    · subst h
      omega
    · have := ih h
      omega

theorem transcriptLayout_length (S : Suite) (bases : List S.Point)
    (keys : List (List S.Point)) (proofs : List (List Byte)) :
    (transcriptLayout S bases keys proofs).length
      = (lengthPrefixed32 (bases.map S.bytesOf)).length
        + (lengthPrefixed32 (keys.map (fun ks => lengthPrefixed32 (ks.map S.bytesOf)))).length
        + (lengthPrefixed32 proofs).length := by
  simp only [transcriptLayout, List.length_append]

/-- `ParseTranscript` on the frame of a well-formed transcript body. -/
theorem ParseTranscript_ok (S : Suite) (r : Conn) (nClients nTrustees : Nat)
    (bases : List S.Point) (keys : List (List S.Point)) (proofs : List (List Byte))
    (rest : List Byte)
    (hT : 1 ≤ nTrustees) (hC : 1 ≤ nClients)
    (hb : bases.length = nTrustees) (hk : keys.length = nTrustees)
    (hkc : ∀ ks ∈ keys, ks.length = nClients) (hp : proofs.length = nTrustees)
    (hinvb : ∀ p ∈ bases, S.UnmarshalBinary (S.bytesOf p) = .ok p)
    (hneb : ∀ p ∈ bases, 0 < (S.bytesOf p).length)
    (hinvk : ∀ ks ∈ keys, ∀ p ∈ ks, S.UnmarshalBinary (S.bytesOf p) = .ok p)
    (hnek : ∀ ks ∈ keys, ∀ p ∈ ks, 0 < (S.bytesOf p).length)
    (hnep : ∀ pr ∈ proofs, 0 < pr.length)
    (hsize : (transcriptLayout S bases keys proofs).length < 4294967296)
    (hr : r.input = frameOf (transcriptLayout S bases keys proofs) ++ rest) :
    ParseTranscript S r nClients nTrustees
      = .ok ((bases.map some, keys, proofs, none), { r with input := rest }) := by
  have hsz := transcriptLayout_length S bases keys proofs
  have hfb := length_le_lengthPrefixed32 (bases.map S.bytesOf)
  have hfk := length_le_lengthPrefixed32
    (keys.map (fun ks => lengthPrefixed32 (ks.map S.bytesOf)))
  have hfp := length_le_lengthPrefixed32 proofs
  simp only [List.length_map] at hfb hfk
  have hbne : bases.map S.bytesOf ≠ [] := by
    intro h
    have := congrArg List.length h
    simp only [List.length_map, List.length_nil] at this
    omega
  have hkne : keys.map (fun ks => lengthPrefixed32 (ks.map S.bytesOf)) ≠ [] := by
    intro h
    have := congrArg List.length h
    simp only [List.length_map, List.length_nil] at this
    omega
  have hpne : proofs ≠ [] := by
    intro h
    have := congrArg List.length h
    simp only [List.length_nil] at this
    omega
  -- the loop over the base points
  have h1 := sequenceLoop_entries (storeBase S) (bases.map S.bytesOf) []
    (lengthPrefixed32 (keys.map (fun ks => lengthPrefixed32 (ks.map S.bytesOf)))
      ++ lengthPrefixed32 proofs) []
    nTrustees ((Slice.mk (transcriptLayout S bases keys proofs) []).len + 1) 0 0
    ([] ++ List.replicate (bases.length + 0) none)
    ([] ++ bases.map some ++ List.replicate 0 none) hbne rfl
    (by simp only [List.length_map, Nat.zero_add, hb])
    (by simp only [Slice.len, List.length_map]; omega)
    (by
      intro e he
      obtain ⟨q, hq, rfl⟩ := List.mem_map.mp he
      exact hneb q hq)
    (by
      intro e he
      have := mem_length_le_lengthPrefixed32 _ e he
      omega)
    (steps_storeBase S bases [] 0 hinvb)
  -- the loop over the key arrays
  have h2 := sequenceLoop_entries (storeEphKeys S nClients)
    (keys.map (fun ks => lengthPrefixed32 (ks.map S.bytesOf)))
    (lengthPrefixed32 (bases.map S.bytesOf)) (lengthPrefixed32 proofs) []
    nTrustees ((Slice.mk (transcriptLayout S bases keys proofs) []).len + 1)
    (lengthPrefixed32 (bases.map S.bytesOf)).length 0
    ([] ++ List.replicate (keys.length + 0) [])
    ([] ++ keys ++ List.replicate 0 []) hkne rfl
    (by simp only [List.length_map, Nat.zero_add, hk])
    (by simp only [Slice.len, List.length_map]; omega)
    (by
      intro e he
      obtain ⟨ks, hks, rfl⟩ := List.mem_map.mp he
      have h := length_le_lengthPrefixed32 (ks.map S.bytesOf)
      simp only [List.length_map, hkc ks hks] at h
      omega)
    (by
      intro e he
      have := mem_length_le_lengthPrefixed32 _ e he
      omega)
    (steps_storeEphKeys S nClients keys [] 0 hC hkc hinvk hnek (by
      intro ks hks q hq
      have h1 := mem_length_le_lengthPrefixed32 _ _ (List.mem_map_of_mem S.bytesOf hq)
      have h2 := mem_length_le_lengthPrefixed32 _ _
        (List.mem_map_of_mem (fun ks => lengthPrefixed32 (ks.map S.bytesOf)) hks)
      simp only at h2
      omega))
  -- the loop over the proofs
  have h3 := sequenceLoop_entries storeProof proofs
    (lengthPrefixed32 (bases.map S.bytesOf)
      ++ lengthPrefixed32 (keys.map (fun ks => lengthPrefixed32 (ks.map S.bytesOf)))) [] []
    nTrustees ((Slice.mk (transcriptLayout S bases keys proofs) []).len + 1)
    ((lengthPrefixed32 (bases.map S.bytesOf)).length
      + (lengthPrefixed32 (keys.map (fun ks => lengthPrefixed32 (ks.map S.bytesOf)))).length) 0
    ([] ++ List.replicate (proofs.length + 0) [])
    ([] ++ proofs ++ List.replicate 0 []) hpne
    (by simp only [List.length_append])
    (by simp only [Nat.zero_add, hp])
    (by simp only [Slice.len]; omega)
    hnep
    (by
      intro e he
      have := mem_length_le_lengthPrefixed32 _ e he
      omega)
    (steps_storeProof proofs [] 0)
  simp only [List.nil_append, List.append_nil, Nat.add_zero, Nat.zero_add,
    List.replicate_zero, hb, hk, hp] at h1 h2 h3
  have e1 : lengthPrefixed32 (bases.map S.bytesOf)
      ++ (lengthPrefixed32 (keys.map (fun ks => lengthPrefixed32 (ks.map S.bytesOf)))
        ++ lengthPrefixed32 proofs) = transcriptLayout S bases keys proofs := by
    simp only [transcriptLayout, List.append_assoc]
  rw [e1] at h1
  rw [show lengthPrefixed32 (bases.map S.bytesOf)
      ++ lengthPrefixed32 (keys.map (fun ks => lengthPrefixed32 (ks.map S.bytesOf)))
      ++ lengthPrefixed32 proofs = transcriptLayout S bases keys proofs from rfl] at h2 h3
  simp only [ParseTranscript, bind, pure, Except.pure,
    ReadMessage_frameOf r _ rest hsize hr, bind_ok_eq, Slice.ofBuffer, ne_eq,
    not_true_eq_false, if_false, h1, h2, h3]

/-! ## The fuel of the loops is never used up -/

theorem Slice.slice_fuel (s : Slice) (lo hi : Nat) :
    s.slice lo hi ≠ .error Fault.outOfFuel := by
  unfold Slice.slice
  split_ifs <;> simp

theorem Uint16_fuel (b : Slice) : Uint16 b ≠ .error Fault.outOfFuel := by
  unfold Uint16
  split <;> simp

theorem Uint32_fuel (b : Slice) : Uint32 b ≠ .error Fault.outOfFuel := by
  unfold Uint32
  split <;> simp

theorem copyInto_fuel (buf : List Byte) (lo hi : Nat) (src : List Byte) :
    copyInto buf lo hi src ≠ .error Fault.outOfFuel := by
  unfold copyInto
  split_ifs <;> simp

theorem unmarshalLoop_fuel (input : Slice) (fuel i : Nat) (acc : List (List Byte))
    (h1 : 1 ≤ fuel) (h2 : input.len + 1 ≤ i + fuel) :
    unmarshalLoop input fuel i acc ≠ .error Fault.outOfFuel := by
  induction fuel generalizing i acc with
  | zero => omega
  | succ f ih =>
    rw [unmarshalLoop]
    by_cases hi : i < input.len
    · rw [if_pos hi]
      cases hs : input.slice i (i + 2) with
      | error e =>
        have := Slice.slice_fuel input i (i + 2)
        simp only [hs, bind, Except.bind]
        simpa [hs] using this
      | ok hdr =>
        cases hu : Uint16 hdr with
        | error e =>
          have := Uint16_fuel hdr
          simp only [bind, Except.bind, hu]
          simpa [hu] using this
        | ok len =>
          cases hv : input.slice (i + 2) (i + 2 + len) with
          | error e =>
            have := Slice.slice_fuel input (i + 2) (i + 2 + len)
            simp only [bind, Except.bind, hu, hv]
            simpa [hv] using this
          | ok src =>
            cases hc : copyInto (makeBytes len) 0 (makeBytes len).length src.elems with
            | error e =>
              have := copyInto_fuel (makeBytes len) 0 (makeBytes len).length src.elems
              simp only [bind, Except.bind, hu, hv, hc]
              simpa [hc] using this
            | ok arr =>
              simp only [bind, Except.bind, hu, hv, hc]
              exact ih (i + len + 2) _ (by omega) (by omega)
    · rw [if_neg hi]
      simp

/-- `UnmarshalByteArrays` always ends: as a result or as a run-time panic. -/
theorem UnmarshalByteArrays_fuel (input : Slice) :
    UnmarshalByteArrays input ≠ .error Fault.outOfFuel :=
  unmarshalLoop_fuel input (input.len + 1) 0 [] (by omega) (by omega)

theorem slice_Uint32_fuel (s : Slice) (lo hi : Nat) :
    (s.slice lo hi).bind Uint32 ≠ .error Fault.outOfFuel := by
  cases hs : s.slice lo hi with
  | error e =>
    have := Slice.slice_fuel s lo hi
    simpa [hs, Except.bind] using this
  | ok b =>
    have := Uint32_fuel b
    simpa [Except.bind] using this

theorem unmarshalKeysLoop_fuel (S : Suite) (buffer : Slice) (fuel cb : Nat)
    (acc : List S.Point) (h1 : 1 ≤ fuel) (h2 : buffer.len + 1 ≤ cb + fuel) :
    unmarshalKeysLoop S buffer fuel cb acc ≠ .error Fault.outOfFuel := by
  induction fuel generalizing cb acc with
  | zero => omega
  | succ f ih =>
    rw [unmarshalKeysLoop]
    by_cases hi : cb + 4 > buffer.len
    · rw [if_pos hi]
      simp
    · rw [if_neg hi]
      cases hl : (buffer.slice cb (cb + 4)).bind Uint32 with
      | error e =>
        have := slice_Uint32_fuel buffer cb (cb + 4)
        simp only [bind, Except.bind]
        simpa [hl] using this
      | ok len =>
        by_cases h0 : len = 0
        · simp [bind, Except.bind, pure, Except.pure, h0]
        · cases hv : buffer.slice (cb + 4) (cb + 4 + len) with
          | error e =>
            have := Slice.slice_fuel buffer (cb + 4) (cb + 4 + len)
            simp only [bind, Except.bind, pure, Except.pure, if_neg h0, hv]
            simpa [hv] using this
          | ok keyBytes =>
            cases hu : S.UnmarshalBinary keyBytes.elems with
            | error e => simp [bind, Except.bind, pure, Except.pure, h0, hv, hu]
            | ok pk =>
              simp only [bind, Except.bind, pure, Except.pure, if_neg h0, hv, hu]
              exact ih (cb + 4 + len) _ (by omega) (by omega)

/-- `UnMarshalPublicKeyArrayFromByteArray` always ends: as a result or as a panic. -/
theorem UnMarshalPublicKeyArrayFromByteArray_fuel (S : Suite) (buffer : Slice) :
    UnMarshalPublicKeyArrayFromByteArray buffer S ≠ .error Fault.outOfFuel := by
  unfold UnMarshalPublicKeyArrayFromByteArray
  cases hs : buffer.slice 0 2 with
  | error e =>
    have := Slice.slice_fuel buffer 0 2
    simp only [bind, Except.bind]
    simpa [hs] using this
  | ok b =>
    cases hu : Uint16 b with
    | error e =>
      have := Uint16_fuel b
      simp only [bind, Except.bind, hu]
      simpa [hu] using this
    | ok t =>
      by_cases ht : t = MESSAGE_TYPE_PUBLICKEYS
      · simp only [bind, Except.bind, hu, pure, Except.pure, ht, ne_eq, not_true_eq_false,
          if_false]
        exact unmarshalKeysLoop_fuel S buffer _ 2 [] (by omega) (by omega)
      · simp [bind, Except.bind, hu, pure, Except.pure, ht]

theorem sequenceLoop_fuel {σ : Type} (buffer : Slice) (count : Nat)
    (step : Slice → Nat → σ → Except Fault (Option σ))
    (hstep : ∀ b i s, step b i s ≠ .error Fault.outOfFuel)
    (fuel cb i : Nat) (s : σ) (h1 : 1 ≤ fuel) (h2 : buffer.len + 1 ≤ cb + fuel) :
    sequenceLoop buffer count step fuel cb i s ≠ .error Fault.outOfFuel := by
  induction fuel generalizing cb i s with
  | zero => omega
  | succ f ih =>
    rw [sequenceLoop]
    by_cases hi : cb + 4 > buffer.len
    · rw [if_pos hi]
      simp
    · rw [if_neg hi]
      cases hl : (buffer.slice cb (cb + 4)).bind Uint32 with
      | error e =>
        have := slice_Uint32_fuel buffer cb (cb + 4)
        simp only [bind, Except.bind]
        simpa [hl] using this
      | ok len =>
        by_cases h0 : len = 0
        · simp [bind, Except.bind, pure, Except.pure, h0]
        · cases hv : buffer.slice (cb + 4) (cb + 4 + len) with
          | error e =>
            have := Slice.slice_fuel buffer (cb + 4) (cb + 4 + len)
            simp only [bind, Except.bind, pure, Except.pure, if_neg h0, hv]
            simpa [hv] using this
          | ok bytes =>
            cases hu : step bytes i s with
            | error e =>
              have := hstep bytes i s
              simp only [bind, Except.bind, pure, Except.pure, if_neg h0, hv, hu]
              simpa [hu] using this
            | ok r =>
              cases r with
              | none => simp [bind, Except.bind, pure, Except.pure, h0, hv, hu]
              | some s1 =>
                by_cases hc : i + 1 = count
                · simp [bind, Except.bind, pure, Except.pure, h0, hv, hu, hc]
                · simp only [bind, Except.bind, pure, Except.pure, if_neg h0, hv, hu,
                    if_neg hc]
                  exact ih (cb + (4 + len)) _ _ (by omega) (by omega)

/-- `ReadMessage` never panics. -/
theorem ReadMessage_total (conn : Conn) : ∃ res, ReadMessage conn = .ok res := by
  by_cases h6 : conn.input.length < 6
  · exact ⟨_, ReadMessage_short_header conn h6⟩
  · obtain ⟨b0, b1, b2, b3, b4, b5, tail, hin⟩ :=
      six_bytes_of_length conn.input (Nat.le_of_not_lt h6)
    exact ⟨_, ReadMessage_header conn b0 b1 b2 b3 b4 b5 tail hin⟩

theorem storeBase_fuel (S : Suite) (b : Slice) (i : Nat) (G_s : List (Option S.Point)) :
    storeBase S b i G_s ≠ .error Fault.outOfFuel := by
  unfold storeBase
  split
  · simp
  · split_ifs <;> simp

theorem appendEphKey_fuel (S : Suite) (b : Slice) (j : Nat) (ks : List S.Point) :
    appendEphKey S b j ks ≠ .error Fault.outOfFuel := by
  unfold appendEphKey
  split <;> simp

theorem storeProof_fuel (b : Slice) (i : Nat) (proof_s : List (List Byte)) :
    storeProof b i proof_s ≠ .error Fault.outOfFuel := by
  unfold storeProof
  split_ifs <;> simp

theorem storeEphKeys_fuel (S : Suite) (nClients : Nat) (b : Slice) (i : Nat)
    (eph : List (List S.Point)) :
    storeEphKeys S nClients b i eph ≠ .error Fault.outOfFuel := by
  unfold storeEphKeys
  cases hl : sequenceLoop b nClients (appendEphKey S) (b.len + 1) 0 0 [] with
  | error e =>
    have := sequenceLoop_fuel b nClients (appendEphKey S) (appendEphKey_fuel S)
      (b.len + 1) 0 0 [] (by omega) (by omega)
    simp only [bind, Except.bind]
    simpa [hl] using this
  | ok r =>
    cases r with
    | none => simp [bind, Except.bind, pure, Except.pure]
    | some r =>
      simp only [bind, Except.bind, pure, Except.pure]
      split_ifs <;> simp [throw, throwThe, MonadExceptOf.throw]

/-- `ParseTranscript` always ends: as a result or as a run-time panic. -/
theorem ParseTranscript_fuel (S : Suite) (conn : Conn) (nClients nTrustees : Nat) :
    ParseTranscript S conn nClients nTrustees ≠ .error Fault.outOfFuel := by
  obtain ⟨⟨⟨buffer, err⟩, conn'⟩, hread⟩ := ReadMessage_total conn
  unfold ParseTranscript
  simp only [bind, bind_ok_eq, hread, pure, Except.pure]
  by_cases herr : err = none
  · subst herr
    simp only [ne_eq, not_true_eq_false, if_false]
    cases h1 : sequenceLoop (Slice.ofBuffer buffer) nTrustees (storeBase S)
        ((Slice.ofBuffer buffer).len + 1) 0 0 (List.replicate nTrustees none) with
    | error e =>
      have := sequenceLoop_fuel (Slice.ofBuffer buffer) nTrustees (storeBase S)
        (storeBase_fuel S) ((Slice.ofBuffer buffer).len + 1) 0 0
        (List.replicate nTrustees none) (by omega) (by omega)
      simpa [h1, Except.bind] using this
    | ok r1 =>
      cases r1 with
      | none => simp [Except.bind]
      | some r1 =>
        obtain ⟨cb1, G_s⟩ := r1
        simp only [bind_ok_eq]
        cases h2 : sequenceLoop (Slice.ofBuffer buffer) nTrustees (storeEphKeys S nClients)
            ((Slice.ofBuffer buffer).len + 1) cb1 0 (List.replicate nTrustees []) with
        | error e =>
          have := sequenceLoop_fuel (Slice.ofBuffer buffer) nTrustees (storeEphKeys S nClients)
            (storeEphKeys_fuel S nClients) ((Slice.ofBuffer buffer).len + 1) cb1 0
            (List.replicate nTrustees []) (by omega) (by omega)
          simpa [h2, Except.bind] using this
        | ok r2 =>
          cases r2 with
          | none => simp [Except.bind]
          | some r2 =>
            obtain ⟨cb2, eph⟩ := r2
            simp only [bind_ok_eq]
            cases h3 : sequenceLoop (Slice.ofBuffer buffer) nTrustees storeProof
                ((Slice.ofBuffer buffer).len + 1) cb2 0 (List.replicate nTrustees []) with
            | error e =>
              have := sequenceLoop_fuel (Slice.ofBuffer buffer) nTrustees storeProof
                storeProof_fuel ((Slice.ofBuffer buffer).len + 1) cb2 0
                (List.replicate nTrustees []) (by omega) (by omega)
              simpa [h3, Except.bind] using this
            | ok r3 =>
              cases r3 with
              | none => simp [Except.bind]
              | some r3 => simp [Except.bind]
  · simp [herr]

/-! ## Lemmas on datagrams -/

theorem overwrite_makeBytes_zero (L : Nat) (src : List Byte) :
    overwrite (makeBytes L) 0 src = src ++ makeBytes (L - src.length) := by
  unfold overwrite makeBytes
  rw [List.take_zero, List.nil_append, Nat.zero_add, List.drop_replicate]

/-- The receive buffer of `ReadDatagram` after a datagram `hdr ++ payload` arrived:
the header, the payload bytes that fit, then the zero bytes of `make`. -/
theorem receive_buffer_eq (hdr payload : List Byte) (expectedSize : Nat)
    (hh : hdr.length = 6) :
    overwrite (makeBytes (expectedSize + 6)) 0 ((hdr ++ payload).take (expectedSize + 6))
      = hdr ++ (payload.take expectedSize
          ++ makeBytes (expectedSize - (payload.take expectedSize).length)) := by
  have ht : (hdr ++ payload).take (expectedSize + 6) = hdr ++ payload.take expectedSize := by
    rw [show expectedSize + 6 = hdr.length + expectedSize by omega, List.take_append]
  rw [ht, overwrite_makeBytes_zero, List.append_assoc]
  congr 3
  simp only [List.length_append, hh]
  omega

/-- `ReadDatagram` on a datagram whose header has the right version. -/
theorem ReadDatagram_valid_header (d : Conn) (L : Nat) (payload : List Byte)
    (more : List (List Byte × Option NetError)) (expectedSize : Nat)
    (hL : L < 4294967296)
    (hp : d.packets
      = (bigEndian 2 LLD_PROTOCOL_VERSION ++ bigEndian 4 L ++ payload, none) :: more) :
    ReadDatagram d expectedSize = .ok
      (if ((min (6 + payload.length) (expectedSize + 6) : Nat) : Int)
          < ((L + 6 : Nat) : Int) then
        ((overwrite (makeBytes L) 0
            ((payload.take expectedSize
              ++ makeBytes (expectedSize - (payload.take expectedSize).length)).take L),
          some (NetError.truncatedDatagram
            (((min (6 + payload.length) (expectedSize + 6) : Nat) : Int) - 6) L)),
          { d with packets := more })
      else
        ((overwrite (makeBytes L) 0
            ((payload.take expectedSize
              ++ makeBytes (expectedSize - (payload.take expectedSize).length)).take L),
          none),
          { d with packets := more })) := by
  have hbuf : overwrite (makeBytes (expectedSize + 6)) 0
      ((bigEndian 2 LLD_PROTOCOL_VERSION ++ bigEndian 4 L ++ payload).take (expectedSize + 6))
      = byteOf (LLD_PROTOCOL_VERSION / 256) :: byteOf LLD_PROTOCOL_VERSION ::
        byteOf (L / 16777216) :: byteOf (L / 65536) :: byteOf (L / 256) :: byteOf L ::
        (payload.take expectedSize
          ++ makeBytes (expectedSize - (payload.take expectedSize).length)) := by
    rw [receive_buffer_eq _ payload expectedSize
      (by simp only [List.length_append, bigEndian_length]), bigEndian_two, bigEndian_four]
    simp only [List.cons_append, List.nil_append]
  have hver : (byteOf (LLD_PROTOCOL_VERSION / 256)).val * 256
      + (byteOf LLD_PROTOCOL_VERSION).val = LLD_PROTOCOL_VERSION := by decide
  have hsz : (byteOf (L / 16777216)).val * 16777216 + (byteOf (L / 65536)).val * 65536
      + (byteOf (L / 256)).val * 256 + (byteOf L).val = L := by
    simp only [byteOf]
    omega
  have hlen : (bigEndian 2 LLD_PROTOCOL_VERSION ++ bigEndian 4 L ++ payload).length
      = 6 + payload.length := by
    simp only [List.length_append, bigEndian_length]
  rw [ReadDatagram_buffer d _ none more expectedSize _ _ _ _ _ _ _ hp hbuf, hver, hsz, hlen,
    if_neg (by simp), if_neg (by simp)]

/-! ## Lemmas on base and keys, and on a single key -/

/-- The four buffer writes of `WriteBaseAndPublicKeyToConn`. -/
theorem composeBaseKeys_eq (b k : List Byte) :
    composeBaseKeys b k
      = .ok (bigEndian 4 b.length ++ b ++ (bigEndian 4 k.length ++ k)) := by
  have h0 : makeBytes (8 + b.length + k.length)
      = makeBytes 4 ++ (makeBytes b.length ++ (makeBytes 4 ++ makeBytes k.length)) := by
    rw [show 8 + b.length + k.length = 4 + (b.length + (4 + k.length)) by omega]
    simp only [makeBytes_add]
  have h1 : PutUint32 (makeBytes 4 ++ (makeBytes b.length ++ (makeBytes 4 ++ makeBytes k.length)))
        0 4 (uint32 b.length)
      = .ok (bigEndian 4 b.length ++ (makeBytes b.length
          ++ (makeBytes 4 ++ makeBytes k.length))) := by
    have := PutUint32_mid [] (makeBytes 4)
      (makeBytes b.length ++ (makeBytes 4 ++ makeBytes k.length)) 0 4 (uint32 b.length)
      (makeBytes_length 4) rfl rfl
    simpa only [List.nil_append, uint32, bigEndian_four_mod] using this
  have h2 : copyInto (bigEndian 4 b.length ++ (makeBytes b.length
        ++ (makeBytes 4 ++ makeBytes k.length))) 4 (4 + b.length) b
      = .ok (bigEndian 4 b.length ++ (b ++ (makeBytes 4 ++ makeBytes k.length))) := by
    have := copyInto_mid (bigEndian 4 b.length) (makeBytes b.length)
      (makeBytes 4 ++ makeBytes k.length) b 4 (4 + b.length) (makeBytes_length _)
      (by rw [bigEndian_length]) rfl
    simpa only [List.append_assoc] using this
  have h3 : PutUint32 (bigEndian 4 b.length ++ (b ++ (makeBytes 4 ++ makeBytes k.length)))
        (4 + b.length) (8 + b.length) (uint32 k.length)
      = .ok (bigEndian 4 b.length ++ (b ++ (bigEndian 4 k.length ++ makeBytes k.length))) := by
    have := PutUint32_mid (bigEndian 4 b.length ++ b) (makeBytes 4) (makeBytes k.length)
      (4 + b.length) (8 + b.length) (uint32 k.length) (makeBytes_length 4)
      (by simp only [List.length_append, bigEndian_length]) (by omega)
    simpa only [List.append_assoc, uint32, bigEndian_four_mod] using this
  have h4 : copyInto (bigEndian 4 b.length ++ (b ++ (bigEndian 4 k.length ++ makeBytes k.length)))
        (8 + b.length)
        (bigEndian 4 b.length ++ (b ++ (bigEndian 4 k.length ++ makeBytes k.length))).length k
      = .ok (bigEndian 4 b.length ++ (b ++ (bigEndian 4 k.length ++ k))) := by
    have := copyInto_mid (bigEndian 4 b.length ++ b ++ bigEndian 4 k.length)
      (makeBytes k.length) [] k (8 + b.length)
      (bigEndian 4 b.length ++ (b ++ (bigEndian 4 k.length ++ makeBytes k.length))).length
      (makeBytes_length _)
      (by simp only [List.length_append, bigEndian_length]; omega)
      (by simp only [List.length_append, bigEndian_length, makeBytes_length]; omega)
    simpa only [List.append_assoc, List.append_nil] using this
  simp only [composeBaseKeys, bind, Except.bind, h0, h1, h2, h3, h4, List.append_assoc]

/-- `WriteBaseAndPublicKeyToConn` once both serializations succeeded: the framed
write, then the call `err.Error()` on a nil `err` when the write failed. -/
theorem WriteBaseAndPublicKeyToConn_eq (S : Suite) (conn : Conn) (base : S.Point)
    (keys : List S.Point)
    (hb : (S.MarshalBinary base).2 = none)
    (hm : ∀ k ∈ keys, (S.MarshalBinary k).2 = none) :
    WriteBaseAndPublicKeyToConn S conn base keys
      = (WriteMessage conn (bigEndian 4 (S.bytesOf base).length ++ S.bytesOf base
          ++ (bigEndian 4 (keyArrayLayout S keys).length ++ keyArrayLayout S keys))).bind
        (fun r => if r.1 ≠ none then .error Fault.nilDereference else .ok (none, r.2)) := by
  simp only [WriteBaseAndPublicKeyToConn, bind, pure, Except.pure, hb, ne_eq,
    not_true_eq_false, if_false, MarshalPublicKeyArrayToByteArray_ok S keys hm, bind_ok_eq,
    composeBaseKeys_eq, Suite.bytesOf, errorText]
  rw [WriteMessage_eq]
  simp only [bind_ok_eq]
  split_ifs <;> rfl

/-- The body `TellPublicKey` frames is the serialized key and nothing else. -/
theorem TellPublicKey_eq (S : Suite) (conn : Conn) (publicKey : S.Point) :
    TellPublicKey S conn publicKey = WriteMessage conn (S.bytesOf publicKey) := by
  simp only [TellPublicKey, bind, pure, Except.pure, Suite.bytesOf]
  rw [WriteMessage_eq]
  simp only [bind_ok_eq]
  split_ifs <;> simp_all

/-- `ParsePublicKeyFromConn` on a frame whose body starts with two bytes that are
not the tag. -/
theorem ParsePublicKeyFromConn_wrong_tag (S : Suite) (r : Conn) (b0 b1 : Byte)
    (tl rest : List Byte)
    (hlen : (b0 :: b1 :: tl).length < 4294967296)
    (htag : b0.val * 256 + b1.val ≠ MESSAGE_TYPE_PUBLICKEYS)
    (hr : r.input = frameOf (b0 :: b1 :: tl) ++ rest) :
    ParsePublicKeyFromConn S r
      = .ok ((none, some (NetError.wrongPublicKeyType (b0.val * 256 + b1.val))),
          { r with input := rest }) := by
  have hs : Slice.slice (Slice.ofBuffer (b0 :: b1 :: tl)) 0 2 = .ok ⟨[b0, b1], tl⟩ := by
    have := Slice.slice_mid [] [b0, b1] tl [] 0 2 rfl rfl
    simpa using this
  simp only [ParsePublicKeyFromConn, bind, pure, Except.pure,
    ReadMessage_frameOf r _ rest hlen hr, bind_ok_eq, ne_eq, not_true_eq_false, if_false, hs,
    Uint16, htag, not_false_eq_true, if_true]

/-! ## Lemmas on malformed byte arrays with 2-byte lengths -/

/-- The loop of `UnmarshalByteArrays` runs through the well-formed entries that start
at its index, whatever follows them. -/
theorem unmarshalLoop_skip (good : List (List Byte)) (pre post spare : List Byte)
    (fuel i : Nat) (acc : List (List Byte))
    (hi : i = pre.length) (hall : ∀ a ∈ good, a.length ≤ 65535) :
    unmarshalLoop ⟨pre ++ lengthPrefixed16 good ++ post, spare⟩ (fuel + good.length) i acc
      = unmarshalLoop ⟨pre ++ lengthPrefixed16 good ++ post, spare⟩ fuel
          (i + (lengthPrefixed16 good).length) (acc ++ good) := by
  induction good generalizing pre i acc with
  | nil =>
    simp only [List.length_nil, Nat.add_zero, lengthPrefixed16_nil, List.append_nil]
  | cons a rest ih =>
    have ha : a.length ≤ 65535 := hall a (List.mem_cons_self a rest)
    have hin : pre ++ lengthPrefixed16 (a :: rest) ++ post
        = pre ++ bigEndian 2 a.length ++ (a ++ lengthPrefixed16 rest ++ post) := by
      rw [lengthPrefixed16_cons]
      simp only [List.append_assoc]
    have hin2 : pre ++ lengthPrefixed16 (a :: rest) ++ post
        = (pre ++ bigEndian 2 a.length) ++ a ++ (lengthPrefixed16 rest ++ post) := by
      rw [lengthPrefixed16_cons]
      simp only [List.append_assoc]
    have hin3 : pre ++ lengthPrefixed16 (a :: rest) ++ post
        = (pre ++ bigEndian 2 a.length ++ a) ++ lengthPrefixed16 rest ++ post := by
      rw [lengthPrefixed16_cons]
      simp only [List.append_assoc]
    have hs1 : Slice.slice ⟨pre ++ lengthPrefixed16 (a :: rest) ++ post, spare⟩ i (i + 2)
        = .ok ⟨bigEndian 2 a.length, (a ++ lengthPrefixed16 rest ++ post) ++ spare⟩ := by
      rw [hin]
      exact Slice.slice_mid pre _ _ spare i (i + 2) hi (by rw [bigEndian_length])
    have hs2 : Slice.slice ⟨pre ++ lengthPrefixed16 (a :: rest) ++ post, spare⟩ (i + 2)
        (i + 2 + a.length) = .ok ⟨a, (lengthPrefixed16 rest ++ post) ++ spare⟩ := by
      rw [hin2]
      exact Slice.slice_mid _ a _ spare (i + 2) (i + 2 + a.length)
        (by simp only [List.length_append, bigEndian_length, hi]) rfl
    have hcopy : copyInto (makeBytes a.length) 0 (makeBytes a.length).length a = .ok a := by
      have := copyInto_mid [] (makeBytes a.length) [] a 0 (makeBytes a.length).length
        (makeBytes_length _) rfl (by rw [makeBytes_length, Nat.zero_add])
      simpa using this
    have hlt : i < (Slice.mk (pre ++ lengthPrefixed16 (a :: rest) ++ post) spare).len := by
      simp only [Slice.len, List.length_append, lengthPrefixed16_cons_length, hi]
      omega
    rw [show fuel + (a :: rest).length = (fuel + rest.length) + 1 by
      simp only [List.length_cons]; omega, unmarshalLoop, if_pos hlt]
    simp only [bind, Except.bind, hs1, Uint16_bigEndian,
      Nat.mod_eq_of_lt (show a.length < 65536 by omega), hs2, hcopy]
    have := ih (pre ++ bigEndian 2 a.length ++ a) (i + a.length + 2) (acc ++ [a])
      (by simp only [List.length_append, bigEndian_length, hi]; omega)
      (fun b hb => hall b (List.mem_cons_of_mem a hb))
    rw [hin3, this, lengthPrefixed16_cons_length]
    simp only [List.append_assoc, List.singleton_append]
    congr 1
    omega

/-- A single byte left where a length field should start: the slice expression
`input[i:i+2]` is out of range. -/
theorem unmarshalLoop_dangling (pre : List Byte) (b : Byte) (fuel i : Nat)
    (acc : List (List Byte)) (hi : i = pre.length) :
    unmarshalLoop ⟨pre ++ [b], []⟩ (fuel + 1) i acc = .error Fault.sliceBounds := by
  have hlt : i < (Slice.mk (pre ++ [b]) []).len := by
    simp only [Slice.len, List.length_append, List.length_singleton, hi]
    omega
  have hs : Slice.slice ⟨pre ++ [b], []⟩ i (i + 2) = .error Fault.sliceBounds := by
    rw [Slice.slice, if_neg]
    simp only [Slice.cap, List.length_append, List.length_singleton, List.length_nil, hi]
    omega
  rw [unmarshalLoop, if_pos hlt]
  simp only [bind, Except.bind, hs]

/-- A length field that declares more bytes than follow it: the slice expression
`input[i+2:i+2+len]` is out of range. -/
theorem unmarshalLoop_overlong (pre tail : List Byte) (L fuel i : Nat)
    (acc : List (List Byte)) (hi : i = pre.length) (hL : L < 65536)
    (ht : tail.length < L) :
    unmarshalLoop ⟨pre ++ bigEndian 2 L ++ tail, []⟩ (fuel + 1) i acc
      = .error Fault.sliceBounds := by
  have hlt : i < (Slice.mk (pre ++ bigEndian 2 L ++ tail) []).len := by
    simp only [Slice.len, List.length_append, bigEndian_length, hi]
    omega
  have hs1 : Slice.slice ⟨pre ++ bigEndian 2 L ++ tail, []⟩ i (i + 2)
      = .ok ⟨bigEndian 2 L, tail ++ []⟩ :=
    Slice.slice_mid pre _ _ [] i (i + 2) hi (by rw [bigEndian_length])
  have hs2 : Slice.slice ⟨pre ++ bigEndian 2 L ++ tail, []⟩ (i + 2) (i + 2 + L)
      = .error Fault.sliceBounds := by
    rw [Slice.slice, if_neg]
    simp only [Slice.cap, List.length_append, bigEndian_length, List.length_nil, hi]
    omega
  rw [unmarshalLoop, if_pos hlt]
  simp only [bind, Except.bind, hs1, Uint16_bigEndian, Nat.mod_eq_of_lt hL, hs2]

/-- Cutting a part that starts inside the slice and ends in its spare capacity. -/
theorem Slice.slice_across (pre tail spare : List Byte) (lo L : Nat)
    (hlo : lo = pre.length) (ht : tail.length ≤ L) (hfit : L ≤ tail.length + spare.length) :
    Slice.slice ⟨pre ++ tail, spare⟩ lo (lo + L)
      = .ok ⟨tail ++ spare.take (L - tail.length), spare.drop (L - tail.length)⟩ := by
  subst hlo
  have hc : pre.length ≤ pre.length + L ∧
      pre.length + L ≤ (Slice.mk (pre ++ tail) spare).cap := by
    simp only [Slice.cap, List.length_append]; omega
  have e : pre ++ tail ++ spare = pre ++ (tail ++ spare) := by
    simp only [List.append_assoc]
  have e2 : pre ++ tail ++ spare = (pre ++ tail) ++ spare := rfl
  have hd : (pre ++ tail ++ spare).drop (pre.length + L) = spare.drop (L - tail.length) := by
    have hl : pre.length + L = (pre ++ tail).length + (L - tail.length) := by
      simp only [List.length_append]; omega
    rw [e2, hl, List.drop_append]
  rw [Slice.slice, if_pos hc]
  simp only [hd]
  rw [e, List.drop_left, Nat.add_sub_cancel_left, List.take_append_eq_append_take,
    List.take_of_length_le ht]

/-- A length field that declares more bytes than follow it in the slice: the slice
expression `input[i+2:i+2+len]` is in range exactly when the capacity provides the
missing bytes, and then they are copied into the array. -/
theorem unmarshalLoop_overlong_spare (pre tail spare : List Byte) (L fuel i : Nat)
    (acc : List (List Byte)) (hi : i = pre.length) (hL : L < 65536)
    (ht : tail.length < L) :
    unmarshalLoop ⟨pre ++ bigEndian 2 L ++ tail, spare⟩ (fuel + 2) i acc
      = if L ≤ tail.length + spare.length then
          .ok (acc ++ [tail ++ spare.take (L - tail.length)])
        else .error Fault.sliceBounds := by
  have hlt : i < (Slice.mk (pre ++ bigEndian 2 L ++ tail) spare).len := by
    simp only [Slice.len, List.length_append, bigEndian_length, hi]
    omega
  have hs1 : Slice.slice ⟨pre ++ bigEndian 2 L ++ tail, spare⟩ i (i + 2)
      = .ok ⟨bigEndian 2 L, tail ++ spare⟩ :=
    Slice.slice_mid pre _ _ spare i (i + 2) hi (by rw [bigEndian_length])
  rw [unmarshalLoop, if_pos hlt]
  simp only [bind, Except.bind, hs1, Uint16_bigEndian, Nat.mod_eq_of_lt hL]
  by_cases hfit : L ≤ tail.length + spare.length
  · have hs2 := Slice.slice_across (pre ++ bigEndian 2 L) tail spare (i + 2) L
      (by simp only [List.length_append, bigEndian_length, hi]) (Nat.le_of_lt ht) hfit
    have hsrc : (tail ++ spare.take (L - tail.length)).length = L := by
      simp only [List.length_append, List.length_take]
      omega
    have hcopy : copyInto (makeBytes L) 0 (makeBytes L).length
        (tail ++ spare.take (L - tail.length))
        = .ok (tail ++ spare.take (L - tail.length)) := by
      have := copyInto_mid [] (makeBytes L) [] (tail ++ spare.take (L - tail.length)) 0
        (makeBytes L).length (by rw [makeBytes_length, hsrc]) rfl
        (by rw [makeBytes_length, Nat.zero_add, hsrc])
      simpa using this
    have hout : ¬ (i + L + 2 < (Slice.mk (pre ++ bigEndian 2 L ++ tail) spare).len) := by
      simp only [Slice.len, List.length_append, bigEndian_length, hi]
      omega
    rw [hs2, if_pos hfit]
    simp only [hcopy]
    rw [unmarshalLoop, if_neg hout]
  · have hs2 : Slice.slice ⟨pre ++ bigEndian 2 L ++ tail, spare⟩ (i + 2) (i + 2 + L)
        = .error Fault.sliceBounds := by
      rw [Slice.slice, if_neg]
      simp only [Slice.cap, List.length_append, bigEndian_length, hi]
      omega
    rw [hs2, if_neg hfit]

/-- A single byte left where a length field should start: the slice expression
`input[i:i+2]` is out of range when the capacity ends there too; otherwise the byte
and the first byte past the end are read as the length. -/
theorem unmarshalLoop_dangling_spare (pre : List Byte) (b : Byte) (spare : List Byte)
    (fuel i : Nat) (acc : List (List Byte)) (hi : i = pre.length) :
    unmarshalLoop ⟨pre ++ [b], spare⟩ (fuel + 2) i acc
      = match spare with
        | [] => .error Fault.sliceBounds
        | c :: sp =>
          if b.val * 256 + c.val ≤ sp.length then
            .ok (acc ++ [sp.take (b.val * 256 + c.val)])
          else .error Fault.sliceBounds := by
  have hlt : i < (Slice.mk (pre ++ [b]) spare).len := by
    simp only [Slice.len, List.length_append, List.length_singleton, hi]
    omega
  cases spare with
  | nil => exact unmarshalLoop_dangling pre b (fuel + 1) i acc hi
  | cons c sp =>
    have hs1 : Slice.slice ⟨pre ++ [b], c :: sp⟩ i (i + 2) = .ok ⟨[b, c], sp⟩ := by
      have := Slice.slice_across pre [b] (c :: sp) i 2 hi (by simp)
        (by simp only [List.length_singleton, List.length_cons]; omega)
      simpa using this
    rw [unmarshalLoop, if_pos hlt]
    simp only [bind, Except.bind, hs1, Uint16]
    by_cases hfit : b.val * 256 + c.val ≤ sp.length
    · have hs2 : Slice.slice ⟨pre ++ [b], c :: sp⟩ (i + 2) (i + 2 + (b.val * 256 + c.val))
          = .ok ⟨sp.take (b.val * 256 + c.val), sp.drop (b.val * 256 + c.val)⟩ := by
        have hc : i + 2 ≤ i + 2 + (b.val * 256 + c.val) ∧
            i + 2 + (b.val * 256 + c.val) ≤ (Slice.mk (pre ++ [b]) (c :: sp)).cap := by
          simp only [Slice.cap, List.length_append, List.length_singleton, List.length_cons, hi]
          omega
        have e : pre ++ [b] ++ c :: sp = (pre ++ [b, c]) ++ sp := by simp
        have hl : i + 2 = (pre ++ [b, c]).length := by simp [hi]
        rw [Slice.slice, if_pos hc]
        simp only [e]
        rw [Nat.add_sub_cancel_left, hl, List.drop_left, List.drop_append]
      have hsrc : (sp.take (b.val * 256 + c.val)).length = b.val * 256 + c.val := by
        rw [List.length_take]
        omega
      have hcopy : copyInto (makeBytes (b.val * 256 + c.val)) 0
          (makeBytes (b.val * 256 + c.val)).length (sp.take (b.val * 256 + c.val))
          = .ok (sp.take (b.val * 256 + c.val)) := by
        have := copyInto_mid [] (makeBytes (b.val * 256 + c.val)) []
          (sp.take (b.val * 256 + c.val)) 0 (makeBytes (b.val * 256 + c.val)).length
          (by rw [makeBytes_length, hsrc]) rfl
          (by rw [makeBytes_length, Nat.zero_add, hsrc])
        simpa using this
      have hout : ¬ (i + (b.val * 256 + c.val) + 2 < (Slice.mk (pre ++ [b]) (c :: sp)).len) := by
        simp only [Slice.len, List.length_append, List.length_singleton, hi]
        omega
      rw [hs2, if_pos hfit]
      simp only [hcopy]
      rw [unmarshalLoop, if_neg hout]
    · have hs2 : Slice.slice ⟨pre ++ [b], c :: sp⟩ (i + 2) (i + 2 + (b.val * 256 + c.val))
          = .error Fault.sliceBounds := by
        rw [Slice.slice, if_neg]
        simp only [Slice.cap, List.length_append, List.length_singleton, List.length_cons, hi,
          List.length_nil]
        omega
      rw [hs2, if_neg hfit]

/-- After the well-formed entries, `UnmarshalByteArrays` is at the malformed rest with
fuel for two more turns at least. -/
theorem UnmarshalByteArrays_after_good (good : List (List Byte)) (bad spare : List Byte)
    (hgood : ∀ a ∈ good, a.length ≤ 65535) (hbad : 0 < bad.length) :
    ∃ f, UnmarshalByteArrays ⟨lengthPrefixed16 good ++ bad, spare⟩
      = unmarshalLoop ⟨lengthPrefixed16 good ++ bad, spare⟩ (f + 2)
          (lengthPrefixed16 good).length good := by
  have hle := length_le_lengthPrefixed16 good
  obtain ⟨f, hf⟩ : ∃ f, (lengthPrefixed16 good ++ bad).length + 1 = (f + 2) + good.length :=
    ⟨(lengthPrefixed16 good ++ bad).length - good.length - 1, by
      simp only [List.length_append]
      omega⟩
  have hskip := unmarshalLoop_skip good [] bad spare (f + 2) 0 [] rfl hgood
  simp only [List.nil_append, Nat.zero_add] at hskip
  exact ⟨f, by rw [UnmarshalByteArrays, Slice.len, hf, hskip]⟩

/-! ## Lemmas on peers and fan-out -/

/-- The result of `WriteMessage` in terms of the transport's answer. -/
theorem Conn.writeResult_eq (c : Conn) (message : List Byte) :
    c.writeResult message
      = if (c.writeOutcome c.writeLog (frameOf message)).1
            < ((message.length + 6 : Nat) : Int) then
          some (NetError.shortWrite (message.length + 6)
            (c.writeOutcome c.writeLog (frameOf message)).1)
        else (c.writeOutcome c.writeLog (frameOf message)).2 := by
  rw [Conn.writeResult, WriteMessage_eq]

theorem Network.after_nil (net : Network) (message : List Byte) :
    net.after [] message = net := by
  cases net with
  | mk conns writes =>
    simp only [Network.after, List.count_nil, List.replicate_zero, List.append_nil]

theorem Network.after_after (net : Network) (xs ys : List Nat) (message : List Byte) :
    (net.after xs message).after ys message = net.after (xs ++ ys) message := by
  simp only [Network.after, List.count_append, List.replicate_add, List.append_assoc]

/-- One framed write on a handle: the result of `WriteMessage` on that connection,
and the network after that call. -/
theorem Network.WriteMessage_after (net : Network) (conn : Nat) (message : List Byte) :
    net.WriteMessage conn message
      = .ok ((net.conns conn).writeResult message, net.after [conn] message) := by
  have hc : (fun k => if k = conn then
        { net.conns conn with writeLog := (net.conns conn).writeLog ++ [frameOf message] }
      else net.conns k) = (net.after [conn] message).conns := by
    funext k
    by_cases hk : k = conn
    · subst hk
      simp only [Network.after, if_true, List.count_singleton_self, List.replicate_one]
    · have hne : ¬ (conn = k) := fun h => hk h.symm
      simp only [Network.after, if_neg hk, List.count_singleton, beq_iff_eq, if_neg hne,
        List.replicate_zero, List.append_nil]
  simp only [Network.WriteMessage, bind, pure, Except.pure, Daga.WriteMessage_eq, bind_ok_eq,
    Conn.writeResult, hc]
  rfl

theorem Network.resultAt_nil (net : Network) (message : List Byte) (conn : Nat) :
    net.resultAt message [] conn = (net.conns conn).writeResult message := by
  rw [Network.resultAt, Network.after_nil]

theorem Network.resultAt_after (net : Network) (message : List Byte) (xs ys : List Nat)
    (conn : Nat) :
    (net.after xs message).resultAt message ys conn = net.resultAt message (xs ++ ys) conn := by
  rw [Network.resultAt, Network.after_after, Network.resultAt]

theorem connectedHandles_cons_connected {P : Type} (node : NodeRepresentation P)
    (rest : List (NodeRepresentation P)) (h : node.Connected = true) :
    connectedHandles (node :: rest) = node.Conn :: connectedHandles rest := by
  simp only [connectedHandles, List.filter_cons, h, if_true, List.map_cons]

theorem connectedHandles_cons_disconnected {P : Type} (node : NodeRepresentation P)
    (rest : List (NodeRepresentation P)) (h : ¬ node.Connected = true) :
    connectedHandles (node :: rest) = connectedHandles rest := by
  simp only [connectedHandles, List.filter_cons, h, if_false, Bool.false_eq_true]

/-! ## Lemmas on timed reads -/

theorem TimedRead.step_abandoned (s s' : TimedRead) (m : Move) (arm : ReadChan)
    (hcaller : s.caller = .left arm) (hreader : s.reader = .sending .dataChan)
    (hstep : s.step m = some s') :
    s'.caller = .left arm ∧ s'.reader = .sending .dataChan := by
  cases m with
  | timerWakes =>
    simp only [TimedRead.step] at hstep
    split_ifs at hstep
    cases hstep
    exact ⟨hcaller, hreader⟩
  | readReturns err =>
    simp [TimedRead.step, hreader] at hstep
  | timerSends =>
    simp only [TimedRead.step] at hstep
    split at hstep
    · simp only [TimedRead.send, hcaller] at hstep
      split_ifs at hstep
      · cases hstep
        exact ⟨rfl, hreader⟩
      · cases hstep
    · cases hstep
  | readerSends =>
    simp only [TimedRead.step, hreader, TimedRead.send, hcaller, ReadChan.capacity,
      Nat.not_lt_zero, if_false, Option.map_none'] at hstep
    cases hstep
  | callerSelects a =>
    simp [TimedRead.step, hcaller] at hstep
  | callerParks =>
    simp [TimedRead.step, hcaller] at hstep

theorem TimedRead.run_abandoned (moves : List Move) (s s' : TimedRead) (arm : ReadChan)
    (hcaller : s.caller = .left arm) (hreader : s.reader = .sending .dataChan)
    (hrun : s.run moves = some s') :
    s'.caller = .left arm ∧ s'.reader = .sending .dataChan := by
  induction moves generalizing s with
  | nil =>
    cases hrun
    exact ⟨hcaller, hreader⟩
  | cons m ms ih =>
    rw [TimedRead.run] at hrun
    cases hs : s.step m with
    | none =>
      rw [hs] at hrun
      cases hrun
    | some s1 =>
      rw [hs] at hrun
      obtain ⟨h1, h2⟩ := TimedRead.step_abandoned s s1 m arm hcaller hreader hs
      exact ih s1 h1 h2 hrun

theorem TimedRead.run_snoc (s : TimedRead) (ms : List Move) (m : Move) :
    s.run (ms ++ [m]) = (s.run ms).bind fun s' => s'.step m := by
  induction ms generalizing s with
  | nil =>
    simp only [List.nil_append, TimedRead.run, Option.some_bind]
    cases s.step m <;> rfl
  | cons a ms ih =>
    rw [List.cons_append, TimedRead.run, TimedRead.run]
    cases s.step a with
    | none => rfl
    | some s1 => exact ih s1

theorem resolved_readTaskChan (moves : List Move) (err : Option NetError)
    (h : Move.readReturns err ∈ moves) : resolved moves (readTaskChan err) := by
  cases err with
  | none => exact h
  | some e => exact ⟨e, h⟩

theorem resolved_mono (ms : List Move) (m : Move) (c : ReadChan) (h : resolved ms c) :
    resolved (ms ++ [m]) c := by
  cases c with
  | timeoutChan => exact ⟨List.mem_append_left _ h.1, List.mem_append_left _ h.2⟩
  | errorChan =>
    obtain ⟨e, he⟩ := h
    exact ⟨e, List.mem_append_left _ he⟩
  | dataChan => exact List.mem_append_left _ h

/-- What holds of every state a schedule leads to from the start: a task at its send
has finished its call, the read returns once, and a value in a buffer or an arm taken
by the caller stands for an event that has happened. -/
theorem TimedRead.run_start_resolved (moves : List Move) (s : TimedRead)
    (hrun : TimedRead.start.run moves = some s) :
    (∀ c, s.timer = .sending c → c = .timeoutChan ∧ Move.timerWakes ∈ moves) ∧
    (s.reader = .working → ∀ err, Move.readReturns err ∉ moves) ∧
    (∀ c, s.reader = .sending c →
      ∃ err, Move.readReturns err ∈ moves ∧ readTaskChan err = c) ∧
    (∀ err err', Move.readReturns err ∈ moves → Move.readReturns err' ∈ moves →
      err = err') ∧
    (∀ c, 0 < s.queued c → resolved moves c) ∧
    (∀ arm, s.caller = .left arm → resolved moves arm) := by
  induction moves using List.reverseRecOn generalizing s with
  | nil =>
    cases hrun
    simp [TimedRead.start]
  | append_singleton ms m ih =>
    rw [TimedRead.run_snoc] at hrun
    cases h0 : TimedRead.start.run ms with
    | none =>
      rw [h0] at hrun
      cases hrun
    | some s0 =>
      rw [h0, Option.some_bind] at hrun
      obtain ⟨i1, i3, i4, i5, i6, i7⟩ := ih s0 h0
      have mono : ∀ c, resolved ms c → resolved (ms ++ [m]) c :=
        fun c h => resolved_mono ms m c h
      cases m with
      | timerWakes =>
        simp only [TimedRead.step] at hrun
        split_ifs at hrun with hw
        cases hrun
        refine ⟨?_, ?_, ?_, ?_, ?_, ?_⟩
        · intro c hc
          cases hc
          exact ⟨rfl, by simp⟩
        · intro h err
          simpa using i3 h err
        · intro c hc
          obtain ⟨err, he, hce⟩ := i4 c hc
          exact ⟨err, by simp [he], hce⟩
        · intro err err' h h'
          exact i5 err err' (by simpa using h) (by simpa using h')
        · intro c hc
          exact mono c (i6 c hc)
        · intro arm ha
          exact mono arm (i7 arm ha)
      | readReturns err0 =>
        simp only [TimedRead.step] at hrun
        split_ifs at hrun with hw
        cases hrun
        refine ⟨?_, ?_, ?_, ?_, ?_, ?_⟩
        · intro c hc
          obtain ⟨h1, h2⟩ := i1 c hc
          exact ⟨h1, List.mem_append_left _ h2⟩
        · intro h
          cases h
        · intro c hc
          cases hc
          exact ⟨err0, by simp, rfl⟩
        · intro err err' h h'
          have e1 : err = err0 := by
            simpa [i3 hw err] using h
          have e2 : err' = err0 := by
            simpa [i3 hw err'] using h'
          rw [e1, e2]
        · intro c hc
          exact mono c (i6 c hc)
        · intro arm ha
          exact mono arm (i7 arm ha)
      | timerSends =>
        simp only [TimedRead.step] at hrun
        split at hrun
        next c hc =>
          obtain ⟨hct, hwake⟩ := i1 c hc
          subst hct
          have hres : resolved (ms ++ [Move.timerSends]) .timeoutChan :=
            ⟨List.mem_append_left _ hwake, by simp⟩
          cases hcal : s0.caller with
          | parked =>
            simp only [TimedRead.send, hcal, Option.map_some'] at hrun
            cases hrun
            refine ⟨?_, ?_, ?_, ?_, ?_, ?_⟩
            · intro c h
              cases h
            · intro h err
              simpa using i3 h err
            · intro c h
              obtain ⟨err, he, hce⟩ := i4 c h
              exact ⟨err, by simp [he], hce⟩
            · intro err err' h h'
              exact i5 err err' (by simpa using h) (by simpa using h')
            · intro c h
              exact mono c (i6 c h)
            · intro arm ha
              cases ha
              exact hres
          | entering =>
            simp only [TimedRead.send, hcal] at hrun
            split_ifs at hrun with hroom
            · simp only [Option.map_some'] at hrun
              cases hrun
              refine ⟨?_, ?_, ?_, ?_, ?_, ?_⟩
              · intro c h
                cases h
              · intro h err
                simpa using i3 h err
              · intro c h
                obtain ⟨err, he, hce⟩ := i4 c h
                exact ⟨err, by simp [he], hce⟩
              · intro err err' h h'
                exact i5 err err' (by simpa using h) (by simpa using h')
              · intro c h
                by_cases hk : c = .timeoutChan
                · rw [hk]
                  exact hres
                · simp only [hk, if_false] at h
                  exact mono c (i6 c h)
              · intro arm ha
                cases ha
            · cases hrun
          | left arm0 =>
            simp only [TimedRead.send, hcal] at hrun
            split_ifs at hrun with hroom
            · simp only [Option.map_some'] at hrun
              cases hrun
              refine ⟨?_, ?_, ?_, ?_, ?_, ?_⟩
              · intro c h
                cases h
              · intro h err
                simpa using i3 h err
              · intro c h
                obtain ⟨err, he, hce⟩ := i4 c h
                exact ⟨err, by simp [he], hce⟩
              · intro err err' h h'
                exact i5 err err' (by simpa using h) (by simpa using h')
              · intro c h
                by_cases hk : c = .timeoutChan
                · rw [hk]
                  exact hres
                · simp only [hk, if_false] at h
                  exact mono c (i6 c h)
              · intro arm ha
                cases ha
                exact mono arm0 (i7 arm0 hcal)
            · cases hrun
        next => cases hrun
      | readerSends =>
        simp only [TimedRead.step] at hrun
        split at hrun
        next c hc =>
          obtain ⟨err, he, hce⟩ := i4 c hc
          have hres : resolved (ms ++ [Move.readerSends]) c := by
            rw [← hce]
            exact mono _ (resolved_readTaskChan ms err he)
          cases hcal : s0.caller with
          | parked =>
            simp only [TimedRead.send, hcal, Option.map_some'] at hrun
            cases hrun
            refine ⟨?_, ?_, ?_, ?_, ?_, ?_⟩
            · intro c h
              obtain ⟨h1, h2⟩ := i1 c h
              exact ⟨h1, List.mem_append_left _ h2⟩
            · intro h
              cases h
            · intro c h
              cases h
            · intro err err' h h'
              exact i5 err err' (by simpa using h) (by simpa using h')
            · intro k h
              exact mono k (i6 k h)
            · intro arm ha
              cases ha
              exact hres
          | entering =>
            simp only [TimedRead.send, hcal] at hrun
            split_ifs at hrun with hroom
            · simp only [Option.map_some'] at hrun
              cases hrun
              refine ⟨?_, ?_, ?_, ?_, ?_, ?_⟩
              · intro c h
                obtain ⟨h1, h2⟩ := i1 c h
                exact ⟨h1, List.mem_append_left _ h2⟩
              · intro h
                cases h
              · intro c h
                cases h
              · intro err err' h h'
                exact i5 err err' (by simpa using h) (by simpa using h')
              · intro k h
                by_cases hk : k = c
                · rw [hk]
                  exact hres
                · simp only [hk, if_false] at h
                  exact mono k (i6 k h)
              · intro arm ha
                cases ha
            · cases hrun
          | left arm0 =>
            simp only [TimedRead.send, hcal] at hrun
            split_ifs at hrun with hroom
            · simp only [Option.map_some'] at hrun
              cases hrun
              refine ⟨?_, ?_, ?_, ?_, ?_, ?_⟩
              · intro c h
                obtain ⟨h1, h2⟩ := i1 c h
                exact ⟨h1, List.mem_append_left _ h2⟩
              · intro h
                cases h
              · intro c h
                cases h
              · intro err err' h h'
                exact i5 err err' (by simpa using h) (by simpa using h')
              · intro k h
                by_cases hk : k = c
                · rw [hk]
                  exact hres
                · simp only [hk, if_false] at h
                  exact mono k (i6 k h)
              · intro arm ha
                cases ha
                exact mono arm0 (i7 arm0 hcal)
            · cases hrun
        next => cases hrun
      | callerSelects a =>
        simp only [TimedRead.step] at hrun
        split_ifs at hrun with hent hq hd
        · cases hrun
          refine ⟨?_, ?_, ?_, ?_, ?_, ?_⟩
          · intro c h
            obtain ⟨h1, h2⟩ := i1 c h
            exact ⟨h1, List.mem_append_left _ h2⟩
          · intro h err
            simpa using i3 h err
          · intro c h
            obtain ⟨err, he, hce⟩ := i4 c h
            exact ⟨err, by simp [he], hce⟩
          · intro err err' h h'
            exact i5 err err' (by simpa using h) (by simpa using h')
          · intro k h
            have hk : 0 < s0.queued k := by
              by_cases hka : k = a
              · rw [hka]
                exact hq
              · simpa only [hka, if_false] using h
            exact mono k (i6 k hk)
          · intro arm ha
            cases ha
            exact mono a (i6 a hq)
        · cases hrun
          obtain ⟨err, he, hce⟩ := i4 .dataChan hd.2
          refine ⟨?_, ?_, ?_, ?_, ?_, ?_⟩
          · intro c h
            obtain ⟨h1, h2⟩ := i1 c h
            exact ⟨h1, List.mem_append_left _ h2⟩
          · intro h
            cases h
          · intro c h
            cases h
          · intro err err' h h'
            exact i5 err err' (by simpa using h) (by simpa using h')
          · intro k h
            exact mono k (i6 k h)
          · intro arm ha
            cases ha
            rw [← hce]
            exact mono _ (resolved_readTaskChan ms err he)
      | callerParks =>
        simp only [TimedRead.step] at hrun
        split_ifs at hrun with hent
        cases hrun
        refine ⟨?_, ?_, ?_, ?_, ?_, ?_⟩
        · intro c h
          obtain ⟨h1, h2⟩ := i1 c h
          exact ⟨h1, List.mem_append_left _ h2⟩
        · intro h err
          simpa using i3 h err
        · intro c h
          obtain ⟨err, he, hce⟩ := i4 c h
          exact ⟨err, by simp [he], hce⟩
        · intro err err' h h'
          exact i5 err err' (by simpa using h) (by simpa using h')
        · intro k h
          exact mono k (i6 k h)
        · intro arm ha
          cases ha

/-- Once the caller has left the `select` through an arm, no move changes that. -/
theorem TimedRead.step_left (s s' : TimedRead) (m : Move) (arm : ReadChan)
    (hcaller : s.caller = .left arm) (hstep : s.step m = some s') :
    s'.caller = .left arm := by
  cases m with
  | timerWakes =>
    simp only [TimedRead.step] at hstep
    split_ifs at hstep
    cases hstep
    exact hcaller
  | readReturns err =>
    simp only [TimedRead.step] at hstep
    split_ifs at hstep
    cases hstep
    exact hcaller
  | timerSends =>
    simp only [TimedRead.step] at hstep
    split at hstep
    · simp only [TimedRead.send, hcaller] at hstep
      split_ifs at hstep
      · cases hstep
        rfl
      · cases hstep
    · cases hstep
  | readerSends =>
    simp only [TimedRead.step] at hstep
    split at hstep
    · simp only [TimedRead.send, hcaller] at hstep
      split_ifs at hstep
      · cases hstep
        rfl
      · cases hstep
    · cases hstep
  | callerSelects a =>
    simp [TimedRead.step, hcaller] at hstep
  | callerParks =>
    simp [TimedRead.step, hcaller] at hstep

theorem TimedRead.run_left (moves : List Move) (s s' : TimedRead) (arm : ReadChan)
    (hcaller : s.caller = .left arm) (hrun : s.run moves = some s') :
    s'.caller = .left arm := by
  induction moves generalizing s with
  | nil =>
    cases hrun
    exact hcaller
  | cons m ms ih =>
    rw [TimedRead.run] at hrun
    cases hs : s.step m with
    | none =>
      rw [hs] at hrun
      cases hrun
    | some s1 =>
      rw [hs] at hrun
      exact ih s1 (TimedRead.step_left s s1 m arm hcaller hs) hrun

theorem readTaskChan_ne_timeoutChan (err : Option NetError) :
    readTaskChan err ≠ .timeoutChan := by
  cases err with
  | none => exact fun h => ReadChan.noConfusion h
  | some e => exact fun h => ReadChan.noConfusion h

/-- The buffers in every state a schedule leads to from the start: a caller waiting
in the `select` has found them empty, and the slot of `timeoutChan` is empty until the
timer has sent and holds its value from then until the caller leaves. -/
theorem TimedRead.run_start_buffers (moves : List Move) (s : TimedRead)
    (hrun : TimedRead.start.run moves = some s) :
    (s.caller = .parked → ∀ c, s.queued c = 0) ∧
    (s.timer ≠ .terminated → s.queued .timeoutChan = 0) ∧
    (s.timer = .terminated → (∃ arm, s.caller = .left arm) ∨ 0 < s.queued .timeoutChan) := by
  induction moves using List.reverseRecOn generalizing s with
  | nil =>
    cases hrun
    simp [TimedRead.start]
  | append_singleton ms m ih =>
    rw [TimedRead.run_snoc] at hrun
    cases h0 : TimedRead.start.run ms with
    | none =>
      rw [h0] at hrun
      cases hrun
    | some s0 =>
      rw [h0, Option.some_bind] at hrun
      obtain ⟨p1, p2, p3⟩ := ih s0 h0
      obtain ⟨i1, -, i4, -, -, -⟩ := TimedRead.run_start_resolved ms s0 h0
      cases m with
      | timerWakes =>
        simp only [TimedRead.step] at hrun
        split_ifs at hrun with hw
        cases hrun
        refine ⟨p1, fun _ => p2 (by rw [hw]; exact fun h => Task.noConfusion h), ?_⟩
        intro h
        cases h
      | readReturns err0 =>
        simp only [TimedRead.step] at hrun
        split_ifs at hrun with hw
        cases hrun
        exact ⟨p1, p2, p3⟩
      | timerSends =>
        simp only [TimedRead.step] at hrun
        split at hrun
        next c hc =>
          obtain ⟨hct, -⟩ := i1 c hc
          subst hct
          cases hcal : s0.caller with
          | parked =>
            simp only [TimedRead.send, hcal, Option.map_some'] at hrun
            cases hrun
            exact ⟨fun h => Caller.noConfusion h, fun h => absurd rfl h,
              fun _ => Or.inl ⟨_, rfl⟩⟩
          | entering =>
            simp only [TimedRead.send, hcal] at hrun
            split_ifs at hrun with hroom
            · simp only [Option.map_some'] at hrun
              cases hrun
              exact ⟨fun h => Caller.noConfusion h, fun h => absurd rfl h,
                fun _ => Or.inr (by simp)⟩
            · cases hrun
          | left arm0 =>
            simp only [TimedRead.send, hcal] at hrun
            split_ifs at hrun with hroom
            · simp only [Option.map_some'] at hrun
              cases hrun
              exact ⟨fun h => Caller.noConfusion h, fun h => absurd rfl h,
                fun _ => Or.inl ⟨_, rfl⟩⟩
            · cases hrun
        next => cases hrun
      | readerSends =>
        simp only [TimedRead.step] at hrun
        split at hrun
        next c hc =>
          obtain ⟨err, -, hce⟩ := i4 c hc
          have hne : ReadChan.timeoutChan ≠ c := by
            rw [← hce]
            exact fun h => readTaskChan_ne_timeoutChan err h.symm
          cases hcal : s0.caller with
          | parked =>
            simp only [TimedRead.send, hcal, Option.map_some'] at hrun
            cases hrun
            exact ⟨fun h => Caller.noConfusion h, p2, fun _ => Or.inl ⟨_, rfl⟩⟩
          | entering =>
            simp only [TimedRead.send, hcal] at hrun
            split_ifs at hrun with hroom
            · simp only [Option.map_some'] at hrun
              cases hrun
              refine ⟨fun h => Caller.noConfusion h, ?_, ?_⟩
              · intro h
                simp only [hne, if_false]
                exact p2 h
              · intro h
                rcases p3 h with ⟨arm, ha⟩ | hq
                · rw [hcal] at ha
                  cases ha
                · right
                  simp only [hne, if_false]
                  exact hq
            · cases hrun
          | left arm0 =>
            simp only [TimedRead.send, hcal] at hrun
            split_ifs at hrun with hroom
            · simp only [Option.map_some'] at hrun
              cases hrun
              refine ⟨fun h => Caller.noConfusion h, ?_, fun _ => Or.inl ⟨_, rfl⟩⟩
              intro h
              simp only [hne, if_false]
              exact p2 h
            · cases hrun
        next => cases hrun
      | callerSelects a =>
        simp only [TimedRead.step] at hrun
        split_ifs at hrun with hent hq hd
        · cases hrun
          refine ⟨fun h => Caller.noConfusion h, ?_, fun _ => Or.inl ⟨_, rfl⟩⟩
          intro h
          have := p2 h
          simp only [this]
          split_ifs <;> rfl
        · cases hrun
          exact ⟨fun h => Caller.noConfusion h, p2, fun _ => Or.inl ⟨_, rfl⟩⟩
      | callerParks =>
        simp only [TimedRead.step] at hrun
        split_ifs at hrun with hent
        cases hrun
        refine ⟨?_, p2, ?_⟩
        · intro _ c
          cases c
          · exact hent.2.1
          · exact hent.2.2.1
          · exact hent.2.2.2
        · intro h
          rcases p3 h with ⟨arm, ha⟩ | hq
          · rw [hent.1] at ha
            cases ha
          · rw [hent.2.1] at hq
            exact absurd hq (Nat.lt_irrefl 0)

/-- From every state a schedule leads to from the start, at most three further moves
take the caller out of the `select`: the timer alone sees to it. -/
theorem TimedRead.run_start_leaves (moves : List Move) (s : TimedRead)
    (hrun : TimedRead.start.run moves = some s) :
    ∃ more s' arm, more.length ≤ 3 ∧ s.run more = some s' ∧ s'.caller = .left arm := by
  obtain ⟨p1, p2, p3⟩ := TimedRead.run_start_buffers moves s hrun
  obtain ⟨i1, -, -, -, -, -⟩ := TimedRead.run_start_resolved moves s hrun
  cases hcal : s.caller with
  | left arm => exact ⟨[], s, arm, by simp, rfl, hcal⟩
  | parked =>
    cases htim : s.timer with
    | working =>
      refine ⟨[.timerWakes, .timerSends], ?_⟩
      simp [TimedRead.run, TimedRead.step, TimedRead.send, htim, hcal]
    | sending c =>
      obtain ⟨hc, -⟩ := i1 c htim
      subst hc
      refine ⟨[.timerSends], ?_⟩
      simp [TimedRead.run, TimedRead.step, TimedRead.send, htim, hcal]
    | terminated =>
      rcases p3 htim with ⟨arm, ha⟩ | hq
      · rw [hcal] at ha
        cases ha
      · rw [p1 hcal .timeoutChan] at hq
        exact absurd hq (Nat.lt_irrefl 0)
  | entering =>
    cases htim : s.timer with
    | working =>
      have hq := p2 (by rw [htim]; exact fun h => Task.noConfusion h)
      refine ⟨[.timerWakes, .timerSends, .callerSelects .timeoutChan], ?_⟩
      simp [TimedRead.run, TimedRead.step, TimedRead.send, htim, hcal, hq, ReadChan.capacity]
    | sending c =>
      obtain ⟨hc, -⟩ := i1 c htim
      subst hc
      have hq := p2 (by rw [htim]; exact fun h => Task.noConfusion h)
      refine ⟨[.timerSends, .callerSelects .timeoutChan], ?_⟩
      simp [TimedRead.run, TimedRead.step, TimedRead.send, htim, hcal, hq, ReadChan.capacity]
    | terminated =>
      rcases p3 htim with ⟨arm, ha⟩ | hq
      · rw [hcal] at ha
        cases ha
      · refine ⟨[.callerSelects .timeoutChan], ?_⟩
        simp [TimedRead.run, TimedRead.step, hcal, hq]

/-! ## Lemmas on streams of frames -/

theorem framesOf_cons (b : List Byte) (rest : List (List Byte)) :
    framesOf (b :: rest) = frameOf b ++ framesOf rest := by
  simp only [framesOf, List.map_cons, List.flatten_cons]

theorem framesOf_append (xs ys : List (List Byte)) :
    framesOf (xs ++ ys) = framesOf xs ++ framesOf ys := by
  simp only [framesOf, List.map_append, List.flatten_append]

/-- Reading as many messages as a stream carries frames returns the bodies in order. -/
theorem readMessages_framesOf (bodies : List (List Byte)) (r : Conn) (rest : List Byte)
    (hlen : ∀ b ∈ bodies, b.length < 4294967296)
    (hr : r.input = framesOf bodies ++ rest) :
    readMessages r bodies.length
      = .ok (bodies.map (fun b => (b, none)), { r with input := rest }) := by
  induction bodies generalizing r with
  | nil =>
    rw [framesOf, List.map_nil, List.flatten_nil, List.nil_append] at hr
    rw [List.length_nil, readMessages, List.map_nil, ← hr]
  | cons b bodies ih =>
    have hfirst := ReadMessage_frameOf r b (framesOf bodies ++ rest)
      (hlen b (List.mem_cons_self b bodies))
      (by rw [hr, framesOf_cons, List.append_assoc])
    have hnext := ih { r with input := framesOf bodies ++ rest }
      (fun x hx => hlen x (List.mem_cons_of_mem b hx)) rfl
    rw [List.length_cons, readMessages, hfirst]
    simp only [bind, bind_ok_eq, pure, Except.pure, hnext, List.map_cons]

/-! ## Lemmas on the zero length prefix in a public-key array -/

/-- The loop of `UnMarshalPublicKeyArrayFromByteArray` on entries that are followed by
a zero length prefix: it stops there, whatever comes after. -/
theorem unmarshalKeysLoop_sentinel (S : Suite) (ents : List (List Byte × S.Point))
    (pre tail spare : List Byte) (fuel cb : Nat) (acc : List S.Point)
    (hcb : cb = pre.length) (hfuel : ents.length < fuel)
    (hent : ∀ p ∈ ents, S.UnmarshalBinary p.1 = .ok p.2 ∧ 0 < p.1.length ∧
      p.1.length < 4294967296) :
    unmarshalKeysLoop S
        ⟨pre ++ lengthPrefixed32 (ents.map Prod.fst) ++ (bigEndian 4 0 ++ tail), spare⟩
        fuel cb acc
      = .ok (acc ++ ents.map Prod.snd, none) := by
  induction ents generalizing pre fuel cb acc with
  | nil =>
    obtain ⟨fuel, rfl⟩ : ∃ f, fuel = f + 1 := ⟨fuel - 1, by simp at hfuel; omega⟩
    have hin : pre ++ lengthPrefixed32 (([] : List (List Byte × S.Point)).map Prod.fst)
          ++ (bigEndian 4 0 ++ tail)
        = pre ++ (bigEndian 4 ([] : List Byte).length ++ []) ++ tail := by
      simp only [List.map_nil, lengthPrefixed32_nil, List.append_nil, List.length_nil,
        List.append_assoc]
    rw [unmarshalKeysLoop, hin, if_neg (entry32_in_range _ _ _ _ cb hcb),
      entry32_length _ _ _ _ cb hcb (by decide)]
    simp only [bind, Except.bind, pure, Except.pure, List.length_nil, if_true, List.map_nil,
      List.append_nil]
  | cons p ents ih =>
    obtain ⟨fuel, rfl⟩ : ∃ f, fuel = f + 1 := ⟨fuel - 1, by simp at hfuel; omega⟩
    obtain ⟨hdec, hpos, hlt⟩ := hent p (List.mem_cons_self p ents)
    have hin : pre ++ lengthPrefixed32 ((p :: ents).map Prod.fst) ++ (bigEndian 4 0 ++ tail)
        = pre ++ (bigEndian 4 p.1.length ++ p.1)
          ++ (lengthPrefixed32 (ents.map Prod.fst) ++ (bigEndian 4 0 ++ tail)) := by
      rw [List.map_cons, lengthPrefixed32_cons]
      simp only [List.append_assoc]
    rw [unmarshalKeysLoop, hin, if_neg (entry32_in_range _ _ _ _ cb hcb),
      entry32_length _ _ _ _ cb hcb hlt]
    simp only [bind, Except.bind, pure, Except.pure,
      if_neg (Nat.pos_iff_ne_zero.mp hpos), entry32_value _ _ _ _ cb hcb, hdec]
    have := ih (pre ++ (bigEndian 4 p.1.length ++ p.1)) fuel
      (cb + 4 + p.1.length) (acc ++ [p.2])
      (by simp only [List.length_append, bigEndian_length, hcb]; omega)
      (by simp only [List.length_cons] at hfuel; omega)
      (fun q hq => hent q (List.mem_cons_of_mem p hq))
    simp only [List.append_assoc] at this
    simp only [List.append_assoc]
    rw [this]
    simp only [List.map_cons, List.singleton_append]

/-! ## Framing: the claims -/

/-- C1. Frame round-trip: for every body shorter than 2^32 bytes, when the stream a
reader sees starts with everything `WriteMessage` handed to the transport during the
call, `ReadMessage` returns exactly the body with a nil error, and leaves what
follows the frame unread. -/
theorem WriteMessage_ReadMessage_roundtrip (w w' r : Conn) (body rest : List Byte)
    (err : Option NetError)
    (hlen : body.length < 4294967296)
    (hw : WriteMessage w body = .ok (err, w'))
    (hr : r.input = (w'.writeLog.drop w.writeLog.length).flatten ++ rest) :
    ReadMessage r = .ok ((body, none), { r with input := rest }) := by
  rw [WriteMessage_eq] at hw
  have hlog : w'.writeLog = w.writeLog ++ [frameOf body] := by
    injection hw with hw
    rw [← (Prod.mk.inj hw).2]
  rw [hlog, List.drop_left] at hr
  simp only [List.flatten_cons, List.flatten_nil, List.append_nil] at hr
  exact ReadMessage_frameOf r body rest hlen hr

theorem WriteMessage_ReadMessage_roundtrip_witness :
    ReadMessage (Conn.reliable [0, 3, 0, 0, 0, 2, 7, 8, 9])
      = .ok (([7, 8], none), { Conn.reliable [0, 3, 0, 0, 0, 2, 7, 8, 9] with input := [9] }) :=
  WriteMessage_ReadMessage_roundtrip (Conn.reliable [])
    { Conn.reliable [] with writeLog := [[0, 3, 0, 0, 0, 2, 7, 8]] }
    (Conn.reliable [0, 3, 0, 0, 0, 2, 7, 8, 9]) [7, 8] [9] none (by decide) rfl rfl

/-- C2. Wire format: for every body shorter than 2^32 bytes, `WriteMessage` hands the
transport exactly one buffer of `len(body)+6` bytes: the 2-byte big-endian protocol
version 3, the 4-byte big-endian value `len(body)`, then the body unchanged. -/
theorem WriteMessage_wire_format (conn : Conn) (body : List Byte)
    (hlen : body.length < 4294967296) :
    ∃ err conn', WriteMessage conn body = .ok (err, conn') ∧
      conn'.writeLog = conn.writeLog ++
        [bigEndian 2 LLD_PROTOCOL_VERSION ++ bigEndian 4 body.length ++ body] ∧
      (bigEndian 2 LLD_PROTOCOL_VERSION ++ bigEndian 4 body.length ++ body).length
        = body.length + 6 ∧
      bigEndian 2 LLD_PROTOCOL_VERSION = [0, 3] ∧
      bigEndianValue (bigEndian 2 LLD_PROTOCOL_VERSION) = 3 ∧
      bigEndianValue (bigEndian 4 body.length) = body.length := by
  refine ⟨_, _, WriteMessage_eq conn body, rfl, frameOf_length body, by decide, by decide, ?_⟩
  exact bigEndianValue_bigEndian 4 body.length (by simpa using hlen)

theorem WriteMessage_wire_format_witness :
    ∃ err conn', WriteMessage (Conn.reliable []) [7, 8] = .ok (err, conn') ∧
      conn'.writeLog = (Conn.reliable []).writeLog ++
        [bigEndian 2 LLD_PROTOCOL_VERSION ++ bigEndian 4 [7, 8].length ++ [7, 8]] ∧
      (bigEndian 2 LLD_PROTOCOL_VERSION ++ bigEndian 4 [7, 8].length ++ [7, 8]).length
        = [7, 8].length + 6 ∧
      bigEndian 2 LLD_PROTOCOL_VERSION = [0, 3] ∧
      bigEndianValue (bigEndian 2 LLD_PROTOCOL_VERSION) = 3 ∧
      bigEndianValue (bigEndian 4 [7, 8].length) = [7, 8].length :=
  WriteMessage_wire_format (Conn.reliable []) [7, 8] (by decide)

/-- C3. Version guard: for every header whose 16-bit version field differs from
`LLD_PROTOCOL_VERSION`, whatever the declared length and the body, `ReadMessage`
returns an empty body and a non-nil error and leaves every body byte unread, and
`ReadDatagram` returns an empty body and a non-nil error. -/
theorem version_guard (r d : Conn) (v L : Nat) (body : List Byte)
    (perr : Option NetError) (more : List (List Byte × Option NetError))
    (expectedSize : Nat)
    (hv : v < 65536) (hne : v ≠ LLD_PROTOCOL_VERSION)
    (hr : r.input = bigEndian 2 v ++ bigEndian 4 L ++ body)
    (hd : d.packets = (bigEndian 2 v ++ bigEndian 4 L ++ body, perr) :: more) :
    ReadMessage r = .ok (([], some (NetError.versionMismatch v)), { r with input := body }) ∧
    ∃ e, ReadDatagram d expectedSize = .ok (([], some e), { d with packets := more }) := by
  have hver : (byteOf (v / 256)).val * 256 + (byteOf v).val = v := by
    simp only [byteOf]
    omega
  constructor
  · have hin : r.input = byteOf (v / 256) :: byteOf v ::
        byteOf (L / 16777216) :: byteOf (L / 65536) ::
        byteOf (L / 256) :: byteOf L :: body := by
      rw [hr, bigEndian_two, bigEndian_four]
      simp only [List.cons_append, List.nil_append]
    rw [ReadMessage_header r _ _ _ _ _ _ _ hin, hver, if_pos hne]
  · obtain ⟨tail, ht⟩ := receive_buffer_header (bigEndian 2 v ++ bigEndian 4 L) body
      expectedSize (by simp only [List.length_append, bigEndian_length])
    have hbuf : overwrite (makeBytes (expectedSize + 6)) 0
        ((bigEndian 2 v ++ bigEndian 4 L ++ body).take (expectedSize + 6))
        = byteOf (v / 256) :: byteOf v :: byteOf (L / 16777216) :: byteOf (L / 65536) ::
          byteOf (L / 256) :: byteOf L :: tail := by
      rw [ht, bigEndian_two, bigEndian_four]
      simp only [List.cons_append, List.nil_append]
    rw [ReadDatagram_buffer d _ perr more expectedSize _ _ _ _ _ _ _ hd hbuf, hver]
    cases perr with
    | none =>
      rw [if_neg (by simp), if_pos hne]
      exact ⟨_, rfl⟩
    | some e =>
      rw [if_pos (by simp)]
      exact ⟨e, rfl⟩

theorem version_guard_witness :
    ReadMessage (Conn.reliable [0, 4, 0, 0, 0, 1, 7])
      = .ok (([], some (NetError.versionMismatch 4)),
          { Conn.reliable [0, 4, 0, 0, 0, 1, 7] with input := [7] }) ∧
    ∃ e, ReadDatagram (Conn.receiving [([0, 4, 0, 0, 0, 1, 7], none)]) 1
      = .ok (([], some e), { Conn.receiving [([0, 4, 0, 0, 0, 1, 7], none)] with packets := [] }) :=
  version_guard (Conn.reliable [0, 4, 0, 0, 0, 1, 7])
    (Conn.receiving [([0, 4, 0, 0, 0, 1, 7], none)]) (LLD_PROTOCOL_VERSION + 1) 1 [7] none [] 1
    (by decide) (by decide) rfl rfl

/-- C4. Short read: `ReadMessage` returns an empty body and a non-nil error when the
stream ends before six header bytes, and when the header carries the right version
but fewer bytes than the declared body length follow it; and whenever it returns a
nil error, the stream began with a full header of the right version followed by the
whole declared body, which is exactly the body returned. -/
theorem ReadMessage_short_read (conn : Conn) :
    (conn.input.length < 6 → ∃ e c', ReadMessage conn = .ok (([], some e), c')) ∧
    (∀ L tail, L < 4294967296 →
      conn.input = bigEndian 2 LLD_PROTOCOL_VERSION ++ bigEndian 4 L ++ tail →
      tail.length < L → ∃ e c', ReadMessage conn = .ok (([], some e), c')) ∧
    (∀ body c', ReadMessage conn = .ok ((body, none), c') →
      body.length < 4294967296 ∧
      conn.input = bigEndian 2 LLD_PROTOCOL_VERSION ++ bigEndian 4 body.length ++ body
        ++ c'.input) := by
  refine ⟨fun h => ⟨_, _, ReadMessage_short_header conn h⟩, ?_, ?_⟩
  · intro L tail hL hin hshort
    have hin' : conn.input = byteOf (LLD_PROTOCOL_VERSION / 256) ::
        byteOf LLD_PROTOCOL_VERSION :: byteOf (L / 16777216) :: byteOf (L / 65536) ::
        byteOf (L / 256) :: byteOf L :: tail := by
      rw [hin, bigEndian_two, bigEndian_four]
      simp only [List.cons_append, List.nil_append]
    have hver : (byteOf (LLD_PROTOCOL_VERSION / 256)).val * 256
        + (byteOf LLD_PROTOCOL_VERSION).val = LLD_PROTOCOL_VERSION := by decide
    have hsz : (byteOf (L / 16777216)).val * 16777216 + (byteOf (L / 65536)).val * 65536
        + (byteOf (L / 256)).val * 256 + (byteOf L).val = L := by
      simp only [byteOf]
      omega
    rw [ReadMessage_header conn _ _ _ _ _ _ _ hin', hver, hsz]
    rw [if_neg (by simp), if_neg (Nat.not_le.mpr hshort)]
    exact ⟨_, _, rfl⟩
  · intro body c' hok
    by_cases h6 : conn.input.length < 6
    · rw [ReadMessage_short_header conn h6] at hok
      simp at hok
    · obtain ⟨b0, b1, b2, b3, b4, b5, tail, hin⟩ :=
        six_bytes_of_length conn.input (Nat.le_of_not_lt h6)
      have hb := b2.isLt
      have hb3 := b3.isLt
      have hb4 := b4.isLt
      have hb5 := b5.isLt
      rw [ReadMessage_header conn b0 b1 b2 b3 b4 b5 tail hin] at hok
      split_ifs at hok with hv hs
      · simp at hok
      · simp only [Except.ok.injEq, Prod.mk.injEq, and_true] at hok
        obtain ⟨hbody, hc⟩ := hok
        have hlen : body.length = b2.val * 16777216 + b3.val * 65536 + b4.val * 256 + b5.val := by
          rw [← hbody, List.length_take]
          omega
        have hv' : b0.val * 256 + b1.val = LLD_PROTOCOL_VERSION := by
          simpa using hv
        refine ⟨by omega, ?_⟩
        rw [hlen, bigEndian_four_bytes, ← hv', bigEndian_two_bytes, hin, ← hbody, ← hc]
        simp only [List.cons_append, List.nil_append, List.take_append_drop]
      · simp at hok

theorem ReadMessage_short_read_witness :
    (∃ e c', ReadMessage (Conn.reliable [0, 3, 0]) = .ok (([], some e), c')) ∧
    (∃ e c', ReadMessage (Conn.reliable [0, 3, 0, 0, 0, 2, 7]) = .ok (([], some e), c')) ∧
    (([7] : List Byte).length < 4294967296 ∧
      (Conn.reliable [0, 3, 0, 0, 0, 1, 7, 9]).input
        = bigEndian 2 LLD_PROTOCOL_VERSION ++ bigEndian 4 [7].length ++ [7] ++ [9]) :=
  ⟨(ReadMessage_short_read (Conn.reliable [0, 3, 0])).1 (by decide),
   (ReadMessage_short_read (Conn.reliable [0, 3, 0, 0, 0, 2, 7])).2.1 2 [7] (by decide) rfl
     (by decide),
   (ReadMessage_short_read (Conn.reliable [0, 3, 0, 0, 0, 1, 7, 9])).2.2 [7]
     { Conn.reliable [0, 3, 0, 0, 0, 1, 7, 9] with input := [9] } rfl⟩

/-- C5. Write failure reporting: `WriteMessage` performs exactly one transport write,
of the frame. With `(n, err)` the transport's answer, it returns nil if and only if
`n ≥ len(message)+6` and `err` is nil; it returns the short-write error when
`n < len(message)+6`, and the transport's error unchanged otherwise. -/
theorem WriteMessage_failure_reporting (conn : Conn) (message : List Byte) :
    ∃ res conn', WriteMessage conn message = .ok (res, conn') ∧
      conn' = { conn with writeLog := conn.writeLog ++ [frameOf message] } ∧
      (res = none ↔
        ((message.length + 6 : Nat) : Int) ≤ (conn.writeOutcome conn.writeLog (frameOf message)).1
          ∧ (conn.writeOutcome conn.writeLog (frameOf message)).2 = none) ∧
      ((conn.writeOutcome conn.writeLog (frameOf message)).1 < ((message.length + 6 : Nat) : Int) →
        res = some (NetError.shortWrite (message.length + 6)
          (conn.writeOutcome conn.writeLog (frameOf message)).1)) ∧
      (((message.length + 6 : Nat) : Int) ≤ (conn.writeOutcome conn.writeLog (frameOf message)).1 →
        res = (conn.writeOutcome conn.writeLog (frameOf message)).2) := by
  refine ⟨_, _, WriteMessage_eq conn message, rfl, ?_, ?_, ?_⟩
  · by_cases h : (conn.writeOutcome conn.writeLog (frameOf message)).1
        < ((message.length + 6 : Nat) : Int)
    · simp only [if_pos h, reduceCtorEq, false_iff, not_and]
      intro h'
      omega
    · simp only [if_neg h]
      constructor
      · intro h'
        exact ⟨by omega, h'⟩
      · intro h'
        exact h'.2
  · intro h
    simp only [if_pos h]
  · intro h
    rw [if_neg (by omega)]

theorem WriteMessage_failure_reporting_witness :
    ∃ res conn', WriteMessage (Conn.answering 7 (some (NetError.transport 1))) [7, 8]
        = .ok (res, conn') ∧
      conn'.writeLog = [[0, 3, 0, 0, 0, 2, 7, 8]] ∧
      res = some (NetError.shortWrite 8 7) := by
  obtain ⟨res, conn', h, hc, _, hs, _⟩ :=
    WriteMessage_failure_reporting (Conn.answering 7 (some (NetError.transport 1))) [7, 8]
  exact ⟨res, conn', h, by rw [hc]; rfl, hs (by decide)⟩

/-! ## Byte arrays with 2-byte lengths: the claims -/

/-- C6. TLV round-trip: for every finite sequence of byte arrays, each of at most
65535 bytes (the empty sequence and empty arrays included), `MarshalByteArrays`
returns a buffer from which `UnmarshalByteArrays` returns the same arrays: same
count, same order, same bytes. -/
theorem MarshalByteArrays_roundtrip (arrs : List (List Byte))
    (hall : ∀ a ∈ arrs, a.length ≤ 65535) :
    ∃ bytes, MarshalByteArrays arrs = .ok bytes ∧
      UnmarshalByteArrays (Slice.ofBuffer bytes) = .ok arrs := by
  refine ⟨lengthPrefixed16 arrs, MarshalByteArrays_ok arrs hall, ?_⟩
  have := unmarshalLoop_lengthPrefixed16 arrs [] [] ((lengthPrefixed16 arrs).length + 1) 0 []
    rfl (Nat.lt_succ_of_le (length_le_lengthPrefixed16 arrs)) hall
  simpa only [UnmarshalByteArrays, Slice.ofBuffer, Slice.len, List.nil_append] using this

theorem MarshalByteArrays_roundtrip_witness :
    ∃ bytes, MarshalByteArrays [[1, 2], [], [3]] = .ok bytes ∧
      UnmarshalByteArrays (Slice.ofBuffer bytes) = .ok [[1, 2], [], [3]] :=
  MarshalByteArrays_roundtrip [[1, 2], [], [3]] (by decide)

/-- C7. Size limit of `MarshalByteArrays`: it panics if and only if some input
array is longer than 65535 bytes, and the panic is then the explicit one of the
source; when no array is longer, it returns the concatenation, in input order, of
each array's 2-byte big-endian length followed by the array's bytes. -/
theorem MarshalByteArrays_size_limit (arrs : List (List Byte)) :
    ((∃ f, MarshalByteArrays arrs = .error f) ↔ ∃ a ∈ arrs, 65535 < a.length) ∧
    ((∃ a ∈ arrs, 65535 < a.length) → MarshalByteArrays arrs
      = .error (Fault.explicit "Cannot marshal arrays with more than 65K bytes!")) ∧
    ((∀ a ∈ arrs, a.length ≤ 65535) → MarshalByteArrays arrs
      = .ok ((arrs.map (fun a => bigEndian 2 a.length ++ a)).flatten)) := by
  refine ⟨⟨?_, fun h => ⟨_, MarshalByteArrays_panic arrs h⟩⟩,
    MarshalByteArrays_panic arrs, MarshalByteArrays_ok arrs⟩
  rintro ⟨f, hf⟩
  by_contra hno
  have hall : ∀ a ∈ arrs, a.length ≤ 65535 := by
    intro a ha
    by_contra hlt
    exact hno ⟨a, ha, by omega⟩
  rw [MarshalByteArrays_ok arrs hall] at hf
  cases hf

theorem MarshalByteArrays_size_limit_witness :
    MarshalByteArrays [[1], List.replicate 65536 0]
      = .error (Fault.explicit "Cannot marshal arrays with more than 65K bytes!") ∧
    MarshalByteArrays [[1], List.replicate 65535 0]
      = .ok (([[1], List.replicate 65535 0].map
          (fun a => bigEndian 2 a.length ++ a)).flatten) :=
  ⟨(MarshalByteArrays_size_limit [[1], List.replicate 65536 0]).2.1
      ⟨List.replicate 65536 0, List.mem_cons_of_mem _ (List.mem_singleton_self _),
        by rw [List.length_replicate]; decide⟩,
   (MarshalByteArrays_size_limit [[1], List.replicate 65535 0]).2.2 (by
      intro a ha
      rcases List.mem_cons.mp ha with h | h
      · subst h
        decide
      · rw [List.mem_singleton.mp h, List.length_replicate])⟩

/-! ## Transcripts: the claim -/

/-- C8. Transcript decoding: for `nTrustees ≥ 1` and `nClients ≥ 1`, under a suite
whose deserialization inverts serialization, for base points, ephemeral keys and
proofs with non-empty serializations, `ParseTranscript` applied to a frame whose
body (shorter than 2^32 bytes, as a frame requires) is `nTrustees` entries
`[u32 len][base_i]`, then `nTrustees` entries `[u32 len][keys_i]` with `keys_i` the
`nClients` entries `[u32 len][key_ij]`, then `nTrustees` entries
`[u32 len][proof_i]`, returns exactly the bases, the key matrix and the proofs, with
a nil error. -/
theorem ParseTranscript_decoding (S : Suite) (r : Conn) (nClients nTrustees : Nat)
    (bases : List S.Point) (keys : List (List S.Point)) (proofs : List (List Byte))
    (rest : List Byte)
    (hT : 1 ≤ nTrustees) (hC : 1 ≤ nClients)
    (hb : bases.length = nTrustees) (hk : keys.length = nTrustees)
    (hkc : ∀ ks ∈ keys, ks.length = nClients) (hp : proofs.length = nTrustees)
    (hinvb : ∀ p ∈ bases, S.UnmarshalBinary (S.MarshalBinary p).1 = .ok p)
    (hneb : ∀ p ∈ bases, 0 < (S.MarshalBinary p).1.length)
    (hinvk : ∀ ks ∈ keys, ∀ p ∈ ks, S.UnmarshalBinary (S.MarshalBinary p).1 = .ok p)
    (hnek : ∀ ks ∈ keys, ∀ p ∈ ks, 0 < (S.MarshalBinary p).1.length)
    (hnep : ∀ pr ∈ proofs, 0 < pr.length)
    (hsize : (transcriptLayout S bases keys proofs).length < 4294967296)
    (hr : r.input = frameOf (transcriptLayout S bases keys proofs) ++ rest) :
    ParseTranscript S r nClients nTrustees
      = .ok ((bases.map some, keys, proofs, none), { r with input := rest }) :=
  ParseTranscript_ok S r nClients nTrustees bases keys proofs rest hT hC hb hk hkc hp
    hinvb hneb hinvk hnek hnep hsize hr

theorem ParseTranscript_decoding_witness :
    ParseTranscript Suite.plain
        (Conn.reliable (frameOf (transcriptLayout Suite.plain [[1], [2]]
          [[[3], [4]], [[5], [6]]] [[7], [8, 9]]) ++ [9])) 2 2
      = .ok (([some ([1] : List Byte), some ([2] : List Byte)],
            [[([3] : List Byte), ([4] : List Byte)], [([5] : List Byte), ([6] : List Byte)]],
            [[7], [8, 9]], none),
          { Conn.reliable (frameOf (transcriptLayout Suite.plain [[1], [2]]
              [[[3], [4]], [[5], [6]]] [[7], [8, 9]]) ++ [9]) with input := [9] }) :=
  ParseTranscript_decoding Suite.plain
    (Conn.reliable (frameOf (transcriptLayout Suite.plain [[1], [2]]
      [[[3], [4]], [[5], [6]]] [[7], [8, 9]]) ++ [9])) 2 2
    [([1] : List Byte), ([2] : List Byte)]
    [[([3] : List Byte), ([4] : List Byte)], [([5] : List Byte), ([6] : List Byte)]]
    [[7], [8, 9]] [9] (by decide) (by decide) rfl rfl
    (by
      intro ks hks
      simp only [List.mem_cons, List.mem_singleton, List.not_mem_nil, or_false] at hks
      rcases hks with rfl | rfl <;> rfl)
    rfl
    (by intro p _; rfl)
    (by
      intro p hp
      simp only [List.mem_cons, List.mem_singleton, List.not_mem_nil, or_false] at hp
      rcases hp with rfl | rfl <;> decide)
    (by intro ks _ p _; rfl)
    (by
      intro ks hks p hp
      simp only [List.mem_cons, List.mem_singleton, List.not_mem_nil, or_false] at hks
      rcases hks with rfl | rfl <;>
        (simp only [List.mem_cons, List.mem_singleton, List.not_mem_nil, or_false] at hp
         rcases hp with rfl | rfl <;> decide))
    (by
      intro pr hpr
      simp only [List.mem_cons, List.mem_singleton, List.not_mem_nil, or_false] at hpr
      rcases hpr with rfl | rfl <;> decide)
    (by decide) rfl

/-! ## Public keys, base and proof: the claims -/

/-- C9. Public-key array round-trip: for every list of group elements whose
serialization succeeds, is non-empty and shorter than 2^32 bytes, under a suite
whose deserialization inverts serialization, `MarshalPublicKeyArrayToByteArray`
yields the 2-byte big-endian tag `MESSAGE_TYPE_PUBLICKEYS` (bytes 0, 2) followed by
one `[u32 big-endian length][key bytes]` entry per key in order, and
`UnMarshalPublicKeyArrayFromByteArray` on that output (whatever spare capacity the
slice has) returns the same keys in the same order with a nil error. -/
theorem PublicKeyArray_roundtrip (S : Suite) (keys : List S.Point)
    (hm : ∀ k ∈ keys, (S.MarshalBinary k).2 = none)
    (hinv : ∀ k ∈ keys, S.UnmarshalBinary (S.MarshalBinary k).1 = .ok k)
    (hne : ∀ k ∈ keys, 0 < (S.MarshalBinary k).1.length)
    (hlt : ∀ k ∈ keys, (S.MarshalBinary k).1.length < 4294967296) :
    ∃ bytes, MarshalPublicKeyArrayToByteArray S keys = .ok (bytes, none) ∧
      bytes = bigEndian 2 MESSAGE_TYPE_PUBLICKEYS ++
        (keys.map (fun k => bigEndian 4 (S.MarshalBinary k).1.length
          ++ (S.MarshalBinary k).1)).flatten ∧
      bigEndian 2 MESSAGE_TYPE_PUBLICKEYS = [0, 2] ∧
      ∀ spare, UnMarshalPublicKeyArrayFromByteArray ⟨bytes, spare⟩ S = .ok (keys, none) := by
  refine ⟨keyArrayLayout S keys, MarshalPublicKeyArrayToByteArray_ok S keys hm, ?_,
    by decide, fun spare => UnMarshalPublicKeyArrayFromByteArray_ok S keys spare hinv hne hlt⟩
  simp only [keyArrayLayout, lengthPrefixed32, List.map_map, Suite.bytesOf]
  rfl

theorem PublicKeyArray_roundtrip_witness :
    ∃ bytes, MarshalPublicKeyArrayToByteArray Suite.plain [[1, 2], [3]] = .ok (bytes, none) ∧
      bytes = bigEndian 2 MESSAGE_TYPE_PUBLICKEYS ++
        (([[1, 2], [3]] : List Suite.plain.Point).map
          (fun k => bigEndian 4 (Suite.plain.MarshalBinary k).1.length
            ++ (Suite.plain.MarshalBinary k).1)).flatten ∧
      bigEndian 2 MESSAGE_TYPE_PUBLICKEYS = [0, 2] ∧
      ∀ spare, UnMarshalPublicKeyArrayFromByteArray ⟨bytes, spare⟩ Suite.plain
        = .ok ([[1, 2], [3]], none) :=
  PublicKeyArray_roundtrip Suite.plain [[1, 2], [3]]
    (by intro k _; rfl) (by intro k _; rfl)
    (by
      intro k hk
      rcases List.mem_cons.mp hk with h | h
      · subst h; decide
      · rw [List.mem_singleton.mp h]; decide)
    (by
      intro k hk
      rcases List.mem_cons.mp hk with h | h
      · subst h; decide
      · rw [List.mem_singleton.mp h]; decide)

/-- C10, as stated, fails: under the suite whose points serialize to themselves, the
key list `[[]]` (one key with an empty serialization) is written with a zero length
prefix, which the reader takes for the end of the array; the frame written for base
`[1]`, keys `[[]]` and proof `[5]` is read back with base `[1]`, proof `[5]` and no
key at all. -/
theorem BasePublicKeysAndProof_empty_key_lost :
    WriteBasePublicKeysAndProofToConn Suite.plain (Conn.reliable []) ([1] : List Byte)
        [([] : List Byte)] [5]
      = .ok (none, { Conn.reliable [] with writeLog :=
          [[0, 3, 0, 0, 0, 20, 0, 0, 0, 1, 1, 0, 0, 0, 6, 0, 2, 0, 0, 0, 0, 0, 0, 0, 1, 5]] }) ∧
    ParseBasePublicKeysAndProofFromConn Suite.plain
        (Conn.reliable
          [0, 3, 0, 0, 0, 20, 0, 0, 0, 1, 1, 0, 0, 0, 6, 0, 2, 0, 0, 0, 0, 0, 0, 0, 1, 5])
      = .ok ((some ([1] : List Byte), ([] : List (List Byte)), [5], none),
          { Conn.reliable
              [0, 3, 0, 0, 0, 20, 0, 0, 0, 1, 1, 0, 0, 0, 6, 0, 2, 0, 0, 0, 0, 0, 0, 0, 1, 5]
            with input := [] }) ∧
    ([] : List (List Byte)) ≠ [[]] :=
  ⟨rfl, rfl, fun h => List.noConfusion h⟩

/-- C10, amended. Base + keys + proof round-trip: under a suite whose deserialization
inverts serialization, for every base point, every list of keys whose serialization
succeeds and is non-empty, and every proof byte string (the empty one included) such
that the body is shorter than 2^32 bytes, `WriteBasePublicKeysAndProofToConn` hands
the transport the frame of the body
`[u32 baseLen][base][u32 keysLen][keysArrayBytes][u32 proofLen][proof]`, and
`ParseBasePublicKeysAndProofFromConn` reading that frame returns the same base, the
same keys in order and the same proof bytes, with a nil error. -/
theorem BasePublicKeysAndProof_roundtrip (S : Suite) (w r : Conn) (base : S.Point)
    (keys : List S.Point) (proof rest : List Byte)
    (hinvb : S.UnmarshalBinary (S.MarshalBinary base).1 = .ok base)
    (hm : ∀ k ∈ keys, (S.MarshalBinary k).2 = none)
    (hinv : ∀ k ∈ keys, S.UnmarshalBinary (S.MarshalBinary k).1 = .ok k)
    (hne : ∀ k ∈ keys, 0 < (S.MarshalBinary k).1.length)
    (hsize : 12 + (S.MarshalBinary base).1.length + (keyArrayLayout S keys).length
      + proof.length < 4294967296)
    (hr : r.input = frameOf (bigEndian 4 (S.MarshalBinary base).1.length
      ++ (S.MarshalBinary base).1
      ++ (bigEndian 4 (keyArrayLayout S keys).length ++ keyArrayLayout S keys)
      ++ (bigEndian 4 proof.length ++ proof)) ++ rest) :
    (∃ err w', WriteBasePublicKeysAndProofToConn S w base keys proof = .ok (err, w') ∧
      w'.writeLog = w.writeLog ++ [frameOf (bigEndian 4 (S.MarshalBinary base).1.length
        ++ (S.MarshalBinary base).1
        ++ (bigEndian 4 (keyArrayLayout S keys).length ++ keyArrayLayout S keys)
        ++ (bigEndian 4 proof.length ++ proof))]) ∧
    MarshalPublicKeyArrayToByteArray S keys = .ok (keyArrayLayout S keys, none) ∧
    ParseBasePublicKeysAndProofFromConn S r
      = .ok ((some base, keys, proof, none), { r with input := rest }) := by
  have hl : (baseKeysProofLayout (S.bytesOf base) (keyArrayLayout S keys) proof).length
      = 12 + (S.bytesOf base).length + (keyArrayLayout S keys).length + proof.length := by
    simp only [baseKeysProofLayout, List.length_append, bigEndian_length]
    omega
  refine ⟨?_, MarshalPublicKeyArrayToByteArray_ok S keys hm, ?_⟩
  · rw [WriteBasePublicKeysAndProofToConn_eq S w base keys proof hm, WriteMessage_eq]
    exact ⟨_, _, rfl, rfl⟩
  · refine ParseBasePublicKeysAndProofFromConn_ok S r base keys proof rest hinvb hinv hne
      ?_ ?_ hr
    · intro k hk
      have := bytesOf_length_le_keyArrayLayout S keys k hk
      simp only [Suite.bytesOf] at this ⊢
      omega
    · rw [hl]
      exact hsize

theorem BasePublicKeysAndProof_roundtrip_witness :
    (∃ err w', WriteBasePublicKeysAndProofToConn Suite.plain (Conn.reliable [])
        ([1] : List Byte) [([2, 3] : List Byte)] [] = .ok (err, w') ∧
      w'.writeLog = (Conn.reliable []).writeLog ++
        [[0, 3, 0, 0, 0, 21, 0, 0, 0, 1, 1, 0, 0, 0, 8, 0, 2, 0, 0, 0, 2, 2, 3, 0, 0, 0, 0]]) ∧
    MarshalPublicKeyArrayToByteArray Suite.plain [([2, 3] : List Byte)]
      = .ok ([0, 2, 0, 0, 0, 2, 2, 3], none) ∧
    ParseBasePublicKeysAndProofFromConn Suite.plain (Conn.reliable
        [0, 3, 0, 0, 0, 21, 0, 0, 0, 1, 1, 0, 0, 0, 8, 0, 2, 0, 0, 0, 2, 2, 3, 0, 0, 0, 0, 9])
      = .ok ((some ([1] : List Byte), [([2, 3] : List Byte)], [], none),
          { Conn.reliable
              [0, 3, 0, 0, 0, 21, 0, 0, 0, 1, 1, 0, 0, 0, 8, 0, 2, 0, 0, 0, 2, 2, 3, 0, 0, 0, 0, 9]
            with input := [9] }) :=
  BasePublicKeysAndProof_roundtrip Suite.plain (Conn.reliable [])
    (Conn.reliable
      [0, 3, 0, 0, 0, 21, 0, 0, 0, 1, 1, 0, 0, 0, 8, 0, 2, 0, 0, 0, 2, 2, 3, 0, 0, 0, 0, 9])
    ([1] : List Byte) [([2, 3] : List Byte)] [] [9] rfl
    (by intro k _; rfl) (by intro k _; rfl)
    (by
      intro k hk
      rw [List.mem_singleton.mp hk]
      decide)
    (by decide) rfl

/-! ## Datagrams: the claims -/

/-- C13. Truncated datagram: when a single receive without error delivers `n ≥ 6`
bytes whose header carries the right version and a declared `bodySize` with
`n < bodySize+6`, `ReadDatagram` returns the truncation error (never nil) together
with a body of `bodySize > 0` bytes whose leading `n-6` bytes are exactly the body
bytes that arrived. Here `n` is what `Read` returns: the size of the datagram, or
of the receive buffer when the datagram is larger. -/
theorem ReadDatagram_truncated (d : Conn) (L : Nat) (payload : List Byte)
    (more : List (List Byte × Option NetError)) (expectedSize : Nat)
    (hL : L < 4294967296)
    (hp : d.packets
      = (bigEndian 2 LLD_PROTOCOL_VERSION ++ bigEndian 4 L ++ payload, none) :: more)
    (htr : min (6 + payload.length) (expectedSize + 6) < L + 6) :
    6 ≤ min (6 + payload.length) (expectedSize + 6) ∧
    ∃ body, ReadDatagram d expectedSize
        = .ok ((body, some (NetError.truncatedDatagram
            (((min (6 + payload.length) (expectedSize + 6) : Nat) : Int) - 6) L)),
          { d with packets := more }) ∧
      body.length = L ∧ 0 < body.length ∧
      body.take (min (6 + payload.length) (expectedSize + 6) - 6)
        = payload.take (min (6 + payload.length) (expectedSize + 6) - 6) := by
  refine ⟨by omega, overwrite (makeBytes L) 0
    ((payload.take expectedSize
      ++ makeBytes (expectedSize - (payload.take expectedSize).length)).take L),
    ?_, ?_, ?_, ?_⟩
  · rw [ReadDatagram_valid_header d L payload more expectedSize hL hp,
      if_pos (by exact_mod_cast htr)]
  · rw [overwrite_makeBytes_zero]
    simp only [List.length_append, List.length_take, makeBytes_length]
    omega
  · rw [overwrite_makeBytes_zero]
    simp only [List.length_append, List.length_take, makeBytes_length]
    omega
  · have hk : min (6 + payload.length) (expectedSize + 6) - 6
        = (payload.take expectedSize).length := by
      simp only [List.length_take]
      omega
    have hkL : (payload.take expectedSize).length ≤ L := by
      simp only [List.length_take]
      omega
    have hkE : min (payload.take expectedSize).length expectedSize
        = (payload.take expectedSize).length := by
      simp only [List.length_take]
      omega
    have hP : payload.take (payload.take expectedSize).length = payload.take expectedSize := by
      have h1 := List.take_length (payload.take expectedSize)
      rw [List.take_take, hkE] at h1
      exact h1
    have hsrc : (payload.take expectedSize
        ++ makeBytes (expectedSize - (payload.take expectedSize).length)).take L
        = payload.take expectedSize
          ++ (makeBytes (expectedSize - (payload.take expectedSize).length)).take
              (L - (payload.take expectedSize).length) := by
      rw [List.take_append_eq_append_take, List.take_of_length_le hkL]
    rw [hk, hP, overwrite_makeBytes_zero, hsrc, List.append_assoc, List.take_left]

theorem ReadDatagram_truncated_witness :
    6 ≤ min (6 + [7, 8].length) (10 + 6) ∧
    ∃ body, ReadDatagram (Conn.receiving [([0, 3, 0, 0, 0, 4, 7, 8], none)]) 10
        = .ok ((body, some (NetError.truncatedDatagram
            (((min (6 + [7, 8].length) (10 + 6) : Nat) : Int) - 6) 4)),
          { Conn.receiving [([0, 3, 0, 0, 0, 4, 7, 8], none)] with packets := [] }) ∧
      body.length = 4 ∧ 0 < body.length ∧
      body.take (min (6 + [7, 8].length) (10 + 6) - 6)
        = ([7, 8] : List Byte).take (min (6 + [7, 8].length) (10 + 6) - 6) :=
  ReadDatagram_truncated (Conn.receiving [([0, 3, 0, 0, 0, 4, 7, 8], none)]) 4 [7, 8] [] 10
    (by decide) rfl (by decide)

/-- C14. Datagram round-trip: for every body shorter than 2^32 bytes with
`len(body) ≤ expectedSize`, when one receive delivers without error exactly what
`WriteMessage` handed to the transport for that body, `ReadDatagram(conn,
expectedSize)` returns exactly the body and a nil error. -/
theorem WriteMessage_ReadDatagram_roundtrip (w w' d : Conn) (body : List Byte)
    (err : Option NetError) (more : List (List Byte × Option NetError))
    (expectedSize : Nat)
    (hlen : body.length < 4294967296) (hE : body.length ≤ expectedSize)
    (hw : WriteMessage w body = .ok (err, w'))
    (hp : d.packets = ((w'.writeLog.drop w.writeLog.length).flatten, none) :: more) :
    ReadDatagram d expectedSize = .ok ((body, none), { d with packets := more }) := by
  rw [WriteMessage_eq] at hw
  have hlog : w'.writeLog = w.writeLog ++ [frameOf body] := by
    injection hw with hw
    rw [← (Prod.mk.inj hw).2]
  rw [hlog, List.drop_left] at hp
  simp only [List.flatten_cons, List.flatten_nil, List.append_nil, frameOf] at hp
  rw [ReadDatagram_valid_header d body.length body more expectedSize hlen hp,
    if_neg (by
      have : min (6 + body.length) (expectedSize + 6) = body.length + 6 := by omega
      rw [this]
      exact lt_irrefl _),
    List.take_of_length_le hE, List.take_left, overwrite_makeBytes_zero, Nat.sub_self]
  simp only [makeBytes, List.replicate_zero, List.append_nil]

theorem WriteMessage_ReadDatagram_roundtrip_witness :
    ReadDatagram (Conn.receiving [([0, 3, 0, 0, 0, 2, 7, 8], none)]) 5
      = .ok (([7, 8], none),
          { Conn.receiving [([0, 3, 0, 0, 0, 2, 7, 8], none)] with packets := [] }) :=
  WriteMessage_ReadDatagram_roundtrip (Conn.reliable [])
    { Conn.reliable [] with writeLog := [[0, 3, 0, 0, 0, 2, 7, 8]] }
    (Conn.receiving [([0, 3, 0, 0, 0, 2, 7, 8], none)]) [7, 8] none [] 5
    (by decide) (by decide) rfl rfl

/-! ## A single key, invalid elements, base and keys: where the code departs -/

/-- C11 does not hold of the code. `TellPublicKey` frames the serialized key alone,
without the message-type tag, while `ParsePublicKeyFromConn` takes the first two
bytes of the body for the tag: for every key whose serialization (shorter than 2^32
bytes) starts with two bytes `b0 b1` other than the tag, the frame `TellPublicKey`
hands to the transport has the bare key as its body, and `ParsePublicKeyFromConn`
reading that frame returns no key and the wrong-type error for `b0 b1`. -/
theorem TellPublicKey_frame_has_no_tag (S : Suite) (w r : Conn) (key : S.Point)
    (b0 b1 : Byte) (tl rest : List Byte)
    (hbytes : (S.MarshalBinary key).1 = b0 :: b1 :: tl)
    (hlen : (S.MarshalBinary key).1.length < 4294967296)
    (htag : b0.val * 256 + b1.val ≠ MESSAGE_TYPE_PUBLICKEYS)
    (hr : r.input = frameOf (S.MarshalBinary key).1 ++ rest) :
    (∃ err w', TellPublicKey S w key = .ok (err, w') ∧
      w'.writeLog = w.writeLog ++ [frameOf (S.MarshalBinary key).1]) ∧
    ParsePublicKeyFromConn S r
      = .ok ((none, some (NetError.wrongPublicKeyType (b0.val * 256 + b1.val))),
          { r with input := rest }) := by
  constructor
  · rw [TellPublicKey_eq, WriteMessage_eq]
    exact ⟨_, _, rfl, rfl⟩
  · rw [hbytes] at hlen hr
    exact ParsePublicKeyFromConn_wrong_tag S r b0 b1 tl rest hlen htag hr

theorem TellPublicKey_frame_has_no_tag_witness :
    (∃ err w', TellPublicKey Suite.plain (Conn.reliable []) ([7, 8] : List Byte) = .ok (err, w') ∧
      w'.writeLog = (Conn.reliable []).writeLog ++ [[0, 3, 0, 0, 0, 2, 7, 8]]) ∧
    ParsePublicKeyFromConn Suite.plain (Conn.reliable [0, 3, 0, 0, 0, 2, 7, 8])
      = .ok ((none, some (NetError.wrongPublicKeyType 1800)),
          { Conn.reliable [0, 3, 0, 0, 0, 2, 7, 8] with input := [] }) :=
  TellPublicKey_frame_has_no_tag Suite.plain (Conn.reliable [])
    (Conn.reliable [0, 3, 0, 0, 0, 2, 7, 8]) ([7, 8] : List Byte) 7 8 [] [] rfl (by decide)
    (by decide) rfl

/-- C12 does not hold of the code. Under the suite of one-byte points, which rejects
the two-byte string `1 2`: `ParseTranscript` returns a nil error when the base point
is rejected and when an ephemeral key is rejected, and so does
`ParsePublicKeyFromConn` when the key is rejected (all three return the variable
`err`, which is nil after a successful read); `ParseBaseAndPublicKeysFromConn`,
`ParseBasePublicKeysAndProofFromConn` and `UnMarshalPublicKeyArrayFromByteArray`
return the suite's error on the same element. -/
theorem invalid_group_element_nil_error :
    ParseTranscript Suite.single
        (Conn.reliable [0, 3, 0, 0, 0, 6, 0, 0, 0, 2, 1, 2]) 1 1
      = .ok (([], [], [], none),
          { Conn.reliable [0, 3, 0, 0, 0, 6, 0, 0, 0, 2, 1, 2] with input := [] }) ∧
    ParseTranscript Suite.single
        (Conn.reliable [0, 3, 0, 0, 0, 15, 0, 0, 0, 1, 1, 0, 0, 0, 6, 0, 0, 0, 2, 1, 2]) 1 1
      = .ok (([], [], [], none),
          { Conn.reliable [0, 3, 0, 0, 0, 15, 0, 0, 0, 1, 1, 0, 0, 0, 6, 0, 0, 0, 2, 1, 2]
            with input := [] }) ∧
    ParsePublicKeyFromConn Suite.single (Conn.reliable [0, 3, 0, 0, 0, 4, 0, 2, 1, 2])
      = .ok ((none, none), { Conn.reliable [0, 3, 0, 0, 0, 4, 0, 2, 1, 2] with input := [] }) ∧
    ParseBaseAndPublicKeysFromConn Suite.single
        (Conn.reliable [0, 3, 0, 0, 0, 12, 0, 0, 0, 2, 1, 2, 0, 0, 0, 2, 0, 2])
      = .ok ((none, [], some (NetError.suite 1)),
          { Conn.reliable [0, 3, 0, 0, 0, 12, 0, 0, 0, 2, 1, 2, 0, 0, 0, 2, 0, 2]
            with input := [] }) ∧
    ParseBasePublicKeysAndProofFromConn Suite.single
        (Conn.reliable [0, 3, 0, 0, 0, 16, 0, 0, 0, 2, 1, 2, 0, 0, 0, 2, 0, 2, 0, 0, 0, 0])
      = .ok ((none, [], [], some (NetError.suite 1)),
          { Conn.reliable [0, 3, 0, 0, 0, 16, 0, 0, 0, 2, 1, 2, 0, 0, 0, 2, 0, 2, 0, 0, 0, 0]
            with input := [] }) ∧
    UnMarshalPublicKeyArrayFromByteArray (Slice.ofBuffer [0, 2, 0, 0, 0, 2, 1, 2]) Suite.single
      = .ok ([], some (NetError.suite 1)) :=
  ⟨rfl, rfl, rfl, rfl, rfl, rfl⟩

/-- C20 does not hold of the code. For every base point and key list that serialize
successfully: whenever the framed write returns an error, `WriteBaseAndPublicKeyToConn`
does not return at all but panics with a nil dereference (line 506 calls
`err.Error()` on the nil `err`), and so it never returns a non-nil error. -/
theorem WriteBaseAndPublicKeyToConn_write_failure (S : Suite) (conn : Conn) (base : S.Point)
    (keys : List S.Point)
    (hb : (S.MarshalBinary base).2 = none)
    (hm : ∀ k ∈ keys, (S.MarshalBinary k).2 = none) :
    (∀ e conn', WriteMessage conn (bigEndian 4 (S.MarshalBinary base).1.length
          ++ (S.MarshalBinary base).1
          ++ (bigEndian 4 (keyArrayLayout S keys).length ++ keyArrayLayout S keys))
        = .ok (some e, conn') →
      WriteBaseAndPublicKeyToConn S conn base keys = .error Fault.nilDereference) ∧
    (∀ res, WriteBaseAndPublicKeyToConn S conn base keys = .ok res → res.1 = none) := by
  rw [WriteBaseAndPublicKeyToConn_eq S conn base keys hb hm]
  simp only [Suite.bytesOf]
  constructor
  · intro e conn' hw
    rw [hw]
    rfl
  · intro res hres
    rw [WriteMessage_eq, bind_ok_eq] at hres
    split_ifs at hres
    all_goals (cases hres; rfl)

theorem WriteBaseAndPublicKeyToConn_write_failure_witness :
    WriteBaseAndPublicKeyToConn Suite.plain (Conn.answering 0 (some (NetError.transport 1)))
        ([1] : List Byte) [([2] : List Byte)]
      = .error Fault.nilDereference :=
  (WriteBaseAndPublicKeyToConn_write_failure Suite.plain
      (Conn.answering 0 (some (NetError.transport 1))) ([1] : List Byte) [([2] : List Byte)]
      rfl (by intro k _; rfl)).1
    (NetError.shortWrite 22 0)
    { Conn.answering 0 (some (NetError.transport 1)) with
      writeLog := [[0, 3, 0, 0, 0, 16, 0, 0, 0, 1, 1, 0, 0, 0, 7, 0, 2, 0, 0, 0, 1, 2]] }
    rfl

/-! ## Malformed byte arrays with 2-byte lengths -/

/-- C17, as stated, fails: `UnmarshalByteArrays` has no error result. On the buffer
`0 2 1` (a length of 2 followed by one byte) and on the single dangling byte `0` it
panics with a slice-bounds run-time error; and when the same three bytes are a slice
of a larger array that goes on with `5 6`, it returns the array `1 5`, whose second
byte lies past the end of the buffer. -/
theorem UnmarshalByteArrays_malformed_examples :
    UnmarshalByteArrays (Slice.ofBuffer [0, 2, 1]) = .error Fault.sliceBounds ∧
    UnmarshalByteArrays (Slice.ofBuffer [0]) = .error Fault.sliceBounds ∧
    UnmarshalByteArrays ⟨[0, 2, 1], [5, 6]⟩ = .ok [[1, 5]] :=
  ⟨rfl, rfl, rfl⟩

/-- C17, amended. Malformed 2-byte TLV input: `UnmarshalByteArrays` has no error
result. For every slice in which, after well-formed entries, a 2-byte length prefix
declares `L` bytes while fewer remain: when the capacity of the slice does not provide
the missing bytes either, the call aborts with a slice-bounds run-time panic; when it
does, the call returns the well-formed entries followed by one array made of the
remaining bytes and of the bytes past the end of the slice that complete the `L`. A
single dangling byte panics when the capacity ends with it; otherwise it is read with
the first byte past the end as a length, with the same two outcomes. In particular,
on a buffer whose capacity is its length, every such input panics before any byte past
the end is read. -/
theorem UnmarshalByteArrays_malformed (good : List (List Byte)) (bad spare : List Byte)
    (hgood : ∀ a ∈ good, a.length ≤ 65535) :
    (∀ L tail, L < 65536 → bad = bigEndian 2 L ++ tail → tail.length < L →
      UnmarshalByteArrays ⟨lengthPrefixed16 good ++ bad, spare⟩
        = if L ≤ tail.length + spare.length then
            .ok (good ++ [tail ++ spare.take (L - tail.length)])
          else .error Fault.sliceBounds) ∧
    (∀ b, bad = [b] →
      UnmarshalByteArrays ⟨lengthPrefixed16 good ++ bad, spare⟩
        = match spare with
          | [] => .error Fault.sliceBounds
          | c :: sp =>
            if b.val * 256 + c.val ≤ sp.length then
              .ok (good ++ [sp.take (b.val * 256 + c.val)])
            else .error Fault.sliceBounds) ∧
    ((∃ b, bad = [b]) ∨
        (∃ L tail, L < 65536 ∧ bad = bigEndian 2 L ++ tail ∧ tail.length < L) →
      UnmarshalByteArrays (Slice.ofBuffer (lengthPrefixed16 good ++ bad))
        = .error Fault.sliceBounds) := by
  have hover : ∀ sp L tail, L < 65536 → bad = bigEndian 2 L ++ tail → tail.length < L →
      UnmarshalByteArrays ⟨lengthPrefixed16 good ++ bad, sp⟩
        = if L ≤ tail.length + sp.length then
            .ok (good ++ [tail ++ sp.take (L - tail.length)])
          else .error Fault.sliceBounds := by
    intro sp L tail hL hb ht
    obtain ⟨f, hf⟩ := UnmarshalByteArrays_after_good good bad sp hgood
      (by rw [hb, List.length_append, bigEndian_length]; omega)
    rw [hf, hb, ← List.append_assoc]
    exact unmarshalLoop_overlong_spare (lengthPrefixed16 good) tail sp L f _ good rfl hL ht
  have hdang : ∀ sp b, bad = [b] →
      UnmarshalByteArrays ⟨lengthPrefixed16 good ++ bad, sp⟩
        = match sp with
          | [] => .error Fault.sliceBounds
          | c :: sp =>
            if b.val * 256 + c.val ≤ sp.length then
              .ok (good ++ [sp.take (b.val * 256 + c.val)])
            else .error Fault.sliceBounds := by
    intro sp b hb
    obtain ⟨f, hf⟩ := UnmarshalByteArrays_after_good good bad sp hgood
      (by rw [hb]; exact Nat.zero_lt_one)
    rw [hf, hb]
    exact unmarshalLoop_dangling_spare (lengthPrefixed16 good) b sp f _ good rfl
  refine ⟨hover spare, hdang spare, ?_⟩
  rintro (⟨b, hb⟩ | ⟨L, tail, hL, hb, ht⟩)
  · exact hdang [] b hb
  · rw [Slice.ofBuffer, hover [] L tail hL hb ht, if_neg]
    rw [List.length_nil]
    omega

theorem UnmarshalByteArrays_malformed_witness :
    UnmarshalByteArrays ⟨lengthPrefixed16 [[7], []] ++ [0, 3, 1], [5, 6, 7]⟩
      = .ok [[7], [], [1, 5, 6]] ∧
    UnmarshalByteArrays ⟨lengthPrefixed16 [[7], []] ++ [0, 3, 1], [5]⟩
      = .error Fault.sliceBounds ∧
    UnmarshalByteArrays ⟨lengthPrefixed16 [[7], []] ++ [0], [1, 9]⟩
      = .ok [[7], [], [9]] ∧
    UnmarshalByteArrays (Slice.ofBuffer (lengthPrefixed16 [[7], []] ++ [0, 3, 1]))
      = .error Fault.sliceBounds :=
  ⟨(UnmarshalByteArrays_malformed [[7], []] [0, 3, 1] [5, 6, 7] (by decide)).1 3 [1]
      (by decide) rfl (by decide),
    (UnmarshalByteArrays_malformed [[7], []] [0, 3, 1] [5] (by decide)).1 3 [1]
      (by decide) rfl (by decide),
    (UnmarshalByteArrays_malformed [[7], []] [0] [1, 9] (by decide)).2.1 0 rfl,
    (UnmarshalByteArrays_malformed [[7], []] [0, 3, 1] [] (by decide)).2.2
      (Or.inr ⟨3, [1], by decide, rfl, by decide⟩)⟩

/-! ## Peers and fan-out: the claims -/

/-- C16. Fail-fast broadcast: for every list of connections and every message,
`NUnicastMessage` returns nil if and only if the framed write succeeds on every
connection (each at its turn, after the writes before it); when it returns nil every
connection has been written in order; when it returns an error, that error is the
result of the first failing write, every write before it succeeded, and the calls made
are exactly those up to and including the failing one: none is attempted after it. -/
theorem NUnicastMessage_fail_fast (conns : List Nat) (net : Network) (message : List Byte) :
    ∃ res net', NUnicastMessage conns net message = .ok (res, net') ∧
      (res = none ↔
        ∀ pre h post, conns = pre ++ h :: post → net.resultAt message pre h = none) ∧
      (res = none → net' = net.after conns message) ∧
      (∀ e, res = some e → ∃ pre h post, conns = pre ++ h :: post ∧
        (∀ p1 c p2, pre = p1 ++ c :: p2 → net.resultAt message p1 c = none) ∧
        net.resultAt message pre h = some e ∧
        net' = net.after (pre ++ [h]) message) := by
  induction conns generalizing net with
  | nil =>
    refine ⟨none, net, rfl, ?_, ?_, ?_⟩
    · constructor
      · intro _ pre h post hsplit
        cases pre <;> cases hsplit
      · intro _
        rfl
    · intro _
      rw [Network.after_nil]
    · intro e he
      cases he
  | cons c rest ih =>
    rw [NUnicastMessage, Network.WriteMessage_after]
    simp only [bind, bind_ok_eq, pure, Except.pure]
    cases hr : (net.conns c).writeResult message with
    | some e =>
      refine ⟨some e, net.after [c] message, by simp, ?_, ?_, ?_⟩
      · constructor
        · intro h
          cases h
        · intro hall
          have := hall [] c rest rfl
          rw [Network.resultAt_nil, hr] at this
          cases this
      · intro h
        cases h
      · intro e' he'
        cases he'
        refine ⟨[], c, rest, rfl, ?_, ?_, rfl⟩
        · intro p1 x p2 hsplit
          cases p1 <;> cases hsplit
        · rw [Network.resultAt_nil, hr]
    | none =>
      obtain ⟨res, net', hrun, hiff, hnone, hsome⟩ := ih (net.after [c] message)
      refine ⟨res, net', by simpa using hrun, ?_, ?_, ?_⟩
      · rw [hiff]
        constructor
        · intro hall pre h post hsplit
          cases pre with
          | nil =>
            simp only [List.nil_append, List.cons.injEq] at hsplit
            rw [← hsplit.1, Network.resultAt_nil, hr]
          | cons p pre =>
            simp only [List.cons_append, List.cons.injEq] at hsplit
            have := hall pre h post hsplit.2
            rw [Network.resultAt_after] at this
            rw [← hsplit.1]
            exact this
        · intro hall pre h post hsplit
          have := hall (c :: pre) h post (by rw [hsplit]; rfl)
          rw [Network.resultAt_after]
          exact this
      · intro h
        rw [hnone h, Network.after_after]
        rfl
      · intro e he
        obtain ⟨pre, h, post, hsplit, hbefore, hat, hnet⟩ := hsome e he
        refine ⟨c :: pre, h, post, by rw [hsplit]; rfl, ?_, ?_, ?_⟩
        · intro p1 x p2 hs
          cases p1 with
          | nil =>
            simp only [List.nil_append, List.cons.injEq] at hs
            rw [← hs.1, Network.resultAt_nil, hr]
          | cons q p1 =>
            simp only [List.cons_append, List.cons.injEq] at hs
            have := hbefore p1 x p2 hs.2
            rw [Network.resultAt_after] at this
            rw [← hs.1]
            exact this
        · rw [Network.resultAt_after] at hat
          exact hat
        · rw [hnet, Network.after_after]
          rfl

/-- C15. Fan-out resilience: for every list of nodes and every message,
`NUnicastMessageToNodes` calls `WriteMessage` exactly once on each node flagged
connected, in index order and whatever the earlier results, and on no other node (the
network afterwards is the one after those calls); the list keeps its length and
order, with every id, connection and public key unchanged; and afterwards a node is
flagged connected if and only if it was connected before and its write (at its turn,
after the writes to the connected nodes before it) succeeded. -/
theorem NUnicastMessageToNodes_fan_out {P : Type} (nodes : List (NodeRepresentation P))
    (net : Network) (message : List Byte) :
    ∃ nodes' net', NUnicastMessageToNodes nodes net message = .ok (nodes', net') ∧
      net' = net.after (connectedHandles nodes) message ∧
      nodes'.map (fun n => n.Id) = nodes.map (fun n => n.Id) ∧
      nodes'.map (fun n => n.Conn) = nodes.map (fun n => n.Conn) ∧
      nodes'.map (fun n => n.PublicKey) = nodes.map (fun n => n.PublicKey) ∧
      (∀ pre n post, nodes = pre ++ n :: post →
        ∃ n', nodes'[pre.length]? = some n' ∧
          (n'.Connected = true ↔ n.Connected = true ∧
            net.resultAt message (connectedHandles pre) n.Conn = none)) := by
  induction nodes generalizing net with
  | nil =>
    refine ⟨[], net, rfl, ?_, rfl, rfl, rfl, ?_⟩
    · rw [connectedHandles, List.filter_nil, List.map_nil, Network.after_nil]
    · intro pre n post hsplit
      cases pre <;> cases hsplit
  | cons node rest ih =>
    by_cases hc : node.Connected = true
    · obtain ⟨rest', net', hrun, hnet, hid, hconn, hkey, hflags⟩ :=
        ih (net.after [node.Conn] message)
      rw [NUnicastMessageToNodes, if_pos hc, Network.WriteMessage_after]
      simp only [bind, bind_ok_eq, pure, Except.pure, hrun]
      refine ⟨_, _, rfl, ?_, ?_, ?_, ?_, ?_⟩
      · rw [hnet, Network.after_after, connectedHandles_cons_connected node rest hc]
        rfl
      · rw [List.map_cons, List.map_cons, hid]
        split_ifs <;> rfl
      · rw [List.map_cons, List.map_cons, hconn]
        split_ifs <;> rfl
      · rw [List.map_cons, List.map_cons, hkey]
        split_ifs <;> rfl
      · intro pre n post hsplit
        cases pre with
        | nil =>
          simp only [List.nil_append, List.cons.injEq] at hsplit
          refine ⟨_, List.getElem?_cons_zero, ?_⟩
          rw [← hsplit.1, connectedHandles, List.filter_nil, List.map_nil,
            Network.resultAt_nil]
          cases hr : (net.conns node.Conn).writeResult message with
          | none => simp [hc]
          | some e => simp
        | cons p pre =>
          simp only [List.cons_append, List.cons.injEq] at hsplit
          obtain ⟨n', hget, hfl⟩ := hflags pre n post hsplit.2
          refine ⟨n', by simpa using hget, ?_⟩
          rw [hfl, Network.resultAt_after, ← hsplit.1,
            connectedHandles_cons_connected node pre hc]
          rfl
    · obtain ⟨rest', net', hrun, hnet, hid, hconn, hkey, hflags⟩ := ih net
      rw [NUnicastMessageToNodes, if_neg hc]
      simp only [bind, bind_ok_eq, pure, Except.pure, hrun]
      refine ⟨_, _, rfl, ?_, ?_, ?_, ?_, ?_⟩
      · rw [hnet, connectedHandles_cons_disconnected node rest hc]
      · rw [List.map_cons, List.map_cons, hid]
      · rw [List.map_cons, List.map_cons, hconn]
      · rw [List.map_cons, List.map_cons, hkey]
      · intro pre n post hsplit
        cases pre with
        | nil =>
          simp only [List.nil_append, List.cons.injEq] at hsplit
          refine ⟨_, List.getElem?_cons_zero, ?_⟩
          rw [← hsplit.1]
          simp [hc]
        | cons p pre =>
          simp only [List.cons_append, List.cons.injEq] at hsplit
          obtain ⟨n', hget, hfl⟩ := hflags pre n post hsplit.2
          refine ⟨n', by simpa using hget, ?_⟩
          rw [hfl, ← hsplit.1, connectedHandles_cons_disconnected node pre hc]

/-- With three connected peers of which the second refuses the write, the fan-out
still writes to the third, and only the second ends up flagged disconnected. -/
theorem NUnicastMessageToNodes_example :
    ∃ nodes' net', NUnicastMessageToNodes threePeers middleFails [1] = .ok (nodes', net') ∧
      nodes'.map (fun n => n.Connected) = [true, false, true] ∧
      net'.writes = [0, 1, 2] ∧
      (net'.conns 2).writeLog = [frameOf [1]] :=
  ⟨_, _, rfl, rfl, rfl, rfl⟩

/-- On the same three connections, the fail-fast unicast stops at the second: it
returns that write's error and never writes to the third. -/
theorem NUnicastMessage_example :
    ∃ res net', NUnicastMessage [0, 1, 2] middleFails [1] = .ok (res, net') ∧
      res = some (NetError.shortWrite 7 0) ∧
      net'.writes = [0, 1] ∧
      (net'.conns 2).writeLog = [] :=
  ⟨_, _, rfl, rfl, rfl, rfl⟩

/-! ## Timed reads: where the code departs -/

/-- C19 (where the code departs). Abandoned read: `dataChan` is made without a
buffer and is where the read task sends a successful result. When the timeout wins
(the caller waits in the `select`, the timer wakes and sends, the caller leaves through
the timeout arm) and the read then returns successfully, the read task stands at its
send on `dataChan` and stays there under every further schedule: it never terminates.
A read that returns an error instead sends on `errorChan`, whose single slot takes the
value, and terminates. -/
theorem abandoned_read_blocks_on_success :
    ReadChan.capacity (readTaskChan none) = 0 ∧
    (∃ s, TimedRead.start.run [.callerParks, .timerWakes, .timerSends, .readReturns none]
        = some s ∧
      s.caller = .left .timeoutChan ∧ s.reader = .sending .dataChan ∧
      ∀ moves s', s.run moves = some s' → s'.reader = .sending .dataChan) ∧
    (∀ e, ReadChan.capacity (readTaskChan (some e)) = 1 ∧
      ∃ s, TimedRead.start.run
          [.callerParks, .timerWakes, .timerSends, .readReturns (some e), .readerSends]
          = some s ∧
        s.caller = .left .timeoutChan ∧ s.reader = .terminated) := by
  refine ⟨rfl, ⟨_, rfl, rfl, rfl, ?_⟩, fun e => ⟨rfl, _, rfl, rfl, rfl⟩⟩
  intro moves s' hrun
  exact (TimedRead.run_abandoned moves _ s' .timeoutChan rfl rfl hrun).2

/-! ## Streams of frames: the claim -/

/-- C21. Stream ordering: for every sequence of bodies, each shorter than 2^32 bytes,
if a stream carries their frames one after the other (and then anything), reading as
many messages as there are bodies returns the bodies in the order of their frames, each
with a nil error, and leaves what follows the last frame. Moreover, for every body `b`
of the sequence, the reads before it leave the stream at the frame of `b`, and the next
`ReadMessage` returns `b` and consumes exactly `6 + len(b)` bytes, which leaves the
stream at the frame that follows. With two bodies this is the claim for `b1` and `b2`. -/
theorem ReadMessage_stream_ordering (r : Conn) (bodies : List (List Byte))
    (rest : List Byte) (hlen : ∀ b ∈ bodies, b.length < 4294967296)
    (hr : r.input = framesOf bodies ++ rest) :
    readMessages r bodies.length
      = .ok (bodies.map (fun b => (b, none)), { r with input := rest }) ∧
    ∀ pre b post, bodies = pre ++ b :: post →
      ∃ rk, readMessages r pre.length = .ok (pre.map (fun b => (b, none)), rk) ∧
        rk.input = frameOf b ++ (framesOf post ++ rest) ∧
        ReadMessage rk
          = .ok ((b, none), { rk with input := rk.input.drop (6 + b.length) }) ∧
        rk.input.drop (6 + b.length) = framesOf post ++ rest := by
  refine ⟨readMessages_framesOf bodies r rest hlen hr, ?_⟩
  intro pre b post hsplit
  subst hsplit
  have hin : r.input = framesOf pre ++ (frameOf b ++ (framesOf post ++ rest)) := by
    rw [hr, framesOf_append, framesOf_cons]
    simp only [List.append_assoc]
  have hpre := readMessages_framesOf pre r (frameOf b ++ (framesOf post ++ rest))
    (fun x hx => hlen x (List.mem_append_left _ hx)) hin
  have hdrop : (frameOf b ++ (framesOf post ++ rest)).drop (6 + b.length)
      = framesOf post ++ rest := by
    have h6 : 6 + b.length = (frameOf b).length := by
      rw [frameOf_length]
      omega
    rw [h6, List.drop_left]
  refine ⟨_, hpre, rfl, ?_, hdrop⟩
  have hb := ReadMessage_frameOf { r with input := frameOf b ++ (framesOf post ++ rest) } b
    (framesOf post ++ rest) (hlen b (by simp)) rfl
  rw [hb, hdrop]

theorem ReadMessage_stream_ordering_witness :
    readMessages (Conn.reliable (framesOf [[1, 2], [3]] ++ [9])) 2
      = .ok ([([1, 2], none), ([3], none)],
          { Conn.reliable (framesOf [[1, 2], [3]] ++ [9]) with input := [9] }) ∧
    ∀ pre b post, [[1, 2], [3]] = pre ++ b :: post →
      ∃ rk, readMessages (Conn.reliable (framesOf [[1, 2], [3]] ++ [9])) pre.length
          = .ok (pre.map (fun b => (b, none)), rk) ∧
        rk.input = frameOf b ++ (framesOf post ++ [9]) ∧
        ReadMessage rk
          = .ok ((b, none), { rk with input := rk.input.drop (6 + b.length) }) ∧
        rk.input.drop (6 + b.length) = framesOf post ++ [9] :=
  ReadMessage_stream_ordering (Conn.reliable (framesOf [[1, 2], [3]] ++ [9]))
    [[1, 2], [3]] [9] (by decide) rfl

/-! ## The zero length prefix in a public-key array: the claim -/

/-- C22. Zero-length sentinel: for every buffer that starts with the PUBLICKEYS tag,
followed by `k` entries `[u32 length][key]` whose key bytes are non-empty and
deserialize under the suite, and then a 4-byte zero length prefix,
`UnMarshalPublicKeyArrayFromByteArray` returns exactly those `k` keys in order with a
nil error, whatever the bytes after the zero prefix (and past the end of the buffer)
are. -/
theorem UnMarshalPublicKeyArray_zero_sentinel (S : Suite)
    (ents : List (List Byte × S.Point)) (tail spare : List Byte)
    (hent : ∀ p ∈ ents, S.UnmarshalBinary p.1 = .ok p.2 ∧ 0 < p.1.length ∧
      p.1.length < 4294967296) :
    UnMarshalPublicKeyArrayFromByteArray
        ⟨bigEndian 2 MESSAGE_TYPE_PUBLICKEYS ++ lengthPrefixed32 (ents.map Prod.fst)
          ++ bigEndian 4 0 ++ tail, spare⟩ S
      = .ok (ents.map Prod.snd, none) := by
  have hbuf : bigEndian 2 MESSAGE_TYPE_PUBLICKEYS ++ lengthPrefixed32 (ents.map Prod.fst)
        ++ bigEndian 4 0 ++ tail
      = bigEndian 2 MESSAGE_TYPE_PUBLICKEYS ++ lengthPrefixed32 (ents.map Prod.fst)
        ++ (bigEndian 4 0 ++ tail) := by
    simp only [List.append_assoc]
  have hs : Slice.slice ⟨bigEndian 2 MESSAGE_TYPE_PUBLICKEYS
        ++ lengthPrefixed32 (ents.map Prod.fst) ++ (bigEndian 4 0 ++ tail), spare⟩ 0 2
      = .ok ⟨bigEndian 2 MESSAGE_TYPE_PUBLICKEYS,
          lengthPrefixed32 (ents.map Prod.fst) ++ (bigEndian 4 0 ++ tail) ++ spare⟩ := by
    have := Slice.slice_mid [] (bigEndian 2 MESSAGE_TYPE_PUBLICKEYS)
      (lengthPrefixed32 (ents.map Prod.fst) ++ (bigEndian 4 0 ++ tail)) spare 0 2 rfl
      (by rw [bigEndian_length])
    simpa only [List.nil_append, List.append_assoc] using this
  have hfuel : ents.length < (Slice.mk (bigEndian 2 MESSAGE_TYPE_PUBLICKEYS
      ++ lengthPrefixed32 (ents.map Prod.fst) ++ (bigEndian 4 0 ++ tail)) spare).len + 1 := by
    have := length_le_lengthPrefixed32 (ents.map Prod.fst)
    simp only [List.length_map] at this
    simp only [Slice.len, List.length_append, bigEndian_length]
    omega
  have := unmarshalKeysLoop_sentinel S ents (bigEndian 2 MESSAGE_TYPE_PUBLICKEYS) tail spare
    ((Slice.mk (bigEndian 2 MESSAGE_TYPE_PUBLICKEYS
      ++ lengthPrefixed32 (ents.map Prod.fst) ++ (bigEndian 4 0 ++ tail)) spare).len + 1)
    2 [] (by rw [bigEndian_length]) hfuel hent
  rw [hbuf]
  simp only [UnMarshalPublicKeyArrayFromByteArray, bind, Except.bind, pure, Except.pure, hs,
    Uint16_bigEndian]
  rw [if_neg (by decide)]
  simpa only [List.nil_append] using this

theorem UnMarshalPublicKeyArray_zero_sentinel_witness :
    UnMarshalPublicKeyArrayFromByteArray
        ⟨bigEndian 2 MESSAGE_TYPE_PUBLICKEYS ++ lengthPrefixed32 (twoKeyEntries.map Prod.fst)
          ++ bigEndian 4 0 ++ [0, 0, 0, 2, 1, 1], [5]⟩ Suite.single
      = .ok (twoKeyEntries.map Prod.snd, none) :=
  UnMarshalPublicKeyArray_zero_sentinel Suite.single twoKeyEntries
    [0, 0, 0, 2, 1, 1] [5] (by simp [twoKeyEntries, Suite.single])

/-- The bytes after the zero prefix in the run above are not skipped for being
harmless: read as an entry, without the zero prefix before them, they are rejected by
the suite. -/
theorem UnMarshalPublicKeyArray_without_sentinel :
    UnMarshalPublicKeyArrayFromByteArray
        ⟨bigEndian 2 MESSAGE_TYPE_PUBLICKEYS ++ lengthPrefixed32 (twoKeyEntries.map Prod.fst)
          ++ [0, 0, 0, 2, 1, 1], [5]⟩ Suite.single
      = .ok ([], some (NetError.suite 1)) :=
  rfl

/-! ## Timed reads: the race of the read and the timer -/

/-- C18, as stated, fails. In each of these schedules the caller reaches the `select`
only after both tasks are done with their calls, and takes an arm that is ready. The
read fails and sends before the timer fires, yet the caller leaves through the timeout
arm, which pushes the node id onto the timeout channel and nothing onto the disconnect
channel. The same happens when the caller already waits in the `select` and the read
has failed, but the timer sends before the read task does. The timer fires and sends
before the read fails, yet the caller leaves through the error arm. The read succeeds
before the timer fires, yet the caller leaves through the timeout arm, without the
data. -/
theorem ReadMessageWithTimeOut_race_examples :
    (∃ s, TimedRead.start.run [.readReturns (some NetError.EOF), .readerSends, .timerWakes,
        .timerSends, .callerSelects .timeoutChan] = some s ∧
      s.caller = .left .timeoutChan ∧
      selectArm 7 [1, 2] .timeoutChan
        = { data := none, errorDuringRead := true,
            chanForTimeoutNode := [7], chanForDisconnectedNode := [] }) ∧
    (∃ s, TimedRead.start.run [.callerParks, .readReturns (some NetError.EOF), .timerWakes,
        .timerSends] = some s ∧
      s.caller = .left .timeoutChan) ∧
    (∃ s, TimedRead.start.run [.timerWakes, .timerSends, .readReturns (some NetError.EOF),
        .readerSends, .callerSelects .errorChan] = some s ∧
      s.caller = .left .errorChan) ∧
    (∃ s, TimedRead.start.run [.readReturns none, .timerWakes, .timerSends,
        .callerSelects .timeoutChan] = some s ∧
      s.caller = .left .timeoutChan) :=
  ⟨⟨_, rfl, rfl, rfl⟩, ⟨_, rfl, rfl⟩, ⟨_, rfl, rfl⟩, ⟨_, rfl, rfl⟩⟩

/-- C18, amended. First send seen wins: in `ReadMessageWithTimeOut`, after every
schedule of the read task, the timer and the caller, some continuation of at most three
moves takes the caller out of the `select`; a caller that waits in the `select` leaves through the
arm of the first task that sends. Once the caller has left through an arm, it has left
through that arm for good, so exactly one arm runs; the event behind that arm has
happened (the timer has fired and sent, the read has failed, or the read has
succeeded); if the read has failed and the timer has not sent, it is the error arm,
which pushes the node id onto the disconnect channel exactly once, pushes nothing onto
the timeout channel and returns no data with the error flag set; if the read has
succeeded and the timer has not sent, it is the data arm, which returns the data with
the error flag clear and pushes nothing; if the read has not returned, it is the
timeout arm, which pushes the node id onto the timeout channel only and returns no
data with the error flag set. Whatever the arm, disconnect and timeout are not both
signalled. -/
theorem ReadMessageWithTimeOut_first_send_wins (moves : List Move) (s : TimedRead)
    (hrun : TimedRead.start.run moves = some s) :
    (∃ more s' arm, more.length ≤ 3 ∧ s.run more = some s' ∧ s'.caller = .left arm) ∧
    (s.caller = .parked → ∀ s',
      (s.step .timerSends = some s' → s'.caller = .left .timeoutChan) ∧
      (s.step .readerSends = some s' →
        ∃ err, Move.readReturns err ∈ moves ∧ s'.caller = .left (readTaskChan err))) ∧
    ∀ arm, s.caller = .left arm →
      (∀ more s', s.run more = some s' → s'.caller = .left arm) ∧
      resolved moves arm ∧
      ((∃ e, Move.readReturns (some e) ∈ moves) → Move.timerSends ∉ moves →
        arm = .errorChan ∧ ∀ nodeId dataHolder, selectArm nodeId dataHolder arm
          = { data := none, errorDuringRead := true,
              chanForTimeoutNode := [], chanForDisconnectedNode := [nodeId] }) ∧
      (Move.readReturns none ∈ moves → Move.timerSends ∉ moves →
        arm = .dataChan ∧ ∀ nodeId dataHolder, selectArm nodeId dataHolder arm
          = { data := some dataHolder, errorDuringRead := false,
              chanForTimeoutNode := [], chanForDisconnectedNode := [] }) ∧
      ((∀ err, Move.readReturns err ∉ moves) →
        arm = .timeoutChan ∧ ∀ nodeId dataHolder, selectArm nodeId dataHolder arm
          = { data := none, errorDuringRead := true,
              chanForTimeoutNode := [nodeId], chanForDisconnectedNode := [] }) ∧
      ∀ nodeId dataHolder,
        (selectArm nodeId dataHolder arm).chanForTimeoutNode = [] ∨
        (selectArm nodeId dataHolder arm).chanForDisconnectedNode = [] := by
  obtain ⟨i1, -, i4, i5, -, i7⟩ := TimedRead.run_start_resolved moves s hrun
  refine ⟨TimedRead.run_start_leaves moves s hrun, ?_, ?_⟩
  · intro hpark s'
    constructor
    · intro hstep
      simp only [TimedRead.step] at hstep
      split at hstep
      next c hc =>
        obtain ⟨hct, -⟩ := i1 c hc
        subst hct
        simp only [TimedRead.send, hpark, Option.map_some'] at hstep
        cases hstep
        rfl
      next => cases hstep
    · intro hstep
      simp only [TimedRead.step] at hstep
      split at hstep
      next c hc =>
        obtain ⟨err, he, hce⟩ := i4 c hc
        simp only [TimedRead.send, hpark, Option.map_some'] at hstep
        cases hstep
        exact ⟨err, he, by rw [hce]⟩
      next => cases hstep
  · intro arm hleft
    have hres := i7 arm hleft
    refine ⟨fun more s' h => TimedRead.run_left more s s' arm hleft h, hres, ?_, ?_, ?_, ?_⟩
    · rintro ⟨e, he⟩ hns
      have harm : arm = .errorChan := by
        cases arm with
        | timeoutChan => exact absurd hres.2 hns
        | errorChan => rfl
        | dataChan => cases i5 _ _ he hres
      subst harm
      exact ⟨rfl, fun _ _ => rfl⟩
    · intro hd hns
      have harm : arm = .dataChan := by
        cases arm with
        | timeoutChan => exact absurd hres.2 hns
        | errorChan =>
          obtain ⟨e, he⟩ := hres
          cases i5 _ _ he hd
        | dataChan => rfl
      subst harm
      exact ⟨rfl, fun _ _ => rfl⟩
    · intro hno
      have harm : arm = .timeoutChan := by
        cases arm with
        | timeoutChan => rfl
        | errorChan =>
          obtain ⟨e, he⟩ := hres
          exact absurd he (hno _)
        | dataChan => exact absurd hres (hno _)
      subst harm
      exact ⟨rfl, fun _ _ => rfl⟩
    · intro nodeId dataHolder
      cases arm with
      | timeoutChan => exact Or.inr rfl
      | errorChan => exact Or.inl rfl
      | dataChan => exact Or.inl rfl

theorem ReadMessageWithTimeOut_first_send_wins_witness :
    ∃ s, TimedRead.start.run
        [.callerParks, .readReturns (some NetError.EOF), .readerSends] = some s ∧
      s.caller = .left .errorChan ∧
      (∀ more s', s.run more = some s' → s'.caller = .left .errorChan) ∧
      selectArm 7 [1, 2] .errorChan
        = { data := none, errorDuringRead := true,
            chanForTimeoutNode := [], chanForDisconnectedNode := [7] } :=
  ⟨_, rfl, rfl,
    ((ReadMessageWithTimeOut_first_send_wins
      [.callerParks, .readReturns (some NetError.EOF), .readerSends] _ rfl).2.2
        .errorChan rfl).1,
    (((ReadMessageWithTimeOut_first_send_wins
      [.callerParks, .readReturns (some NetError.EOF), .readerSends] _ rfl).2.2
        .errorChan rfl).2.2.1 ⟨NetError.EOF, by simp⟩ (by simp)).2 7 [1, 2]⟩

end Daga
